import Mathlib

/-!
# ReproBLAS: indexed accumulators (update, deposit, setzero, set, convert, rescale,
scaled sums of squares) and facades

A shallow embedding of the manually specified indexed-accumulator routines of
ReproBLAS (`src/src/indexed`, `src/src/idxd`), of the entry points of
`src/src/reproBLAS`, of the parallel matrix-vector product of
`src/src/MPI_reproBLAS` and of the reference gemm of `src/tests/checks`.

* Memory is one flat array of IEEE-754 bit patterns addressed by integer offsets;
  a C pointer is an integer address and `p[k]` is the cell at `p + k`.
* A floating-point value is represented by its bit pattern (a natural number).
  Bit-level tests (`ISNANINF`, comparison with `0.0`, `q.i |= 1`) are computed on
  the pattern; rounded arithmetic and the index helpers that live outside `src/`
  are supplied through an environment record.
* `Fmt` gives an executable model of IEEE-754 binary32 and binary64 arithmetic
  (round to nearest, ties to even); it instantiates the environment records and is
  used directly where a routine computes on scalars.
* The reference gemm works on arrays of `double complex` values; its operand
  arrays, its accumulator and the output array are separate objects.
-/

namespace ReproBLAS

/-! ## Memory -/

/-- Flat memory of bit patterns, addressed by integer offsets. -/
abbrev Mem := Int → Nat

/-- The store `p[0] = v` at address `a`. -/
def Mem.write (m : Mem) (a : Int) (v : Nat) : Mem :=
  fun b => if b = a then v else m b

/-- One memory access of an instrumented loop. -/
inductive Access where
  | rd (a : Int)
  | wr (a : Int)
  deriving DecidableEq, Repr

/-- In a chronological access log no cell is read after it has been written. -/
def NoReadAfterWrite : List Access → Prop
  | [] => True
  | Access.rd _ :: rest => NoReadAfterWrite rest
  | Access.wr a :: rest => Access.rd a ∉ rest ∧ NoReadAfterWrite rest

/-! ## Bit-level tests on binary64 / binary32 patterns -/

/-- Modelled from the spec: the macro ISNANINF of common/common.h (absent from src/);
§4.1 "NaN/Inf detection: classical — exponent is all-ones", here for binary64. -/
def ISNANINF (x : Nat) : Bool :=
  decide ((x / 2 ^ 52) % 2 ^ 11 = 2 ^ 11 - 1)

/-- Modelled from the spec: the macro ISNANINFF of common/common.h (absent from src/);
§4.1 "NaN/Inf detection: classical — exponent is all-ones", here for binary32. -/
def ISNANINFF (x : Nat) : Bool :=
  decide ((x / 2 ^ 23) % 2 ^ 8 = 2 ^ 8 - 1)

/-- The C comparison `x == 0.0` on a binary64 pattern: true for `+0.0` and `-0.0`. -/
def dEqZero (x : Nat) : Bool :=
  decide (x % 2 ^ 63 = 0)

/-- The exponent field of a binary64 pattern. -/
def dExpField (x : Nat) : Nat :=
  (x / 2 ^ 52) % 2 ^ 11

/-! ## Environments for the helpers that are not part of `src/` -/

/-- Double precision index helpers used by `dmdupdate`. -/
structure DEnv where
  /-- The function `dindex(X)`. -/
  dindex : Nat → Int
  /-- The function `dmindex(priY)`, given the memory and the pointer. -/
  dmindex : Mem → Int → Int
  /-- The table `dmbins(index)[j]`. -/
  dmbins : Int → Int → Nat

/-- Modelled from the spec: the index helpers dindex, dmindex and dmbins (absent from src/),
following §3.2 and §4.1 for binary64 with bin width W = 40: the index of a scalar is its
exponent divided by W, the top index of an accumulator is read off the exponent of
primary[0], and bins(j)[i] is the power of two of index j - i. -/
def specDEnv : DEnv where
  dindex := fun x => (dExpField x : Int) / 40
  dmindex := fun m p => (dExpField (m p) : Int) / 40
  dmbins := fun j i => (40 * (j - i)).toNat * 2 ^ 52

/-! ## `dmdupdate` (src/src/indexed/dmdupdate.c) -/

/-- The loop `for(i = 0; i < n; i++){ priY[i * incpriY] = bins[i]; carY[i * inccarY] = 0.0; }`,
with `n` iterations still to run and the loop variable at `i`. -/
def seedLoop (bins : Int → Nat) (priY incpriY carY inccarY : Int) : Nat → Int → Mem → Mem
  | 0, _, m => m
  | n + 1, i, m =>
    seedLoop bins priY incpriY carY inccarY n (i + 1)
      ((m.write (priY + i * incpriY) (bins i)).write (carY + i * inccarY) 0)

/-- The loop `for(i = fold - 1; i >= shift; i--){ priY[i * incpriY] = priY[(i - shift) * incpriY];
carY[i * inccarY] = carY[(i - shift) * inccarY]; }` with its accesses logged in order.
Returns the final value of `i`, the memory and the log. -/
def shiftLoop (shift priY incpriY carY inccarY : Int) :
    Nat → Int → Mem → List Access → Int × Mem × List Access
  | 0, i, m, log => (i, m, log)
  | n + 1, i, m, log =>
    if i ≥ shift then
      let m1 := m.write (priY + i * incpriY) (m (priY + (i - shift) * incpriY))
      let m2 := m1.write (carY + i * inccarY) (m1 (carY + (i - shift) * inccarY))
      shiftLoop shift priY incpriY carY inccarY n (i - 1) m2
        (log ++ [Access.rd (priY + (i - shift) * incpriY), Access.wr (priY + i * incpriY),
                 Access.rd (carY + (i - shift) * inccarY), Access.wr (carY + i * inccarY)])
    else (i, m, log)

/-- The routine `dmdupdate(fold, X, priY, incpriY, carY, inccarY)` acting on memory `m`. -/
def dmdupdate (E : DEnv) (fold : Int) (X : Nat) (m : Mem)
    (priY incpriY carY inccarY : Int) : Mem :=
  if ISNANINF (m priY) then m
  else
    let X_index := E.dindex X
    if dEqZero (m priY) then
      seedLoop (E.dmbins X_index) priY incpriY carY inccarY fold.toNat 0 m
    else
      let shift := E.dmindex m priY - X_index
      if shift > 0 then
        let r := shiftLoop shift priY incpriY carY inccarY (fold - shift).toNat (fold - 1) m []
        seedLoop (E.dmbins X_index) priY incpriY carY inccarY (r.1 + 1).toNat 0 r.2.1
      else m

/-- The access log of the downward loop of `dmdupdate` on the shift path. -/
def dmdupdateShiftLog (E : DEnv) (fold : Int) (X : Nat) (m : Mem)
    (priY incpriY carY inccarY : Int) : List Access :=
  (shiftLoop (E.dmindex m priY - E.dindex X) priY incpriY carY inccarY
    (fold - (E.dmindex m priY - E.dindex X)).toNat (fold - 1) m []).2.2

/-- The `2 * fold` cells of a manually specified accumulator are pairwise distinct:
`primary[0 .. fold)` and `carry[0 .. fold)` are separate vectors (§3.3). -/
def SlotsDistinct (fold priY incpriY carY inccarY : Int) : Prop :=
  (∀ a b : Int, 0 ≤ a → a < fold → 0 ≤ b → b < fold → a ≠ b →
      priY + a * incpriY ≠ priY + b * incpriY) ∧
  (∀ a b : Int, 0 ≤ a → a < fold → 0 ≤ b → b < fold → a ≠ b →
      carY + a * inccarY ≠ carY + b * inccarY) ∧
  (∀ a b : Int, 0 ≤ a → a < fold → 0 ≤ b → b < fold →
      priY + a * incpriY ≠ carY + b * inccarY)

/-- A packed double accumulator of fold 3 at address 0: primary `[p0, p1, p2]`, carry `[c0, c1, c2]`. -/
def packed3 (p0 p1 p2 c0 c1 c2 : Nat) : Mem := fun a =>
  if a = 0 then p0 else if a = 1 then p1 else if a = 2 then p2
  else if a = 3 then c0 else if a = 4 then c1 else if a = 5 then c2 else 0


/-! ## Single precision deposit (src/src/idxd/smsdeposit.c, src/src/idxd/cmcdeposit.c) -/

/-- Single precision arithmetic and helpers used by the deposit routines. A value of type
`float` is its binary32 bit pattern. -/
structure SEnv where
  /-- The rounded sum `a + b`. -/
  fadd : Nat → Nat → Nat
  /-- The rounded difference `a - b`. -/
  fsub : Nat → Nat → Nat
  /-- The product `x * idxd_SMCOMPRESSION`. -/
  mulCompression : Nat → Nat
  /-- The product `M * (idxd_SMEXPANSION * 0.5)`. -/
  mulExpansionHalf : Nat → Nat
  /-- Modelled from the spec: the test idxd_smindex0(priY) (absent from src/), as a function of
  the value priY[0]; by §4.1 the test on a primary vector p inspects p[0] only. -/
  smindex0 : Nat → Bool

/-- The loop body shared by both branches of `idxd_smsdeposit`:
`M = priY[i * incpriY]; q.f = x; q.i |= 1; q.f += M; priY[i * incpriY] = q.f; M -= q.f; x += M;`
run `n` times from loop variable `i`. Returns the final `i`, the final `x` and the memory. -/
def smsLoop (E : SEnv) (priY incpriY : Int) : Nat → Int → Nat → Mem → Int × Nat × Mem
  | 0, i, x, m => (i, x, m)
  | n + 1, i, x, m =>
    let M := m (priY + i * incpriY)
    let q := E.fadd (x ||| 1) M
    smsLoop E priY incpriY n (i + 1) (E.fadd x (E.fsub M q)) (m.write (priY + i * incpriY) q)

/-- The routine `idxd_smsdeposit(fold, X, priY, incpriY)` acting on memory `m`. -/
def idxd_smsdeposit (E : SEnv) (fold : Int) (X : Nat) (m : Mem) (priY incpriY : Int) : Mem :=
  if ISNANINFF X || ISNANINFF (m priY) then
    m.write priY (E.fadd (m priY) X)
  else if E.smindex0 (m priY) then
    let M := m priY
    let q := E.fadd (E.mulCompression X ||| 1) M
    let m1 := m.write priY q
    let M1 := E.mulExpansionHalf (E.fsub M q)
    let r := smsLoop E priY incpriY (fold - 1 - 1).toNat 1 (E.fadd (E.fadd X M1) M1) m1
    r.2.2.write (priY + r.1 * incpriY) (E.fadd (r.2.2 (priY + r.1 * incpriY)) (r.2.1 ||| 1))
  else
    let r := smsLoop E priY incpriY (fold - 1).toNat 0 X m
    r.2.2.write (priY + r.1 * incpriY) (E.fadd (r.2.2 (priY + r.1 * incpriY)) (r.2.1 ||| 1))

/-- The interleaved loop of `idxd_cmcdeposit`, run `n` times from loop variable `i`.
Returns the final `i`, `xR`, `xI` and the memory. -/
def cmcLoop (E : SEnv) (priY incpriY : Int) :
    Nat → Int → Nat → Nat → Mem → Int × Nat × Nat × Mem
  | 0, i, xR, xI, m => (i, xR, xI, m)
  | n + 1, i, xR, xI, m =>
    let MR := m (priY + i * 2 * incpriY)
    let MI := m (priY + (i * 2 * incpriY + 1))
    let qR := E.fadd (xR ||| 1) MR
    let qI := E.fadd (xI ||| 1) MI
    let m1 := m.write (priY + i * 2 * incpriY) qR
    let m2 := m1.write (priY + (i * 2 * incpriY + 1)) qI
    cmcLoop E priY incpriY n (i + 1) (E.fadd xR (E.fsub MR qR)) (E.fadd xI (E.fsub MI qI)) m2

/-- The routine `idxd_cmcdeposit(fold, X, priY, incpriY)` acting on memory `m`; the complex
scalar `X` is the pair of its real and imaginary parts. -/
def idxd_cmcdeposit (E : SEnv) (fold : Int) (X : Nat × Nat) (m : Mem) (priY incpriY : Int) :
    Mem :=
  if ISNANINFF X.1 || ISNANINFF (m priY) then
    idxd_smsdeposit E fold X.2 (m.write priY (E.fadd (m priY) X.1)) (priY + 1) (2 * incpriY)
  else if ISNANINFF X.2 || ISNANINFF (m (priY + 1)) then
    idxd_smsdeposit E fold X.1 (m.write (priY + 1) (E.fadd (m (priY + 1)) X.2)) priY
      (2 * incpriY)
  else if E.smindex0 (m priY) || E.smindex0 (m (priY + 1)) then
    idxd_smsdeposit E fold X.2 (idxd_smsdeposit E fold X.1 m priY (2 * incpriY)) (priY + 1)
      (2 * incpriY)
  else
    let r := cmcLoop E priY incpriY (fold - 1).toNat 0 X.1 X.2 m
    let m1 := r.2.2.2.write (priY + r.1 * 2 * incpriY)
      (E.fadd (r.2.2.2 (priY + r.1 * 2 * incpriY)) (r.2.1 ||| 1))
    m1.write (priY + (r.1 * 2 * incpriY + 1))
      (E.fadd (m1 (priY + (r.1 * 2 * incpriY + 1))) (r.2.2.1 ||| 1))

/-- The routine `cmcdeposit` called by `cicdeposit`. The directories indexed/ and idxd/ hold the
same routines under the older and the newer naming (compare indexed/zmzdeposit.c with
idxd/cmcdeposit.c), so it is the routine of src/src/idxd/cmcdeposit.c. -/
def cmcdeposit (E : SEnv) (fold : Int) (X : Nat × Nat) (m : Mem) (priY incpriY : Int) : Mem :=
  idxd_cmcdeposit E fold X m priY incpriY

/-- The routine `cicdeposit(fold, X, Y)` of src/src/indexed/cicdeposit.c on a packed complex
accumulator at address `Y`: it forwards to the manual deposit with stride 1. -/
def cicdeposit (E : SEnv) (fold : Int) (X : Nat × Nat) (m : Mem) (Y : Int) : Mem :=
  cmcdeposit E fold X m Y 1

/-- Address `a` is none of the cells `p[k * step]` with `lo <= k <= hi`. -/
def OffLane (a p step lo hi : Int) : Prop :=
  ∀ k : Int, lo ≤ k → k ≤ hi → a ≠ p + k * step

/-- A small single precision environment for evaluating examples: integer arithmetic on the
patterns, compression and expansion by the identity, and index 0 detected on pattern 0. -/
def sampleSEnv : SEnv where
  fadd := fun a b => a + b
  fsub := fun a b => a - b
  mulCompression := fun x => x
  mulExpansionHalf := fun x => x
  smindex0 := fun x => decide (x = 0)

/-- A memory holding the listed values at addresses 0, 1, 2, ... and 0 elsewhere. -/
def memOfList (l : List Nat) : Mem := fun a =>
  if 0 ≤ a then l.getD a.toNat 0 else 0

/-! ## IEEE-754 binary formats on bit patterns

The arithmetic of the C types `float` and `double`: round-to-nearest-even on binary32 and
binary64, computed on bit patterns. The value of a finite pattern is an integer multiple of
the smallest subnormal of its format. -/

/-- A binary interchange format with `eb` exponent bits and `mb` stored significand bits. -/
structure Fmt where
  eb : Nat
  mb : Nat
  deriving DecidableEq, Repr

/-- The format of the C type `float`. -/
def binary32 : Fmt := ⟨8, 23⟩

/-- The format of the C type `double`. -/
def binary64 : Fmt := ⟨11, 52⟩

/-- The sign bit of a pattern. -/
def Fmt.sign (F : Fmt) (x : Nat) : Bool :=
  decide ((x / 2 ^ (F.eb + F.mb)) % 2 = 1)

/-- The exponent field of a pattern. -/
def Fmt.expField (F : Fmt) (x : Nat) : Nat :=
  (x / 2 ^ F.mb) % 2 ^ F.eb

/-- The fraction field of a pattern. -/
def Fmt.frac (F : Fmt) (x : Nat) : Nat :=
  x % 2 ^ F.mb

/-- The exponent bias. -/
def Fmt.bias (F : Fmt) : Nat :=
  2 ^ (F.eb - 1) - 1

/-- The C macro `isnan`. -/
def Fmt.isNaN (F : Fmt) (x : Nat) : Bool :=
  decide (F.expField x = 2 ^ F.eb - 1) && decide (F.frac x ≠ 0)

/-- The C macro `isinf`. -/
def Fmt.isInf (F : Fmt) (x : Nat) : Bool :=
  decide (F.expField x = 2 ^ F.eb - 1) && decide (F.frac x = 0)

/-- The pattern is NaN or an infinity: its exponent field is all ones. -/
def Fmt.isNanInf (F : Fmt) (x : Nat) : Bool :=
  decide (F.expField x = 2 ^ F.eb - 1)

/-- The pattern is `+0.0` or `-0.0`. -/
def Fmt.isZero (F : Fmt) (x : Nat) : Bool :=
  decide (F.expField x = 0) && decide (F.frac x = 0)

/-- The C comparison `a == b`: false when an operand is NaN, true for zeros of either sign. -/
def Fmt.eq (F : Fmt) (a b : Nat) : Bool :=
  !F.isNaN a && !F.isNaN b &&
    (decide (a % 2 ^ (F.eb + F.mb + 1) = b % 2 ^ (F.eb + F.mb + 1)) ||
      (F.isZero a && F.isZero b))

/-- The canonical quiet NaN (IEEE-754 does not fix the payload of a NaN result). -/
def Fmt.qNaN (F : Fmt) : Nat :=
  (2 ^ F.eb - 1) * 2 ^ F.mb + 2 ^ (F.mb - 1)

/-- The infinity of the given sign. -/
def Fmt.inf (F : Fmt) (s : Bool) : Nat :=
  (if s then 2 ^ (F.eb + F.mb) else 0) + (2 ^ F.eb - 1) * 2 ^ F.mb

/-- The zero of the given sign. -/
def Fmt.zero (F : Fmt) (s : Bool) : Nat :=
  if s then 2 ^ (F.eb + F.mb) else 0

/-- The integer significand of a finite pattern. -/
def Fmt.sig (F : Fmt) (x : Nat) : Nat :=
  if F.expField x = 0 then F.frac x else 2 ^ F.mb + F.frac x

/-- The binary exponent of the unit of a finite pattern, counted from the smallest subnormal. -/
def Fmt.sexp (F : Fmt) (x : Nat) : Nat :=
  F.expField x - 1

/-- The magnitude of a finite pattern in units of the smallest subnormal. -/
def Fmt.mag (F : Fmt) (x : Nat) : Nat :=
  F.sig x <<< F.sexp x

/-- The value of a finite pattern in units of the smallest subnormal. -/
def Fmt.toInt (F : Fmt) (x : Nat) : Int :=
  if F.sign x then -(F.mag x : Int) else (F.mag x : Int)

/-- Binary search for the position of the leading bit: given `2 ^ lo ≤ n < 2 ^ (lo + 2 ^ k)`
it returns the `l` with `2 ^ l ≤ n < 2 ^ (l + 1)`. -/
def leadingBit : Nat → Nat → Nat → Nat
  | 0, lo, _ => lo
  | k + 1, lo, n =>
    if n >>> (lo + 2 ^ k) ≠ 0 then leadingBit k (lo + 2 ^ k) n else leadingBit k lo n

/-- The number of bits of `n > 0` (for `n < 2 ^ 8192`). -/
def bitLen (n : Nat) : Nat :=
  leadingBit 13 0 n + 1

/-- Digit-by-digit integer square root: given `r * r ≤ n < (r + 2 ^ (k + 1)) ^ 2` with `r` a
multiple of `2 ^ (k + 1)` it returns the largest `q` with `q * q ≤ n`. -/
def isqrtLoop : Nat → Nat → Nat → Nat
  | 0, r, n => if (r + 1) * (r + 1) ≤ n then r + 1 else r
  | k + 1, r, n =>
    isqrtLoop k (if (r + 2 ^ (k + 1)) * (r + 2 ^ (k + 1)) ≤ n then r + 2 ^ (k + 1) else r) n

/-- The integer square root of `n`. -/
def isqrt (n : Nat) : Nat :=
  isqrtLoop (bitLen n / 2 + 1) 0 n

/-- Round the magnitude `n * 2 ^ e` (in units of the smallest subnormal, `n > 0`) to nearest,
ties to even, and pack it with sign `s`; overflow gives an infinity. -/
def Fmt.roundPack (F : Fmt) (s : Bool) (n : Nat) (e : Int) : Nat :=
  let len : Int := (bitLen n : Nat)
  let u : Int := max 0 (len + e - (F.mb + 1))
  let d : Int := u - e
  let q : Nat :=
    if d ≤ 0 then n <<< (-d).toNat
    else
      let q0 := n >>> d.toNat
      let r := n - (q0 <<< d.toNat)
      let half := 1 <<< (d.toNat - 1)
      if r > half ∨ (r = half ∧ q0 % 2 = 1) then q0 + 1 else q0
  let p := u.toNat * 2 ^ F.mb + q
  if p ≥ (2 ^ F.eb - 1) * 2 ^ F.mb then F.inf s else F.zero s + p

/-- The sum `a + b`. -/
def Fmt.add (F : Fmt) (a b : Nat) : Nat :=
  if F.isNaN a || F.isNaN b then F.qNaN
  else if F.isInf a then
    if F.isInf b && (F.sign a != F.sign b) then F.qNaN else F.inf (F.sign a)
  else if F.isInf b then F.inf (F.sign b)
  else
    let v := F.toInt a + F.toInt b
    if v = 0 then F.zero (F.sign a && F.sign b)
    else F.roundPack (decide (v < 0)) v.natAbs 0

/-- The pattern of `-x`. -/
def Fmt.neg (F : Fmt) (x : Nat) : Nat :=
  if F.sign x then x - 2 ^ (F.eb + F.mb) else x + 2 ^ (F.eb + F.mb)

/-- The difference `a - b`. -/
def Fmt.sub (F : Fmt) (a b : Nat) : Nat :=
  F.add a (F.neg b)

/-- The product `a * b`. -/
def Fmt.mul (F : Fmt) (a b : Nat) : Nat :=
  if F.isNaN a || F.isNaN b then F.qNaN
  else if F.isInf a || F.isInf b then
    if F.isZero a || F.isZero b then F.qNaN else F.inf (F.sign a != F.sign b)
  else if F.isZero a || F.isZero b then F.zero (F.sign a != F.sign b)
  else
    F.roundPack (F.sign a != F.sign b) (F.sig a * F.sig b)
      ((F.sexp a : Int) + F.sexp b + 1 - F.bias - F.mb)

/-- The quotient `a / b`. -/
def Fmt.div (F : Fmt) (a b : Nat) : Nat :=
  if F.isNaN a || F.isNaN b then F.qNaN
  else if F.isInf a then
    if F.isInf b then F.qNaN else F.inf (F.sign a != F.sign b)
  else if F.isInf b then F.zero (F.sign a != F.sign b)
  else if F.isZero b then
    if F.isZero a then F.qNaN else F.inf (F.sign a != F.sign b)
  else if F.isZero a then F.zero (F.sign a != F.sign b)
  else
    let k := 2 * F.mb + 6
    let q := (F.sig a * 2 ^ k) / F.sig b
    let r := (F.sig a * 2 ^ k) % F.sig b
    let e : Int := (F.sexp a : Int) - F.sexp b + F.bias + F.mb - 1 - k
    if r = 0 then F.roundPack (F.sign a != F.sign b) q e
    else F.roundPack (F.sign a != F.sign b) (2 * q + 1) (e - 1)

/-- The square root of `x`. -/
def Fmt.sqrt (F : Fmt) (x : Nat) : Nat :=
  if F.isNaN x then F.qNaN
  else if F.isZero x then x
  else if F.sign x then F.qNaN
  else if F.isInf x then x
  else
    let k := F.mb + 4
    let t := F.sexp x + F.bias + F.mb - 1
    let n := F.sig x * 2 ^ (t % 2 + 2 * k)
    let q := isqrt n
    if q * q = n then F.roundPack false q ((t / 2 : Nat) - (k : Int))
    else F.roundPack false (2 * q + 1) ((t / 2 : Nat) - (k : Int) - 1)

/-- Conversion of a pattern of format `F` to format `G` (the C conversions between `float`
and `double`). -/
def Fmt.convert (F G : Fmt) (x : Nat) : Nat :=
  if F.isNaN x then G.qNaN
  else if F.isInf x then G.inf (F.sign x)
  else if F.isZero x then G.zero (F.sign x)
  else
    G.roundPack (F.sign x) (F.sig x)
      ((F.sexp x : Int) + G.bias + G.mb - F.bias - F.mb)

/-! ## IEEE environments for the deposit routines -/

/-- Addition in a single precision environment keeps NaN and infinities: a sum with a NaN or
infinite operand is NaN or infinite (IEEE-754, operations on NaN and infinity). -/
def SEnv.AddKeepsNanInf (E : SEnv) : Prop :=
  ∀ a b : Nat, ISNANINFF a = true ∨ ISNANINFF b = true → ISNANINFF (E.fadd a b) = true

/-- Modelled from the spec: a single precision environment with IEEE-754 arithmetic. The
constants idxd_SMCOMPRESSION and idxd_SMEXPANSION (absent from src/) are the paired scaling
constants of §4.2, taken as 2^-12 and 2^12; idxd_smindex0 is the test of §4.1 that p[0]
equals +0.0. -/
def ieeeSEnv : SEnv where
  fadd := binary32.add
  fsub := binary32.sub
  mulCompression := fun x => binary32.mul x (115 * 2 ^ 23)
  mulExpansionHalf := fun x =>
    Fmt.convert binary64 binary32
      (binary64.mul (Fmt.convert binary32 binary64 x) (1034 * 2 ^ 52))
  smindex0 := fun x => decide (x = 0)

/-! ## Double precision deposit (src/src/indexed/zmzdeposit.c) -/

/-- Double precision arithmetic and helpers used by the deposit routines. A value of type
`double` is its binary64 bit pattern. -/
structure DArith where
  /-- The rounded sum `a + b`. -/
  fadd : Nat → Nat → Nat
  /-- The rounded difference `a - b`. -/
  fsub : Nat → Nat → Nat
  /-- The product `x * DMCOMPRESSION`. -/
  mulCompression : Nat → Nat
  /-- The product `M * (DMEXPANSION * 0.5)`. -/
  mulExpansionHalf : Nat → Nat
  /-- Modelled from the spec: the test dmindex0(priY) (absent from src/), as a function of the
  value priY[0]; by §4.1 the test on a primary vector p inspects p[0] only. -/
  dmindex0 : Nat → Bool

/-- Addition in a double precision environment keeps NaN and infinities. -/
def DArith.AddKeepsNanInf (A : DArith) : Prop :=
  ∀ a b : Nat, ISNANINF a = true ∨ ISNANINF b = true → ISNANINF (A.fadd a b) = true

/-- Modelled from the spec: a double precision environment with IEEE-754 arithmetic; the
paired scaling constants of §4.2 are taken as 2^-14 and 2^14 and dmindex0 is the test of §4.1
that p[0] equals +0.0. -/
def ieeeDArith : DArith where
  fadd := binary64.add
  fsub := binary64.sub
  mulCompression := fun x => binary64.mul x (1009 * 2 ^ 52)
  mulExpansionHalf := fun x => binary64.mul x (1036 * 2 ^ 52)
  dmindex0 := fun x => decide (x = 0)

/-- The deposit loop body in double precision:
`M = priY[i * incpriY]; q.d = x; q.l |= 1; q.d += M; priY[i * incpriY] = q.d; M -= q.d; x += M;`
run `n` times from loop variable `i`. -/
def dmdLoop (A : DArith) (priY incpriY : Int) : Nat → Int → Nat → Mem → Int × Nat × Mem
  | 0, i, x, m => (i, x, m)
  | n + 1, i, x, m =>
    let M := m (priY + i * incpriY)
    let q := A.fadd (x ||| 1) M
    dmdLoop A priY incpriY n (i + 1) (A.fadd x (A.fsub M q)) (m.write (priY + i * incpriY) q)

/-- Modelled from the spec: the routine dmddeposit(fold, X, priY, incpriY) called by zmzdeposit
(absent from src/), the deposit of §4.3.3 in double precision: tainted fast path, the
compressed top bin on the index-0 path, the middle bins and the bottom bin; it has the
structure of its single precision sibling idxd_smsdeposit. -/
def dmddeposit (A : DArith) (fold : Int) (X : Nat) (m : Mem) (priY incpriY : Int) : Mem :=
  if ISNANINF X || ISNANINF (m priY) then
    m.write priY (A.fadd (m priY) X)
  else if A.dmindex0 (m priY) then
    let M := m priY
    let q := A.fadd (A.mulCompression X ||| 1) M
    let m1 := m.write priY q
    let M1 := A.mulExpansionHalf (A.fsub M q)
    let r := dmdLoop A priY incpriY (fold - 1 - 1).toNat 1 (A.fadd (A.fadd X M1) M1) m1
    r.2.2.write (priY + r.1 * incpriY) (A.fadd (r.2.2 (priY + r.1 * incpriY)) (r.2.1 ||| 1))
  else
    let r := dmdLoop A priY incpriY (fold - 1).toNat 0 X m
    r.2.2.write (priY + r.1 * incpriY) (A.fadd (r.2.2 (priY + r.1 * incpriY)) (r.2.1 ||| 1))

/-- The interleaved loop of `zmzdeposit`, run `n` times from loop variable `i`.
Returns the final `i`, `xR`, `xI` and the memory. -/
def zmzLoop (A : DArith) (priY incpriY : Int) :
    Nat → Int → Nat → Nat → Mem → Int × Nat × Nat × Mem
  | 0, i, xR, xI, m => (i, xR, xI, m)
  | n + 1, i, xR, xI, m =>
    let MR := m (priY + i * 2 * incpriY)
    let MI := m (priY + (i * 2 * incpriY + 1))
    let qR := A.fadd (xR ||| 1) MR
    let qI := A.fadd (xI ||| 1) MI
    let m1 := m.write (priY + i * 2 * incpriY) qR
    let m2 := m1.write (priY + (i * 2 * incpriY + 1)) qI
    zmzLoop A priY incpriY n (i + 1) (A.fadd xR (A.fsub MR qR)) (A.fadd xI (A.fsub MI qI)) m2

/-- The routine `zmzdeposit(fold, X, priY, incpriY)` acting on memory `m`; the complex scalar
`X` is the pair of its real and imaginary parts. -/
def zmzdeposit (A : DArith) (fold : Int) (X : Nat × Nat) (m : Mem) (priY incpriY : Int) : Mem :=
  if ISNANINF X.1 || ISNANINF (m priY) then
    dmddeposit A fold X.2 (m.write priY (A.fadd (m priY) X.1)) (priY + 1) (2 * incpriY)
  else if ISNANINF X.2 || ISNANINF (m (priY + 1)) then
    dmddeposit A fold X.1 (m.write (priY + 1) (A.fadd (m (priY + 1)) X.2)) priY (2 * incpriY)
  else if A.dmindex0 (m priY) || A.dmindex0 (m (priY + 1)) then
    dmddeposit A fold X.2 (dmddeposit A fold X.1 m priY (2 * incpriY)) (priY + 1) (2 * incpriY)
  else
    let r := zmzLoop A priY incpriY (fold - 1).toNat 0 X.1 X.2 m
    let m1 := r.2.2.2.write (priY + r.1 * 2 * incpriY)
      (A.fadd (r.2.2.2 (priY + r.1 * 2 * incpriY)) (r.2.1 ||| 1))
    m1.write (priY + (r.1 * 2 * incpriY + 1))
      (A.fadd (m1 (priY + (r.1 * 2 * incpriY + 1))) (r.2.2.1 ||| 1))

/-! ## Zeroing packed accumulators (src/src/idxd/cisetzero.c, src/src/idxd/zisetzero.c) -/

/-- The call `memset(p, 0, n)` on an array of scalars of `size` bytes each: the `n / size`
scalars at `p` receive the all-zero pattern, which is `+0.0`. -/
def memsetZero (m : Mem) (p : Int) (n size : Nat) : Mem :=
  fun a => if p ≤ a ∧ a < p + ((n / size : Nat) : Int) then 0 else m a

/-- Modelled from the spec: idxd_sisize(fold) (absent from src/), the size in bytes of a packed
real single accumulator: 2*fold scalars (§3.3) of sizeof(float) = 4 bytes. -/
def idxd_sisize (fold : Int) : Nat :=
  (2 * fold).toNat * 4

/-- Modelled from the spec: idxd_cisize(fold) (absent from src/), the size in bytes of a packed
complex single accumulator: 4*fold scalars (§3.3) of sizeof(float) = 4 bytes. -/
def idxd_cisize (fold : Int) : Nat :=
  (4 * fold).toNat * 4

/-- Modelled from the spec: idxd_zisize(fold) (absent from src/), the size in bytes of a packed
complex double accumulator: 4*fold scalars (§3.3) of sizeof(double) = 8 bytes. -/
def idxd_zisize (fold : Int) : Nat :=
  (4 * fold).toNat * 8

/-- The routine `idxd_cisetzero(fold, X)`: `memset(X, 0, idxd_cisize(fold))`. -/
def idxd_cisetzero (fold : Int) (m : Mem) (X : Int) : Mem :=
  memsetZero m X (idxd_cisize fold) 4

/-- The routine `idxd_zisetzero(fold, X)`: `memset(X, 0, idxd_zisize(fold))`. -/
def idxd_zisetzero (fold : Int) (m : Mem) (X : Int) : Mem :=
  memsetZero m X (idxd_zisize fold) 8

/-- Modelled from the spec: the routine idxd_sisetzero(fold, X) (absent from src/), the setzero
of §4.3.1 on a packed real single accumulator, written like its siblings idxd_cisetzero and
idxd_zisetzero as memset(X, 0, idxd_sisize(fold)). -/
def idxd_sisetzero (fold : Int) (m : Mem) (X : Int) : Mem :=
  memsetZero m X (idxd_sisize fold) 4

/-! ## Complex conversion (src/src/idxd/zzmconv_sub.c) -/

/-- The type of the real conversion `idxd_ddmconv(fold, priX, incpriX, carX, inccarX)`, which is
not part of src/: fold, memory, primary pointer and stride, carry pointer and stride. -/
abbrev ConvFn := Int → Mem → Int → Int → Int → Int → Nat

/-- The routine `idxd_zzmconv_sub(fold, priX, incpriX, carX, inccarX, conv)`: it stores the two
conversions at `conv[0]` and `conv[1]`. -/
def idxd_zzmconv_sub (ddmconv : ConvFn) (fold : Int) (m : Mem)
    (priX incpriX carX inccarX conv : Int) : Mem :=
  let m1 := m.write conv (ddmconv fold m priX (incpriX * 2) carX (inccarX + 1))
  m1.write (conv + 1) (ddmconv fold m1 (priX + 1) (incpriX * 2) (carX + 1) (inccarX + 1))

/-- The lane-wise conversion in the words of the specification: the real lane and the
imaginary lane are converted with the doubled strides `2 * incpriX` and `2 * inccarX`. -/
def zzmconv_lanewise (ddmconv : ConvFn) (fold : Int) (m : Mem)
    (priX incpriX carX inccarX conv : Int) : Mem :=
  let m1 := m.write conv (ddmconv fold m priX (2 * incpriX) carX (2 * inccarX))
  m1.write (conv + 1) (ddmconv fold m1 (priX + 1) (2 * incpriX) (carX + 1) (2 * inccarX))

/-- A sample conversion for evaluating examples: the IEEE sum, from the top bin down, of
primary[i * incpriX] and carry[i * inccarX] for i < fold. Like every conversion it reads
exactly the fold primary and the fold carry cells selected by the strides. -/
def sampleConv : ConvFn := fun fold m priX incpriX carX inccarX =>
  (List.range fold.toNat).foldl
    (fun acc i => binary64.add (binary64.add acc (m (priX + i * incpriX)))
      (m (carX + i * inccarX))) 0

/-! ## Rescaling (src/src/indexed/smsrescale.c, src/src/indexed/zmdrescale.c,
src/src/idxd/zmdrescale.c) -/

/-- Arithmetic and the update routine used by a rescale routine. The field `update` is the
routine the rescale calls on underflow (smsupdate, zmdupdate or idxd_zmdupdate, none of
which is part of src/), with arguments fold, X, memory, priY, incpriY, carY, inccarY. -/
structure RescaleEnv where
  /-- The rounded quotient `a / b`. -/
  fdiv : Nat → Nat → Nat
  /-- The rounded product `a * b`. -/
  fmul : Nat → Nat → Nat
  /-- The update routine called on underflow. -/
  update : Int → Nat → Mem → Int → Int → Int → Int → Mem

/-- The loop of `smsrescale`, with `n` iterations still to run and the loop variable at `i`.
Returns the bin at which the update was called, if it was, and the memory. -/
def smsrescaleLoop (E : RescaleEnv) (fold : Int) (rescaleY : Nat)
    (priY incpriY carY inccarY : Int) : Nat → Int → Mem → Option Int × Mem
  | 0, _, m => (none, m)
  | n + 1, i, m =>
    let m1 := m.write (priY + i * incpriY) (E.fdiv (m (priY + i * incpriY)) rescaleY)
    if binary32.isZero (m1 (priY + i * incpriY)) then
      (some i, E.update (fold - i) 0 m1 (priY + i * incpriY) incpriY (carY + i * inccarY)
        inccarY)
    else smsrescaleLoop E fold rescaleY priY incpriY carY inccarY n (i + 1) m1

/-- The routine `smsrescale(fold, X, scaleY, priY, incpriY, carY, inccarY)`: the bin at which
the update was called, if it was, and the memory. -/
def smsrescaleRun (E : RescaleEnv) (fold : Int) (X scaleY : Nat) (m : Mem)
    (priY incpriY carY inccarY : Int) : Option Int × Mem :=
  if binary32.eq X scaleY || binary32.isZero X || binary32.isZero scaleY then (none, m)
  else
    let rescaleY := E.fdiv X scaleY
    smsrescaleLoop E fold (E.fmul rescaleY rescaleY) priY incpriY carY inccarY fold.toNat 0 m

/-- The routine `smsrescale(fold, X, scaleY, priY, incpriY, carY, inccarY)` acting on memory. -/
def smsrescale (E : RescaleEnv) (fold : Int) (X scaleY : Nat) (m : Mem)
    (priY incpriY carY inccarY : Int) : Mem :=
  (smsrescaleRun E fold X scaleY m priY incpriY carY inccarY).2

/-- The loop shared by `zmdrescale` and `idxd_zmdrescale`, with `n` iterations still to run and
the loop variable at `i`. Returns the bin at which the update was called, if it was, and the
memory. -/
def zmdrescaleLoop (E : RescaleEnv) (fold : Int) (rescaleY : Nat)
    (priY incpriY carY inccarY : Int) : Nat → Int → Mem → Option Int × Mem
  | 0, _, m => (none, m)
  | n + 1, i, m =>
    let m1 := m.write (priY + i * 2 * incpriY) (E.fdiv (m (priY + i * 2 * incpriY)) rescaleY)
    let m2 := m1.write (priY + (i * 2 * incpriY + 1))
      (E.fdiv (m1 (priY + (i * 2 * incpriY + 1))) rescaleY)
    if binary64.isZero (m2 (priY + i * incpriY)) then
      (some i, E.update (fold - i) 0 m2 (priY + i * 2 * incpriY) incpriY
        (carY + i * 2 * inccarY) inccarY)
    else zmdrescaleLoop E fold rescaleY priY incpriY carY inccarY n (i + 1) m2

/-- The routine `idxd_zmdrescale(fold, X, scaleY, priY, incpriY, carY, inccarY)` of
src/src/idxd/zmdrescale.c: the bin at which idxd_zmdupdate was called, if it was, and the
memory. -/
def idxd_zmdrescaleRun (E : RescaleEnv) (fold : Int) (X scaleY : Nat) (m : Mem)
    (priY incpriY carY inccarY : Int) : Option Int × Mem :=
  if binary64.eq X scaleY || binary64.isZero X || binary64.isZero scaleY then (none, m)
  else
    let rescaleY := E.fdiv X scaleY
    zmdrescaleLoop E fold (E.fmul rescaleY rescaleY) priY incpriY carY inccarY fold.toNat 0 m

/-- The routine `idxd_zmdrescale` acting on memory. -/
def idxd_zmdrescale (E : RescaleEnv) (fold : Int) (X scaleY : Nat) (m : Mem)
    (priY incpriY carY inccarY : Int) : Mem :=
  (idxd_zmdrescaleRun E fold X scaleY m priY incpriY carY inccarY).2

/-- The routine `zmdrescale(fold, X, scaleY, priY, incpriY, carY, inccarY)` of
src/src/indexed/zmdrescale.c, whose body is that of `idxd_zmdrescale` with zmdupdate for
idxd_zmdupdate: the bin at which zmdupdate was called, if it was, and the memory. -/
def zmdrescaleRun (E : RescaleEnv) (fold : Int) (X scaleY : Nat) (m : Mem)
    (priY incpriY carY inccarY : Int) : Option Int × Mem :=
  if binary64.eq X scaleY || binary64.isZero X || binary64.isZero scaleY then (none, m)
  else
    let rescaleY := E.fdiv X scaleY
    zmdrescaleLoop E fold (E.fmul rescaleY rescaleY) priY incpriY carY inccarY fold.toNat 0 m

/-- The routine `zmdrescale` acting on memory. -/
def zmdrescale (E : RescaleEnv) (fold : Int) (X scaleY : Nat) (m : Mem)
    (priY incpriY carY inccarY : Int) : Mem :=
  (zmdrescaleRun E fold X scaleY m priY incpriY carY inccarY).2

/-- Modelled from the spec: the routine zmdupdate (idxd_zmdupdate), absent from src/; by §4.3.2
the complex update runs update on the real lane and then on the imaginary lane, here with
the real magnitude X for both, with the doubled strides of the sibling idxd_cmcupdate. -/
def zmdupdate (D : DEnv) (fold : Int) (X : Nat) (m : Mem) (priY incpriY carY inccarY : Int) :
    Mem :=
  dmdupdate D fold X (dmdupdate D fold X m priY (2 * incpriY) carY (2 * inccarY))
    (priY + 1) (2 * incpriY) (carY + 1) (2 * inccarY)

/-- A double precision rescale environment with IEEE-754 arithmetic and the update modelled
from the specification. -/
def ieeeRescaleEnv64 : RescaleEnv where
  fdiv := binary64.div
  fmul := binary64.mul
  update := zmdupdate specDEnv

/-- A single precision rescale environment with IEEE-754 arithmetic; the update (smsupdate,
absent from src/) is a sample that leaves the memory as it is. -/
def ieeeRescaleEnv32 : RescaleEnv where
  fdiv := binary32.div
  fmul := binary32.mul
  update := fun _ _ m _ _ _ _ => m

/-! ## The norm facades (src/src/reproBLAS/rsnrm2.c, src/src/reproBLAS/rscnrm2.c) and
allocation (src/src/idxd/cialloc.c) -/

/-- The routine `idxd_cialloc(fold)`: `malloc(idxd_cisize(fold))`, where `malloc` gives the
address of the block or 0 (NULL) when the allocation fails. -/
def idxd_cialloc (malloc : Nat → Int) (fold : Int) : Int :=
  malloc (idxd_cisize fold)

/-- Modelled from the spec: the routine idxd_sialloc(fold) (absent from src/), the allocation
of §3.5 for a packed real single accumulator, written like its sibling idxd_cialloc as
malloc(idxd_sisize(fold)). -/
def idxd_sialloc (malloc : Nat → Int) (fold : Int) : Int :=
  malloc (idxd_sisize fold)

/-- A call that a facade makes on its accumulator: `setzero` writes through the pointer, the
kernel reads and writes through it, `convert` reads through it. -/
inductive AccCall where
  | setzero (p : Int)
  | kernel (p : Int)
  | convert (p : Int)
  | free (p : Int)
  deriving DecidableEq, Repr

/-- What a facade returns, the memory it leaves and the calls it made on its accumulator. -/
structure FacadeRun where
  result : Nat
  mem : Mem
  calls : List AccCall

/-- The allocator, the kernel and the conversion used by `reproBLAS_rsnrm2`; the last two are
not part of src/. -/
structure SNrm2Env where
  /-- The allocator `malloc(size)`: the address of the block, 0 (NULL) on failure. -/
  malloc : Nat → Int
  /-- The kernel `idxdBLAS_sisssq(fold, N, X, incX, scaleY, Y)`: fold, N, X, incX, scaleY, the
  memory and Y; it returns the new scale and the memory. -/
  idxdBLAS_sisssq : Int → Int → Int → Int → Nat → Mem → Int → Nat × Mem
  /-- The conversion `idxd_ssiconv(fold, X)`: fold, the memory and X. -/
  idxd_ssiconv : Int → Mem → Int → Nat

/-- The expression `scl * sqrt(c)` of `reproBLAS_rsnrm2` for `float` operands: by the C
conversions both are promoted to `double`, `sqrt` and the product are computed in `double`
and the result is converted to `float`. -/
def sclTimesSqrt (scl c : Nat) : Nat :=
  Fmt.convert binary64 binary32
    (binary64.mul (Fmt.convert binary32 binary64 scl)
      (binary64.sqrt (Fmt.convert binary32 binary64 c)))

/-- The routine `reproBLAS_rsnrm2(fold, N, X, incX)` acting on memory `m`. -/
def reproBLAS_rsnrm2 (E : SNrm2Env) (fold N : Int) (m : Mem) (X incX : Int) : FacadeRun :=
  let ssq := idxd_sialloc E.malloc fold
  let m1 := idxd_sisetzero fold m ssq
  let r := E.idxdBLAS_sisssq fold N X incX 0 m1 ssq
  { result := sclTimesSqrt r.1 (E.idxd_ssiconv fold r.2 ssq)
    mem := r.2
    calls := [AccCall.setzero ssq, AccCall.kernel ssq, AccCall.convert ssq, AccCall.free ssq] }

/-- A sample environment for `reproBLAS_rsnrm2`: the allocator gives the block at `block`, the
kernel leaves the accumulator as it is and returns the scale 1.0, the conversion returns
primary[0]. -/
def sampleSNrm2Env (block : Int) : SNrm2Env where
  malloc := fun _ => block
  idxdBLAS_sisssq := fun _ _ _ _ _ m _ => (0x3F800000, m)
  idxd_ssiconv := fun _ m X => m X

/-- The loop of a sample sum-of-squares kernel: it adds `(X[i * incX] / 2.0)^2`, in IEEE-754
single precision, to the scalar at `Y`, with `n` iterations still to run and the loop variable
at `i`. -/
def sampleSsqLoop (X incX Y : Int) : Nat → Int → Mem → Mem
  | 0, _, m => m
  | n + 1, i, m =>
    let h := binary32.div (m (X + i * incX)) 0x40000000
    sampleSsqLoop X incX Y n (i + 1) (m.write Y (binary32.add (m Y) (binary32.mul h h)))

/-- A sample environment for evaluating `reproBLAS_rsnrm2` on numbers: the allocator gives the
block at `block`, the kernel returns the scale 2.0 and adds the squares of the elements of X
divided by 2.0 to primary[0] (a plain sum that stands in for the kernel, which is not part
of src/), and the conversion returns primary[0]. -/
def squaresSNrm2Env (block : Int) : SNrm2Env where
  malloc := fun _ => block
  idxdBLAS_sisssq := fun _ N X incX _ m Y => (0x40000000, sampleSsqLoop X incX Y N.toNat 0 m)
  idxd_ssiconv := fun _ m X => m X

/-- A memory holding the vector (6.0, 8.0) of type float at the addresses 10 and 11 and the
value 100.0 in every other cell. -/
def vec68Mem : Mem := fun a =>
  if a = 10 then 0x40C00000 else if a = 11 then 0x41000000 else 0x42C80000

/-- The arguments of a complex double gemm after the fold: the three option characters, the
dimensions, and the addresses and leading dimensions of the operands. -/
structure GemmArgs where
  Order : Nat
  TransA : Nat
  TransB : Nat
  M : Int
  N : Int
  K : Int
  alpha : Int
  A : Int
  lda : Int
  B : Int
  ldb : Int
  beta : Int
  C : Int
  ldc : Int

/-- The default fold of config.h and the entry points that are not part of src/. -/
structure BlasEnv where
  /-- The constant `DIDEFAULTFOLD`. -/
  DIDEFAULTFOLD : Int
  /-- The routine `reproBLAS_rdsum(fold, N, X, incX)`: fold, N, the memory, X and incX. -/
  reproBLAS_rdsum : Int → Int → Mem → Int → Int → Nat
  /-- The routine `reproBLAS_zgemm`. -/
  reproBLAS_zgemm : GemmArgs → Mem → Mem
  /-- The routine `reproBLAS_rzgemm`, with the fold first. -/
  reproBLAS_rzgemm : Int → GemmArgs → Mem → Mem

/-- The routine `reproBLAS_dsum(N, X, incX)`. -/
def reproBLAS_dsum (E : BlasEnv) (N : Int) (m : Mem) (X incX : Int) : Nat :=
  E.reproBLAS_rdsum E.DIDEFAULTFOLD N m X incX

/-- The test wrapper `wrap_rzgemm(fold, ...)`. -/
def wrap_rzgemm (E : BlasEnv) (fold : Int) (a : GemmArgs) (m : Mem) : Mem :=
  if fold = E.DIDEFAULTFOLD then E.reproBLAS_zgemm a m else E.reproBLAS_rzgemm fold a m

/-! ## Conversion with explicit strides -/

/-- The two real conversions of a complex conversion, with the primary stride `pstride` and the
carry stride `cstride` handed to `idxd_ddmconv` written out: the first conversion starts at
priX and carX, the second at priX + 1 and carX + 1, and the results go to conv[0] and
conv[1]. -/
def zzmconv_strided (ddmconv : ConvFn) (fold : Int) (m : Mem)
    (priX pstride carX cstride conv : Int) : Mem :=
  let m1 := m.write conv (ddmconv fold m priX pstride carX cstride)
  m1.write (conv + 1) (ddmconv fold m1 (priX + 1) pstride (carX + 1) cstride)

/-! ## The parallel matrix-vector product (src/src/MPI_reproBLAS/prbdgemv.c) -/

/-- The arguments of a call of `CALL_DGEMV`: order, transposition, the dimensions, alpha, the
matrix and its leading dimension, the vector and its stride, beta, the output and its
stride. The scalars alpha and beta are binary64 patterns. -/
structure DgemvCall where
  order : Int
  trans : Int
  M : Int
  N : Int
  alpha : Nat
  A : Int
  lda : Int
  X : Int
  incX : Int
  beta : Nat
  Y : Int
  incY : Int
  deriving DecidableEq, Repr

/-- The local product issued by the process of rank `_rank` of `prbdgemv(rank, nprocs, Order, TransA, M,
N, myA, lda, myX, incX, Y, incY)`:
`CALL_DGEMV(101, 111, M, N/nprocs, 1.0, myA, N/nprocs, myX, incX, 1.0, myY, incY)`, where `/` is
the division of C on int, which truncates toward zero, and myY is the freshly allocated
local output. -/
def prbdgemv_localCall (_rank nprocs M N myA myX incX myY incY : Int) : DgemvCall :=
  { order := 101, trans := 111, M := M, N := Int.tdiv N nprocs, alpha := 0x3FF0000000000000,
    A := myA, lda := Int.tdiv N nprocs, X := myX, incX := incX, beta := 0x3FF0000000000000,
    Y := myY, incY := incY }

/-- The number of columns covered by all `nprocs` processes of `prbdgemv` together: the sum
over the ranks 0 .. nprocs - 1 of the column count of the local product. -/
def prbdgemv_totalColumns (nprocs M N myA myX incX myY incY : Int) : Int :=
  ((List.range nprocs.toNat).map
    (fun r : Nat => (prbdgemv_localCall (Int.ofNat r) nprocs M N myA myX incX myY incY).N)).sum

/-! ## The update called by the single precision rescale -/

/-- An update routine writes only to the accumulator it is given: every cell that is none of
the `fold` primary cells and none of the `fold` carry cells keeps its value. The routine
`dmdupdate` of src/ has this property. -/
def UpdateFrame (update : Int → Nat → Mem → Int → Int → Int → Int → Mem) : Prop :=
  ∀ (fold : Int) (X : Nat) (m : Mem) (priY incpriY carY inccarY a : Int),
    (∀ k : Int, 0 ≤ k → k < fold → a ≠ priY + k * incpriY ∧ a ≠ carY + k * inccarY) →
    update fold X m priY incpriY carY inccarY a = m a

/-- Modelled from the spec: the routine smsupdate(fold, X, priY, incpriY, carY, inccarY), absent
from src/; it is the update of §4.3.2 in single precision, written like its double precision
sibling dmdupdate of src/ with the tests ISNANINFF and `== 0.0` on float. The record supplies
sindex, smindex and smbins. -/
def smsupdate (E : DEnv) (fold : Int) (X : Nat) (m : Mem)
    (priY incpriY carY inccarY : Int) : Mem :=
  if ISNANINFF (m priY) then m
  else
    let X_index := E.dindex X
    if binary32.isZero (m priY) then
      seedLoop (E.dmbins X_index) priY incpriY carY inccarY fold.toNat 0 m
    else
      let shift := E.dmindex m priY - X_index
      if shift > 0 then
        let r := shiftLoop shift priY incpriY carY inccarY (fold - shift).toNat (fold - 1) m []
        seedLoop (E.dmbins X_index) priY incpriY carY inccarY (r.1 + 1).toNat 0 r.2.1
      else m

/-- Modelled from the spec: the index helpers sindex, smindex and smbins (absent from src/),
following §3.2 and §4.1 for binary32 with bin width W = 13: the index of a scalar is its
exponent divided by W, the top index of an accumulator is read off the exponent of
primary[0], and bins(j)[i] is the power of two of index j - i. -/
def specSIndexEnv : DEnv where
  dindex := fun x => (binary32.expField x : Int) / 13
  dmindex := fun m p => (binary32.expField (m p) : Int) / 13
  dmbins := fun j i => (13 * (j - i)).toNat * 2 ^ 23

/-- A single precision rescale environment with IEEE-754 arithmetic and the update modelled
from the specification. -/
def specRescaleEnv32 : RescaleEnv where
  fdiv := binary32.div
  fmul := binary32.mul
  update := smsupdate specSIndexEnv

/-! ## The additions performed by the single precision deposit -/

/-- One addition into a primary bin performed by `idxd_smsdeposit`: the bin index `i`, the
value `v` copied into `q.f` (the running x, or `x * idxd_SMCOMPRESSION` for the top bin on the
index-0 path), the operand `q` that is then added, and whether the code adds the bin to `q`
(`q.f += M`, in the loop) or `q` to the bin (`priY[i * incpriY] += q.f`, at the end). -/
structure Addend where
  bin : Int
  v : Nat
  q : Nat
  qFirst : Bool
  deriving DecidableEq, Repr

/-- The additions of the loop body of `idxd_smsdeposit`, in order: `q.f = x; q.i |= 1;
q.f += M;` at every bin. -/
def smsLoopLog (E : SEnv) (priY incpriY : Int) : Nat → Int → Nat → Mem → List Addend
  | 0, _, _, _ => []
  | n + 1, i, x, m =>
    let M := m (priY + i * incpriY)
    let q := E.fadd (x ||| 1) M
    ⟨i, x, x ||| 1, true⟩ ::
      smsLoopLog E priY incpriY n (i + 1) (E.fadd x (E.fsub M q)) (m.write (priY + i * incpriY) q)

/-- The additions into primary bins performed by `idxd_smsdeposit(fold, X, priY, incpriY)`, in
order. On the tainted path the single addition is `priY[0] += X`. -/
def idxd_smsdepositLog (E : SEnv) (fold : Int) (X : Nat) (m : Mem) (priY incpriY : Int) :
    List Addend :=
  if ISNANINFF X || ISNANINFF (m priY) then [⟨0, X, X, false⟩]
  else if E.smindex0 (m priY) then
    let M := m priY
    let q := E.fadd (E.mulCompression X ||| 1) M
    let m1 := m.write priY q
    let M1 := E.mulExpansionHalf (E.fsub M q)
    let r := smsLoop E priY incpriY (fold - 1 - 1).toNat 1 (E.fadd (E.fadd X M1) M1) m1
    ⟨0, E.mulCompression X, E.mulCompression X ||| 1, true⟩ ::
      (smsLoopLog E priY incpriY (fold - 1 - 1).toNat 1 (E.fadd (E.fadd X M1) M1) m1
        ++ [⟨r.1, r.2.1, r.2.1 ||| 1, false⟩])
  else
    let r := smsLoop E priY incpriY (fold - 1).toNat 0 X m
    smsLoopLog E priY incpriY (fold - 1).toNat 0 X m ++ [⟨r.1, r.2.1, r.2.1 ||| 1, false⟩]

/-- Performing a list of additions on the memory: every entry adds its operand `q` and the
primary of its bin and stores the sum in that bin. -/
def replayAddends (E : SEnv) (priY incpriY : Int) : List Addend → Mem → Mem
  | [], m => m
  | e :: es, m =>
    replayAddends E priY incpriY es
      (m.write (priY + e.bin * incpriY)
        (if e.qFirst then E.fadd e.q (m (priY + e.bin * incpriY))
         else E.fadd (m (priY + e.bin * incpriY)) e.q))

/-! ## Ordered comparison of IEEE patterns -/

/-- The place of a pattern that is not NaN in the order of the values: the exponent and
fraction fields read as one integer grow with the absolute value (infinity on top), and the
sign bit negates it. Both zeros are at 0. -/
def Fmt.ord (F : Fmt) (x : Nat) : Int :=
  if F.sign x then -((x % 2 ^ (F.eb + F.mb) : Nat) : Int) else ((x % 2 ^ (F.eb + F.mb) : Nat) : Int)

/-- The C comparison `a > b`: false when an operand is NaN. -/
def Fmt.gt (F : Fmt) (a b : Nat) : Bool :=
  !F.isNaN a && !F.isNaN b && decide (F.ord a > F.ord b)

/-! ## Copying and zeroing manually specified accumulators (src/src/idxd/zmdmset.c) -/

/-- The address `a` is none of the `fold` primary cells and none of the `fold` carry cells of
the accumulator `(pri, incpri, car, inccar)`. -/
def OffAcc (a fold pri incpri car inccar : Int) : Prop :=
  ∀ k : Int, 0 ≤ k → k < fold → a ≠ pri + k * incpri ∧ a ≠ car + k * inccar

/-- No cell of the accumulator X is a cell of the accumulator Y. -/
def AccDisjoint (fold priX incpriX carX inccarX priY incpriY carY inccarY : Int) : Prop :=
  ∀ a b : Int, 0 ≤ a → a < fold → 0 ≤ b → b < fold →
    priX + a * incpriX ≠ priY + b * incpriY ∧ priX + a * incpriX ≠ carY + b * inccarY ∧
    carX + a * inccarX ≠ priY + b * incpriY ∧ carX + a * inccarX ≠ carY + b * inccarY

/-- A loop over the bins of an accumulator Y that stores a new primary and then a new carry at
every bin: `for(i = 0; i < n; i++){ priY[i * incpriY] = f(i); carY[i * inccarY] = g(i); }`,
where `f` and `g` read the current memory; `n` iterations are still to run and the loop
variable is at `i`. -/
def cellLoop (f g : Int → Mem → Nat) (priY incpriY carY inccarY : Int) : Nat → Int → Mem → Mem
  | 0, _, m => m
  | n + 1, i, m =>
    let m1 := m.write (priY + i * incpriY) (f i m)
    cellLoop f g priY incpriY carY inccarY n (i + 1) (m1.write (carY + i * inccarY) (g i m1))

/-- Modelled from the spec: the routine idxd_dmdmset(fold, priX, incpriX, carX, inccarX, priY,
incpriY, carY, inccarY) (absent from src/), the operation "set" of the manual indexed algebra
(§2, L2), Y = X: `for(i = 0; i < fold; i++){ priY[i * incpriY] = priX[i * incpriX];
carY[i * inccarY] = carX[i * inccarX]; }`. -/
def idxd_dmdmset (fold : Int) (m : Mem) (priX incpriX carX inccarX priY incpriY carY inccarY : Int) :
    Mem :=
  cellLoop (fun i m => m (priX + i * incpriX)) (fun i m => m (carX + i * inccarX))
    priY incpriY carY inccarY fold.toNat 0 m

/-- Modelled from the spec: the routine idxd_dmsetzero(fold, priX, incpriX, carX, inccarX)
(absent from src/), the setzero of §4.3.1: "Set primary[i·inc_pri] ← +0, carry[i·inc_carry] ← +0
for i ∈ [0, K)". -/
def idxd_dmsetzero (fold : Int) (m : Mem) (priX incpriX carX inccarX : Int) : Mem :=
  seedLoop (fun _ => 0) priX incpriX carX inccarX fold.toNat 0 m

/-- The routine `idxd_zmdmset(fold, priX, incpriX, carX, inccarX, priY, incpriY, carY,
inccarY)`. -/
def idxd_zmdmset (fold : Int) (m : Mem) (priX incpriX carX inccarX priY incpriY carY inccarY : Int) :
    Mem :=
  idxd_dmsetzero fold
    (idxd_dmdmset fold m priX incpriX carX inccarX priY (2 * incpriY) carY (2 * inccarY))
    (priY + 1) (2 * incpriY) (carY + 1) (2 * inccarY)

/-! ## Scaled sums of squares (src/src/indexed/dmdmaddsq.c) -/

/-- The routines called by `dmdmaddsq`, none of which is part of src/. Every routine takes the
memory after the fold (and the scales) and returns the memory. -/
structure SsqEnv where
  /-- The routine `dmdrescale(fold, X, scaleY, priY, incpriY, carY, inccarY)`. -/
  dmdrescale : Int → Nat → Nat → Mem → Int → Int → Int → Int → Mem
  /-- The routine `dmdmadd(fold, priX, incpriX, carX, inccarX, priY, incpriY, carY, inccarY)`. -/
  dmdmadd : Int → Mem → Int → Int → Int → Int → Int → Int → Int → Int → Mem
  /-- The routine `dmdmset(fold, priX, incpriX, carX, inccarX, priY, incpriY, carY, inccarY)`. -/
  dmdmset : Int → Mem → Int → Int → Int → Int → Int → Int → Int → Int → Mem
  /-- The address returned by `dialloc(fold)`. -/
  dialloc : Int → Int

/-- The routine `dmdmaddsq(fold, scaleX, priX, incpriX, carX, inccarX, scaleY, priY, incpriY,
carY, inccarY)`: the returned scale and the memory. -/
def dmdmaddsq (E : SsqEnv) (fold : Int) (m : Mem) (scaleX : Nat)
    (priX incpriX carX inccarX : Int) (scaleY : Nat) (priY incpriY carY inccarY : Int) :
    Nat × Mem :=
  if binary64.gt scaleX scaleY then
    let m1 := E.dmdrescale fold scaleX scaleY m priY incpriY carY inccarY
    (scaleX, E.dmdmadd fold m1 priX incpriX carX inccarX priY incpriY carY inccarY)
  else if binary64.eq scaleX scaleY then
    (scaleX, E.dmdmadd fold m priX incpriX carX inccarX priY incpriY carY inccarY)
  else
    let tmp_X := E.dialloc fold
    let m1 := E.dmdmset fold m priX incpriX carX inccarX tmp_X 1 (tmp_X + fold) 1
    let m2 := E.dmdrescale fold scaleY scaleX m1 tmp_X 1 (tmp_X + fold) 1
    (scaleY, E.dmdmadd fold m2 tmp_X 1 (tmp_X + fold) 1 priY incpriY carY inccarY)

/-- Each of the three routines called by `dmdmaddsq` writes only to the accumulator it
modifies: dmdrescale to the accumulator it rescales, dmdmadd and dmdmset to their operand Y. -/
def SsqEnv.WritesOnlyTarget (E : SsqEnv) : Prop :=
  (∀ (fold : Int) (X scaleY : Nat) (m : Mem) (priY incpriY carY inccarY a : Int),
    OffAcc a fold priY incpriY carY inccarY →
    E.dmdrescale fold X scaleY m priY incpriY carY inccarY a = m a) ∧
  (∀ (fold : Int) (m : Mem) (priX incpriX carX inccarX priY incpriY carY inccarY a : Int),
    OffAcc a fold priY incpriY carY inccarY →
    E.dmdmadd fold m priX incpriX carX inccarX priY incpriY carY inccarY a = m a) ∧
  (∀ (fold : Int) (m : Mem) (priX incpriX carX inccarX priY incpriY carY inccarY a : Int),
    OffAcc a fold priY incpriY carY inccarY →
    E.dmdmset fold m priX incpriX carX inccarX priY incpriY carY inccarY a = m a)

/-- The loop of `dmdrescale`, with `n` iterations still to run and the loop variable at `i`. -/
def dmdrescaleLoop (E : RescaleEnv) (fold : Int) (rescaleY : Nat)
    (priY incpriY carY inccarY : Int) : Nat → Int → Mem → Mem
  | 0, _, m => m
  | n + 1, i, m =>
    let m1 := m.write (priY + i * incpriY) (E.fdiv (m (priY + i * incpriY)) rescaleY)
    if binary64.isZero (m1 (priY + i * incpriY)) then
      E.update (fold - i) 0 m1 (priY + i * incpriY) incpriY (carY + i * inccarY) inccarY
    else dmdrescaleLoop E fold rescaleY priY incpriY carY inccarY n (i + 1) m1

/-- Modelled from the spec: the routine dmdrescale(fold, X, scaleY, priY, incpriY, carY,
inccarY) (absent from src/), the rescale of §4.3.7 in double precision, written like its
single precision sibling smsrescale of src/ with dmdupdate for smsupdate. -/
def dmdrescale (E : RescaleEnv) (fold : Int) (X scaleY : Nat) (m : Mem)
    (priY incpriY carY inccarY : Int) : Mem :=
  if binary64.eq X scaleY || binary64.isZero X || binary64.isZero scaleY then m
  else
    let rescaleY := E.fdiv X scaleY
    dmdrescaleLoop E fold (E.fmul rescaleY rescaleY) priY incpriY carY inccarY fold.toNat 0 m

/-- A double precision rescale environment for real accumulators: IEEE-754 arithmetic and the
update `dmdupdate` of src/ with the index helpers modelled from the specification. -/
def specRescaleEnv64 : RescaleEnv where
  fdiv := binary64.div
  fmul := binary64.mul
  update := dmdupdate specDEnv

/-- A sample combiner for evaluating examples: it adds the primary and the carry of X to the
primary and the carry of Y bin by bin in IEEE-754 arithmetic. Like the combiner of §4.3.6 it
reads X and Y and writes Y only. -/
def sampleMadd (fold : Int) (m : Mem) (priX incpriX carX inccarX priY incpriY carY inccarY : Int) :
    Mem :=
  cellLoop (fun i m => binary64.add (m (priY + i * incpriY)) (m (priX + i * incpriX)))
    (fun i m => binary64.add (m (carY + i * inccarY)) (m (carX + i * inccarX)))
    priY incpriY carY inccarY fold.toNat 0 m

/-- A sample environment for `dmdmaddsq`: the rescale and the set modelled from the
specification, the sample combiner, and an allocator that returns the address 1000. -/
def sampleSsqEnv : SsqEnv where
  dmdrescale := dmdrescale specRescaleEnv64
  dmdmadd := sampleMadd
  dmdmset := idxd_dmdmset
  dialloc := fun _ => 1000

/-! ## The reference gemm of the tests (src/tests/checks/wrap_rzgemm.h) -/

/-- A value of type `double complex`: the binary64 patterns of the real and the imaginary
part. -/
abbrev Cplx := Nat × Nat

/-- An array of `double complex`, indexed by the element offset from its base pointer. -/
abbrev CArr := Int → Cplx

/-- Storing the value `v` at element `e` of an array. -/
def CArr.set (C : CArr) (e : Int) (v : Cplx) : CArr :=
  fun b => if b = e then v else C b

/-- The C comparison `z == r` of a `double complex` with a real constant: the real part
compares equal to `r` and the imaginary part compares equal to 0.0. -/
def cEqReal (z : Cplx) (r : Nat) : Bool :=
  binary64.eq z.1 r && binary64.eq z.2 0

/-- The routines called by `wrap_ref_rzgemm`, none of which is part of src/. The arrays opA,
opB and C, the accumulator CI and the local betaC are separate objects; the accumulator is a
memory of its own in which CI has address 0. -/
structure RefGemmEnv where
  /-- The array returned by `util_zmat_op(Order, Trans, M, N, A, lda)`. -/
  util_zmat_op : Nat → Nat → Int → Int → CArr → Int → CArr
  /-- The product `zmul(a, b)`. -/
  zmul : Cplx → Cplx → Cplx
  /-- The contents of the accumulator returned by `idxd_zialloc(fold)`. -/
  idxd_zialloc : Int → Mem
  /-- The routine `idxd_zizconv(fold, X, Y)`, given the value `*X` and the accumulator. -/
  idxd_zizconv : Int → Cplx → Mem → Mem
  /-- The routine `idxdBLAS_zizdotu(fold, N, X, incX, Y, incY, Z)`: fold, N, the array and the
  element offset of X, incX, the array and the element offset of Y, incY, the accumulator. -/
  idxdBLAS_zizdotu : Int → Int → CArr → Int → Int → CArr → Int → Int → Mem → Mem
  /-- The value stored by `idxd_zziconv_sub(fold, X, conv)` at `*conv`. -/
  idxd_zziconv_sub : Int → Mem → Cplx

/-- The label `case 'r': case 'R':` of the switch on Order. -/
def orderIsRow (Order : Nat) : Bool :=
  decide (Order = 114) || decide (Order = 82)

/-- The inner loop `for(k = 0; k < K; k++)` of the scaling of opA by alpha, at row `i`, with `n`
iterations still to run and the loop variable at `k`. -/
def refGemmScaleK (E : RefGemmEnv) (Order : Nat) (M K : Int) (alpha : Cplx) (i : Int) :
    Nat → Int → CArr → CArr
  | 0, _, opA => opA
  | n + 1, k, opA =>
    refGemmScaleK E Order M K alpha i n (k + 1)
      (if orderIsRow Order then opA.set (i * K + k) (E.zmul (opA (i * K + k)) alpha)
       else opA.set (k * M + i) (E.zmul (opA (k * M + i)) alpha))

/-- The outer loop `for(i = 0; i < M; i++)` of the scaling of opA by alpha. -/
def refGemmScaleI (E : RefGemmEnv) (Order : Nat) (M K : Int) (alpha : Cplx) :
    Nat → Int → CArr → CArr
  | 0, _, opA => opA
  | n + 1, i, opA =>
    refGemmScaleI E Order M K alpha n (i + 1) (refGemmScaleK E Order M K alpha i K.toNat 0 opA)

/-- The element of C written at step (i, j): `i * ldc + j` under the row label of the switch,
`j * ldc + i` under the default label. -/
def refGemmIndex (Order : Nat) (ldc i j : Int) : Int :=
  if orderIsRow Order then i * ldc + j else j * ldc + i

/-- The body of the double loop of `wrap_ref_rzgemm` at step (i, j), acting on the accumulator
CI and on the array C. -/
def refGemmCell (E : RefGemmEnv) (fold : Int) (Order : Nat) (M N K : Int) (alpha beta : Cplx)
    (opA opB : CArr) (ldc i j : Int) (s : Mem × CArr) : Mem × CArr :=
  if orderIsRow Order then
    let CI1 :=
      if cEqReal beta 0 then idxd_zisetzero fold s.1 0
      else if cEqReal beta 0x3FF0000000000000 then E.idxd_zizconv fold (s.2 (i * ldc + j)) s.1
      else E.idxd_zizconv fold (E.zmul (s.2 (i * ldc + j)) beta) s.1
    let CI2 :=
      if !cEqReal alpha 0 then E.idxdBLAS_zizdotu fold K opA (i * K) 1 opB j N CI1 else CI1
    (CI2, s.2.set (i * ldc + j) (E.idxd_zziconv_sub fold CI2))
  else
    let CI1 :=
      if cEqReal beta 0 then idxd_zisetzero fold s.1 0
      else if cEqReal beta 0x3FF0000000000000 then E.idxd_zizconv fold (s.2 (j * ldc + i)) s.1
      else E.idxd_zizconv fold (E.zmul (s.2 (j * ldc + i)) beta) s.1
    let CI2 :=
      if !cEqReal alpha 0 then E.idxdBLAS_zizdotu fold K opA i M opB (j * K) 1 CI1 else CI1
    (CI2, s.2.set (j * ldc + i) (E.idxd_zziconv_sub fold CI2))

/-- The inner loop `for(j = 0; j < N; j++)` of `wrap_ref_rzgemm` at row `i`, with `n` iterations
still to run and the loop variable at `j`. -/
def refGemmJ (E : RefGemmEnv) (fold : Int) (Order : Nat) (M N K : Int) (alpha beta : Cplx)
    (opA opB : CArr) (ldc i : Int) : Nat → Int → Mem × CArr → Mem × CArr
  | 0, _, s => s
  | n + 1, j, s =>
    refGemmJ E fold Order M N K alpha beta opA opB ldc i n (j + 1)
      (refGemmCell E fold Order M N K alpha beta opA opB ldc i j s)

/-- The outer loop `for(i = 0; i < M; i++)` of `wrap_ref_rzgemm`, with `n` iterations still to
run and the loop variable at `i`. -/
def refGemmI (E : RefGemmEnv) (fold : Int) (Order : Nat) (M N K : Int) (alpha beta : Cplx)
    (opA opB : CArr) (ldc : Int) : Nat → Int → Mem × CArr → Mem × CArr
  | 0, _, s => s
  | n + 1, i, s =>
    refGemmI E fold Order M N K alpha beta opA opB ldc n (i + 1)
      (refGemmJ E fold Order M N K alpha beta opA opB ldc i N.toNat 0 s)

/-- The test reference `wrap_ref_rzgemm(fold, Order, TransA, TransB, M, N, K, alpha, A, lda, B,
ldb, beta, C, ldc)`: the array C after the call. The scalars alpha and beta are the values
`*alpha` and `*beta`. -/
def wrap_ref_rzgemm (E : RefGemmEnv) (fold : Int) (Order TransA TransB : Nat) (M N K : Int)
    (alpha : Cplx) (A : CArr) (lda : Int) (B : CArr) (ldb : Int) (beta : Cplx) (C : CArr)
    (ldc : Int) : CArr :=
  let opA := E.util_zmat_op Order TransA M K A lda
  let opB := E.util_zmat_op Order TransB K N B ldb
  let CI := E.idxd_zialloc fold
  let opA1 :=
    if !cEqReal alpha 0x3FF0000000000000 then refGemmScaleI E Order M K alpha M.toNat 0 opA
    else opA
  (refGemmI E fold Order M N K alpha beta opA1 opB ldc M.toNat 0 (CI, C)).2

/-- The complex product in IEEE-754 arithmetic. -/
def ieeeZmul (a b : Cplx) : Cplx :=
  (binary64.sub (binary64.mul a.1 b.1) (binary64.mul a.2 b.2),
   binary64.add (binary64.mul a.1 b.2) (binary64.mul a.2 b.1))

/-- A sample dot product for evaluating examples: it adds the `n` products X[i * incX] *
Y[i * incY] to the cells 0 (real part) and 1 (imaginary part) of the accumulator. -/
def sampleZdotu (X : CArr) (offX incX : Int) (Y : CArr) (offY incY : Int) :
    Nat → Int → Mem → Mem
  | 0, _, ci => ci
  | n + 1, i, ci =>
    let p := ieeeZmul (X (offX + i * incX)) (Y (offY + i * incY))
    sampleZdotu X offX incX Y offY incY n (i + 1)
      ((ci.write 0 (binary64.add (ci 0) p.1)).write 1 (binary64.add (ci 1) p.2))

/-- A sample environment for `wrap_ref_rzgemm`: the operand arrays are used as they are, the
accumulator keeps the running sum in its cells 0 and 1, and the arithmetic is IEEE-754. -/
def sampleRefGemmEnv : RefGemmEnv where
  util_zmat_op := fun _ _ _ _ A _ => A
  zmul := ieeeZmul
  idxd_zialloc := fun _ _ => 0
  idxd_zizconv := fun _ z ci => (ci.write 0 z.1).write 1 z.2
  idxdBLAS_zizdotu := fun _ N X offX incX Y offY incY ci =>
    sampleZdotu X offX incX Y offY incY N.toNat 0 ci
  idxd_zziconv_sub := fun _ ci => (ci 0, ci 1)

/-- An array of `double complex` holding the listed values at elements 0, 1, 2, ... and 0
elsewhere. -/
def carrOfList (l : List Cplx) : CArr := fun e =>
  if 0 ≤ e then l.getD e.toNat (0, 0) else (0, 0)

/-! ## Basic facts about memory -/

theorem Mem.write_same (m : Mem) (a : Int) (v : Nat) : (m.write a v) a = v := by
  simp [Mem.write]

theorem Mem.write_other (m : Mem) (a b : Int) (v : Nat) (h : b ≠ a) : (m.write a v) b = m b := by
  simp [Mem.write, h]


/-! ## Loops of `dmdupdate` -/

theorem seedLoop_frame (bins : Int → Nat) (priY incpriY carY inccarY : Int) :
    ∀ (n : Nat) (i : Int) (m : Mem) (a : Int),
      (∀ k : Int, i ≤ k → k < i + n → a ≠ priY + k * incpriY ∧ a ≠ carY + k * inccarY) →
      seedLoop bins priY incpriY carY inccarY n i m a = m a := by
  intro n
  induction n with
  | zero => intro i m a _; rfl
  | succ n ih =>
    intro i m a h
    simp only [seedLoop]
    rw [ih]
    · have h0 := h i (le_refl _) (by push_cast; omega)
      rw [Mem.write_other _ _ _ _ h0.2, Mem.write_other _ _ _ _ h0.1]
    · intro k hk1 hk2
      exact h k (by omega) (by push_cast; omega)

theorem seedLoop_slots (bins : Int → Nat) (N priY incpriY carY inccarY : Int)
    (hd : SlotsDistinct N priY incpriY carY inccarY) :
    ∀ (n : Nat) (i : Int) (m : Mem), 0 ≤ i → i + n ≤ N →
      ∀ k : Int, i ≤ k → k < i + n →
        seedLoop bins priY incpriY carY inccarY n i m (priY + k * incpriY) = bins k ∧
        seedLoop bins priY incpriY carY inccarY n i m (carY + k * inccarY) = 0 := by
  obtain ⟨hp, hc, hpc⟩ := hd
  intro n
  induction n with
  | zero => intro i m _ _ k h1 h2; exfalso; simp at h2; omega
  | succ n ih =>
    intro i m hi hN k hk1 hk2
    push_cast at hN hk2
    simp only [seedLoop]
    by_cases hki : k = i
    · subst hki
      constructor
      · rw [seedLoop_frame]
        · rw [Mem.write_other _ _ _ _ (hpc k k hi (by omega) hi (by omega)), Mem.write_same]
        · intro j hj1 hj2
          exact ⟨hp k j hi (by omega) (by omega) (by omega) (by omega),
                 hpc k j hi (by omega) (by omega) (by omega)⟩
      · rw [seedLoop_frame]
        · rw [Mem.write_same]
        · intro j hj1 hj2
          exact ⟨fun h => hpc j k (by omega) (by omega) hi (by omega) h.symm,
                 hc k j hi (by omega) (by omega) (by omega) (by omega)⟩
    · exact ih (i + 1) _ (by omega) (by omega) k (by omega) (by omega)

theorem shiftLoop_index (shift priY incpriY carY inccarY : Int) :
    ∀ (n : Nat) (i : Int) (m : Mem) (log : List Access), (n : Int) = i + 1 - shift →
      (shiftLoop shift priY incpriY carY inccarY n i m log).1 = shift - 1 := by
  intro n
  induction n with
  | zero => intro i m log h; simp only [shiftLoop]; simp at h; omega
  | succ n ih =>
    intro i m log h
    push_cast at h
    have hi : i ≥ shift := by omega
    simp only [shiftLoop, hi, if_true]
    exact ih _ _ _ (by omega)

/-- The iteration budget used by `dmdupdate` never cuts the downward loop short: it ends
because its condition `i >= shift` has become false. -/
theorem shiftLoop_exit (shift fold priY incpriY carY inccarY : Int) (m : Mem)
    (log : List Access) :
    (shiftLoop shift priY incpriY carY inccarY (fold - shift).toNat (fold - 1) m log).1
      < shift := by
  by_cases h : shift ≤ fold
  · rw [shiftLoop_index _ _ _ _ _ _ _ _ _ (by rw [Int.toNat_of_nonneg (by omega)]; omega)]
    omega
  · rw [Int.toNat_eq_zero.mpr (by omega)]
    simp only [shiftLoop]
    omega

theorem shiftLoop_frame (shift priY incpriY carY inccarY : Int) :
    ∀ (n : Nat) (i : Int) (m : Mem) (log : List Access) (a : Int),
      (∀ k : Int, shift ≤ k → k ≤ i → a ≠ priY + k * incpriY ∧ a ≠ carY + k * inccarY) →
      (shiftLoop shift priY incpriY carY inccarY n i m log).2.1 a = m a := by
  intro n
  induction n with
  | zero => intro i m log a _; rfl
  | succ n ih =>
    intro i m log a h
    simp only [shiftLoop]
    split
    · rename_i hi
      rw [ih]
      · have h0 := h i hi (le_refl _)
        rw [Mem.write_other _ _ _ _ h0.2, Mem.write_other _ _ _ _ h0.1]
      · intro k hk1 hk2
        exact h k hk1 (by omega)
    · rfl

theorem shiftLoop_slots (shift N priY incpriY carY inccarY : Int) (hs : 0 < shift)
    (hd : SlotsDistinct N priY incpriY carY inccarY) :
    ∀ (n : Nat) (i : Int) (m : Mem) (log : List Access), (n : Int) = i + 1 - shift → i < N →
      ∀ k : Int, shift ≤ k → k ≤ i →
        (shiftLoop shift priY incpriY carY inccarY n i m log).2.1 (priY + k * incpriY)
            = m (priY + (k - shift) * incpriY) ∧
        (shiftLoop shift priY incpriY carY inccarY n i m log).2.1 (carY + k * inccarY)
            = m (carY + (k - shift) * inccarY) := by
  obtain ⟨hp, hc, hpc⟩ := hd
  intro n
  induction n with
  | zero => intro i m log h _ k h1 h2; exfalso; simp at h; omega
  | succ n ih =>
    intro i m log h hN k hk1 hk2
    push_cast at h
    have hi : i ≥ shift := by omega
    simp only [shiftLoop, hi, if_true]
    by_cases hki : k = i
    · subst hki
      constructor
      · rw [shiftLoop_frame]
        · rw [Mem.write_other _ _ _ _ (hpc k k (by omega) hN (by omega) hN), Mem.write_same]
        · intro j hj1 hj2
          exact ⟨hp k j (by omega) hN (by omega) (by omega) (by omega),
                 hpc k j (by omega) hN (by omega) (by omega)⟩
      · rw [shiftLoop_frame]
        · rw [Mem.write_same,
            Mem.write_other _ _ _ _
              (fun e => hpc k (k - shift) (by omega) hN (by omega) (by omega) e.symm)]
        · intro j hj1 hj2
          exact ⟨fun e => hpc j k (by omega) (by omega) (by omega) hN e.symm,
                 hc k j (by omega) hN (by omega) (by omega) (by omega)⟩
    · have hr := ih (i - 1) ((m.write (priY + i * incpriY) (m (priY + (i - shift) * incpriY))).write
          (carY + i * inccarY)
          ((m.write (priY + i * incpriY) (m (priY + (i - shift) * incpriY)))
            (carY + (i - shift) * inccarY)))
        (log ++ [Access.rd (priY + (i - shift) * incpriY), Access.wr (priY + i * incpriY),
                 Access.rd (carY + (i - shift) * inccarY), Access.wr (carY + i * inccarY)])
        (by omega) (by omega) k hk1 (by omega)
      rw [hr.1, hr.2]
      constructor
      · rw [Mem.write_other _ _ _ _
              (hpc (k - shift) i (by omega) (by omega) (by omega) hN),
            Mem.write_other _ _ _ _
              (hp (k - shift) i (by omega) (by omega) (by omega) hN (by omega))]
      · rw [Mem.write_other _ _ _ _
              (hc (k - shift) i (by omega) (by omega) (by omega) hN (by omega)),
            Mem.write_other _ _ _ _
              (fun e => hpc i (k - shift) (by omega) hN (by omega) (by omega) e.symm)]

theorem shiftLoop_log (shift N priY incpriY carY inccarY : Int) (hs : 0 < shift)
    (hd : SlotsDistinct N priY incpriY carY inccarY) :
    ∀ (n : Nat) (i : Int) (m : Mem) (log : List Access), (n : Int) = i + 1 - shift → i < N →
      ∃ L : List Access,
        (shiftLoop shift priY incpriY carY inccarY n i m log).2.2 = log ++ L ∧
        NoReadAfterWrite L ∧
        ∀ x ∈ L, ∃ k : Int, shift ≤ k ∧ k ≤ i ∧
          (x = Access.rd (priY + (k - shift) * incpriY) ∨ x = Access.wr (priY + k * incpriY) ∨
           x = Access.rd (carY + (k - shift) * inccarY) ∨ x = Access.wr (carY + k * inccarY)) := by
  obtain ⟨hp, hc, hpc⟩ := hd
  intro n
  induction n with
  | zero =>
    intro i m log _ _
    exact ⟨[], by simp [shiftLoop], trivial, by simp⟩
  | succ n ih =>
    intro i m log h hN
    push_cast at h
    have hi : i ≥ shift := by omega
    simp only [shiftLoop, hi, if_true]
    obtain ⟨L, hL, hnr, hmem⟩ := ih (i - 1)
        ((m.write (priY + i * incpriY) (m (priY + (i - shift) * incpriY))).write
          (carY + i * inccarY)
          ((m.write (priY + i * incpriY) (m (priY + (i - shift) * incpriY)))
            (carY + (i - shift) * inccarY)))
        (log ++ [Access.rd (priY + (i - shift) * incpriY), Access.wr (priY + i * incpriY),
                 Access.rd (carY + (i - shift) * inccarY), Access.wr (carY + i * inccarY)])
        (by omega) (by omega)
    refine ⟨[Access.rd (priY + (i - shift) * incpriY), Access.wr (priY + i * incpriY),
             Access.rd (carY + (i - shift) * inccarY), Access.wr (carY + i * inccarY)] ++ L,
            by rw [hL]; simp, ?_, ?_⟩
    · have hpL : Access.rd (priY + i * incpriY) ∉ L := by
        intro hx
        obtain ⟨k, hk1, hk2, hk⟩ := hmem _ hx
        rcases hk with hk | hk | hk | hk
        · injection hk with e
          exact hp i (k - shift) (by omega) hN (by omega) (by omega) (by omega) e
        · cases hk
        · injection hk with e
          exact hpc i (k - shift) (by omega) hN (by omega) (by omega) e
        · cases hk
      have hcL : Access.rd (carY + i * inccarY) ∉ L := by
        intro hx
        obtain ⟨k, hk1, hk2, hk⟩ := hmem _ hx
        rcases hk with hk | hk | hk | hk
        · injection hk with e
          exact hpc (k - shift) i (by omega) (by omega) (by omega) hN e.symm
        · cases hk
        · injection hk with e
          exact hc i (k - shift) (by omega) hN (by omega) (by omega) (by omega) e
        · cases hk
      have hpc0 : priY + i * incpriY ≠ carY + (i - shift) * inccarY :=
        hpc i (i - shift) (by omega) hN (by omega) (by omega)
      refine ⟨?_, hcL, hnr⟩
      intro hx
      have hx2 : Access.rd (priY + i * incpriY) ∈
          Access.rd (carY + (i - shift) * inccarY) :: Access.wr (carY + i * inccarY) :: L := hx
      simp only [List.mem_cons, Access.rd.injEq, reduceCtorEq, false_or] at hx2
      rcases hx2 with hx | hx
      · exact hpc0 hx
      · exact hpL hx
    · intro x hx
      simp only [List.cons_append, List.nil_append, List.mem_cons] at hx
      rcases hx with hx | hx | hx | hx | hx
      · exact ⟨i, hi, le_refl _, Or.inl hx⟩
      · exact ⟨i, hi, le_refl _, Or.inr (Or.inl hx)⟩
      · exact ⟨i, hi, le_refl _, Or.inr (Or.inr (Or.inl hx))⟩
      · exact ⟨i, hi, le_refl _, Or.inr (Or.inr (Or.inr hx))⟩
      · obtain ⟨k, hk1, hk2, hk⟩ := hmem x hx
        exact ⟨k, hk1, by omega, hk⟩


/-! ## `dmdupdate`: the four paths -/

/-- C5. Seed path of dmdupdate: when priY[0] is neither NaN nor Inf and compares equal to 0.0,
then on an accumulator whose 2*fold cells are pairwise distinct, after the call every
primary cell priY[i*incpriY] (0 <= i < fold) holds dmbins(dindex(X))[i] and every carry cell
carY[i*inccarY] holds +0.0. -/
theorem dmdupdate_seed_path (E : DEnv) (fold : Int) (X : Nat) (m : Mem)
    (priY incpriY carY inccarY : Int)
    (hfin : ISNANINF (m priY) = false) (hzero : dEqZero (m priY) = true)
    (hd : SlotsDistinct fold priY incpriY carY inccarY)
    (i : Int) (hi0 : 0 ≤ i) (hi : i < fold) :
    dmdupdate E fold X m priY incpriY carY inccarY (priY + i * incpriY)
        = E.dmbins (E.dindex X) i ∧
    dmdupdate E fold X m priY incpriY carY inccarY (carY + i * inccarY) = 0 := by
  have hfold : ((fold.toNat : Nat) : Int) = fold := Int.toNat_of_nonneg (by omega)
  simp only [dmdupdate, hfin, hzero, if_true, Bool.false_eq_true, if_false]
  exact seedLoop_slots _ fold priY incpriY carY inccarY hd fold.toNat 0 m (le_refl _)
    (by omega) i hi0 (by omega)

theorem slotsDistinct_packed3 : SlotsDistinct 3 0 1 3 1 := by
  refine ⟨?_, ?_, ?_⟩ <;> intros <;> omega

/-- Witness for C5: a zeroed packed accumulator of fold 3 seeded with X = 1.0. -/
theorem dmdupdate_seed_path_witness :
    ISNANINF (packed3 0 7 8 1 2 3 0) = false ∧ dEqZero (packed3 0 7 8 1 2 3 0) = true ∧
    SlotsDistinct 3 0 1 3 1 ∧
    dmdupdate specDEnv 3 0x3FF0000000000000 (packed3 0 7 8 1 2 3) 0 1 3 1 (0 + 1 * 1)
        = specDEnv.dmbins (specDEnv.dindex 0x3FF0000000000000) 1 ∧
    dmdupdate specDEnv 3 0x3FF0000000000000 (packed3 0 7 8 1 2 3) 0 1 3 1 (3 + 1 * 1) = 0 :=
  ⟨by decide, by decide, slotsDistinct_packed3,
    dmdupdate_seed_path specDEnv 3 0x3FF0000000000000 (packed3 0 7 8 1 2 3) 0 1 3 1
      (by decide) (by decide) slotsDistinct_packed3 1 (by decide) (by decide)⟩


/-- C6. Shift path of dmdupdate: when priY[0] is finite and nonzero and
s = dmindex(priY) - dindex(X) > 0, then on an accumulator whose 2*fold cells are pairwise
distinct, after the call every bin i with s <= i < fold holds the primary and the carry that
bin i - s held before, every bin i < min(s, fold) holds dmbins(dindex(X))[i] with carry +0.0,
and the downward loop never reads a cell it has already written. -/
theorem dmdupdate_shift_path (E : DEnv) (fold : Int) (X : Nat) (m : Mem)
    (priY incpriY carY inccarY : Int)
    (hfin : ISNANINF (m priY) = false) (hnz : dEqZero (m priY) = false)
    (hs : 0 < E.dmindex m priY - E.dindex X)
    (hd : SlotsDistinct fold priY incpriY carY inccarY) :
    (∀ i : Int, E.dmindex m priY - E.dindex X ≤ i → i < fold →
      dmdupdate E fold X m priY incpriY carY inccarY (priY + i * incpriY)
          = m (priY + (i - (E.dmindex m priY - E.dindex X)) * incpriY) ∧
      dmdupdate E fold X m priY incpriY carY inccarY (carY + i * inccarY)
          = m (carY + (i - (E.dmindex m priY - E.dindex X)) * inccarY)) ∧
    (∀ i : Int, 0 ≤ i → i < min (E.dmindex m priY - E.dindex X) fold →
      dmdupdate E fold X m priY incpriY carY inccarY (priY + i * incpriY)
          = E.dmbins (E.dindex X) i ∧
      dmdupdate E fold X m priY incpriY carY inccarY (carY + i * inccarY) = 0) ∧
    NoReadAfterWrite (dmdupdateShiftLog E fold X m priY incpriY carY inccarY) := by
  have hd0 := hd
  obtain ⟨hp, hc, hpc⟩ := hd
  have hs2 : E.dmindex m priY - E.dindex X > 0 := hs
  simp only [dmdupdate, dmdupdateShiftLog, hfin, hnz, hs2, if_true, Bool.false_eq_true,
    if_false]
  generalize E.dmindex m priY - E.dindex X = s at hs ⊢
  by_cases hsf : s ≤ fold
  · have hn : (((fold - s).toNat : Nat) : Int) = (fold - 1) + 1 - s := by
      rw [Int.toNat_of_nonneg (by omega)]; omega
    have hidx := shiftLoop_index s priY incpriY carY inccarY (fold - s).toNat (fold - 1) m [] hn
    have hcount : (((s - 1 + 1).toNat : Nat) : Int) = s := by
      rw [Int.toNat_of_nonneg (by omega)]; omega
    rw [hidx]
    refine ⟨?_, ?_, ?_⟩
    · intro i hi1 hi2
      have hsl := shiftLoop_slots s fold priY incpriY carY inccarY hs hd0 (fold - s).toNat
        (fold - 1) m [] hn (by omega) i hi1 (by omega)
      rw [seedLoop_frame, seedLoop_frame, hsl.1, hsl.2]
      · exact ⟨rfl, rfl⟩
      · intro k hk1 hk2
        exact ⟨fun e => hpc k i (by omega) (by omega) (by omega) hi2 e.symm,
               hc i k (by omega) hi2 (by omega) (by omega) (by omega)⟩
      · intro k hk1 hk2
        exact ⟨hp i k (by omega) hi2 (by omega) (by omega) (by omega),
               hpc i k (by omega) hi2 (by omega) (by omega)⟩
    · intro i hi1 hi2
      have hmin : i < s := lt_of_lt_of_le hi2 (min_le_left _ _)
      exact seedLoop_slots _ fold priY incpriY carY inccarY hd0 (s - 1 + 1).toNat 0 _
        (le_refl _) (by omega) i hi1 (by omega)
    · obtain ⟨L, hL, hnr, _⟩ := shiftLoop_log s fold priY incpriY carY inccarY hs hd0
        (fold - s).toNat (fold - 1) m [] hn (by omega)
      rw [hL]
      exact hnr
  · have hn0 : (fold - s).toNat = 0 := Int.toNat_eq_zero.mpr (by omega)
    rw [hn0]
    simp only [shiftLoop]
    refine ⟨?_, ?_, trivial⟩
    · intro i hi1 hi2
      exfalso; omega
    · intro i hi1 hi2
      have hmin : i < fold := lt_of_lt_of_le hi2 (min_le_right _ _)
      have hcount : (((fold - 1 + 1).toNat : Nat) : Int) = fold := by
        rw [Int.toNat_of_nonneg (by omega)]; omega
      exact seedLoop_slots _ fold priY incpriY carY inccarY hd0 (fold - 1 + 1).toNat 0 _
        (le_refl _) (by omega) i hi1 (by omega)

/-- Witness for C6: fold 3, top index 27, X of index 25, so the window moves by two bins. -/
theorem dmdupdate_shift_path_witness :
    ISNANINF (packed3 (1100 * 2 ^ 52 + 5) 7 8 1 2 3 0) = false ∧
    dEqZero (packed3 (1100 * 2 ^ 52 + 5) 7 8 1 2 3 0) = false ∧
    0 < specDEnv.dmindex (packed3 (1100 * 2 ^ 52 + 5) 7 8 1 2 3) 0
          - specDEnv.dindex 0x3FF0000000000000 ∧
    SlotsDistinct 3 0 1 3 1 ∧
    dmdupdate specDEnv 3 0x3FF0000000000000 (packed3 (1100 * 2 ^ 52 + 5) 7 8 1 2 3) 0 1 3 1
        (0 + 2 * 1) = 1100 * 2 ^ 52 + 5 ∧
    NoReadAfterWrite
      (dmdupdateShiftLog specDEnv 3 0x3FF0000000000000 (packed3 (1100 * 2 ^ 52 + 5) 7 8 1 2 3)
        0 1 3 1) :=
  ⟨by decide, by decide, by decide, slotsDistinct_packed3,
    ((dmdupdate_shift_path specDEnv 3 0x3FF0000000000000 (packed3 (1100 * 2 ^ 52 + 5) 7 8 1 2 3)
      0 1 3 1 (by decide) (by decide) (by decide) slotsDistinct_packed3).1 2
        (by decide) (by decide)).1,
    (dmdupdate_shift_path specDEnv 3 0x3FF0000000000000 (packed3 (1100 * 2 ^ 52 + 5) 7 8 1 2 3)
      0 1 3 1 (by decide) (by decide) (by decide) slotsDistinct_packed3).2.2⟩

/-- C7, counterexample. With j = dindex(X) = 25 and t = dmindex(priY) = 27, so that j <= t,
and priY[0] finite and nonzero, dmdupdate rewrites primary[0]. -/
theorem dmdupdate_noop_counterexample :
    ISNANINF (packed3 (1100 * 2 ^ 52 + 5) 7 8 1 2 3 0) = false ∧
    dEqZero (packed3 (1100 * 2 ^ 52 + 5) 7 8 1 2 3 0) = false ∧
    specDEnv.dindex 0x3FF0000000000000
        ≤ specDEnv.dmindex (packed3 (1100 * 2 ^ 52 + 5) 7 8 1 2 3) 0 ∧
    dmdupdate specDEnv 3 0x3FF0000000000000 (packed3 (1100 * 2 ^ 52 + 5) 7 8 1 2 3) 0 1 3 1 0
        ≠ packed3 (1100 * 2 ^ 52 + 5) 7 8 1 2 3 0 := by
  decide

/-- C7, amended. With j = dindex(X) and t = dmindex(priY): if priY[0] is finite and nonzero
and j >= t, then dmdupdate leaves the whole memory, hence every primary and carry element,
unchanged. -/
theorem dmdupdate_noop (E : DEnv) (fold : Int) (X : Nat) (m : Mem)
    (priY incpriY carY inccarY : Int)
    (hfin : ISNANINF (m priY) = false) (hnz : dEqZero (m priY) = false)
    (hjt : E.dindex X ≥ E.dmindex m priY) :
    dmdupdate E fold X m priY incpriY carY inccarY = m := by
  have hs : ¬ (E.dmindex m priY - E.dindex X > 0) := by omega
  simp only [dmdupdate, hfin, hnz, hs, Bool.false_eq_true, if_false]

/-- Witness for C7 (amended): the accumulator has top index 25 and X has index 27. -/
theorem dmdupdate_noop_witness :
    ISNANINF (packed3 0x3FF0000000000000 7 8 1 2 3 0) = false ∧
    dEqZero (packed3 0x3FF0000000000000 7 8 1 2 3 0) = false ∧
    specDEnv.dindex (1100 * 2 ^ 52 + 5)
        ≥ specDEnv.dmindex (packed3 0x3FF0000000000000 7 8 1 2 3) 0 ∧
    dmdupdate specDEnv 3 (1100 * 2 ^ 52 + 5) (packed3 0x3FF0000000000000 7 8 1 2 3) 0 1 3 1
        = packed3 0x3FF0000000000000 7 8 1 2 3 :=
  ⟨by decide, by decide, by decide,
    dmdupdate_noop specDEnv 3 (1100 * 2 ^ 52 + 5) (packed3 0x3FF0000000000000 7 8 1 2 3) 0 1 3 1
      (by decide) (by decide) (by decide)⟩

/-- C8. Update on a tainted accumulator: if priY[0] is NaN or an infinity, dmdupdate returns
with the whole memory, hence every primary and carry element, unchanged, for every X, fold
and strides. -/
theorem dmdupdate_tainted (E : DEnv) (fold : Int) (X : Nat) (m : Mem)
    (priY incpriY carY inccarY : Int) (hnan : ISNANINF (m priY) = true) :
    dmdupdate E fold X m priY incpriY carY inccarY = m := by
  simp only [dmdupdate, hnan, if_true]

/-- Witness for C8: primary[0] is a quiet NaN. -/
theorem dmdupdate_tainted_witness :
    ISNANINF (packed3 0x7FF8000000000000 7 8 1 2 3 0) = true ∧
    dmdupdate specDEnv 3 0x3FF0000000000000 (packed3 0x7FF8000000000000 7 8 1 2 3) 0 1 3 1
        = packed3 0x7FF8000000000000 7 8 1 2 3 :=
  ⟨by decide,
    dmdupdate_tainted specDEnv 3 0x3FF0000000000000 (packed3 0x7FF8000000000000 7 8 1 2 3)
      0 1 3 1 (by decide)⟩


/-! ## Deposit: frame and lane lemmas -/

theorem Mem.write_comm (m : Mem) (a b : Int) (v w : Nat) (h : a ≠ b) :
    (m.write a v).write b w = (m.write b w).write a v := by
  funext c
  simp only [Mem.write]
  by_cases hb : c = b
  · subst hb
    simp [h.symm]
  · simp [hb]

theorem smsLoop_index (E : SEnv) (priY incpriY : Int) :
    ∀ (n : Nat) (i : Int) (x : Nat) (m : Mem),
      (smsLoop E priY incpriY n i x m).1 = i + n := by
  intro n
  induction n with
  | zero => intro i x m; simp [smsLoop]
  | succ n ih =>
    intro i x m
    simp only [smsLoop]
    rw [ih]
    push_cast
    omega

theorem smsLoop_frame (E : SEnv) (priY incpriY a : Int) :
    ∀ (n : Nat) (i : Int) (x : Nat) (m : Mem), OffLane a priY incpriY i (i + n - 1) →
      (smsLoop E priY incpriY n i x m).2.2 a = m a := by
  intro n
  induction n with
  | zero => intro i x m _; rfl
  | succ n ih =>
    intro i x m h
    simp only [smsLoop]
    rw [ih]
    · exact Mem.write_other _ _ _ _ (h i (le_refl _) (by push_cast; omega))
    · intro k hk1 hk2
      exact h k (by omega) (by push_cast; omega)

theorem smsLoop_write (E : SEnv) (priY incpriY a : Int) (v : Nat) :
    ∀ (n : Nat) (i : Int) (x : Nat) (m : Mem), OffLane a priY incpriY i (i + n - 1) →
      smsLoop E priY incpriY n i x (m.write a v) =
        ((smsLoop E priY incpriY n i x m).1, (smsLoop E priY incpriY n i x m).2.1,
         (smsLoop E priY incpriY n i x m).2.2.write a v) := by
  intro n
  induction n with
  | zero => intro i x m _; rfl
  | succ n ih =>
    intro i x m h
    have hne : priY + i * incpriY ≠ a := fun e => h i (le_refl _) (by push_cast; omega) e.symm
    simp only [smsLoop]
    rw [Mem.write_other _ _ _ _ hne, Mem.write_comm _ _ _ _ _ hne.symm]
    exact ih _ _ _ (fun k hk1 hk2 => h k (by omega) (by push_cast; omega))

theorem idxd_smsdeposit_frame (E : SEnv) (fold : Int) (X : Nat) (m : Mem)
    (priY incpriY a hi : Int) (h1 : 1 ≤ hi) (h2 : fold - 1 ≤ hi)
    (h : OffLane a priY incpriY 0 hi) :
    idxd_smsdeposit E fold X m priY incpriY a = m a := by
  have h0 : a ≠ priY := by
    have := h 0 (le_refl _) (by omega)
    simpa using this
  unfold idxd_smsdeposit
  split
  · exact Mem.write_other _ _ _ _ h0
  · split
    · simp only [smsLoop_index]
      rw [Mem.write_other, smsLoop_frame, Mem.write_other _ _ _ _ h0]
      · intro k hk1 hk2
        exact h k (by omega) (by omega)
      · exact h _ (by omega) (by omega)
    · simp only [smsLoop_index]
      rw [Mem.write_other, smsLoop_frame]
      · intro k hk1 hk2
        exact h k (by omega) (by omega)
      · exact h _ (by omega) (by omega)

theorem idxd_smsdeposit_write (E : SEnv) (fold : Int) (X : Nat) (m : Mem)
    (priY incpriY a hi : Int) (v : Nat) (h1 : 1 ≤ hi) (h2 : fold - 1 ≤ hi)
    (h : OffLane a priY incpriY 0 hi) :
    idxd_smsdeposit E fold X (m.write a v) priY incpriY
      = (idxd_smsdeposit E fold X m priY incpriY).write a v := by
  have h0 : priY ≠ a := by
    have := h 0 (le_refl _) (by omega)
    simpa using this.symm
  unfold idxd_smsdeposit
  rw [Mem.write_other _ _ _ _ h0]
  split
  · exact (Mem.write_comm _ _ _ _ _ h0).symm
  · split
    · dsimp only
      rw [← Mem.write_comm _ _ _ _ _ h0, smsLoop_write]
      · simp only [smsLoop_index]
        have hne : priY + (1 + ((fold - 1 - 1).toNat : Int)) * incpriY ≠ a :=
          fun e => h _ (by omega) (by omega) e.symm
        rw [Mem.write_other _ _ _ _ hne, Mem.write_comm _ _ _ _ _ hne.symm]
      · intro k hk1 hk2
        exact h k (by omega) (by omega)
    · dsimp only
      rw [smsLoop_write]
      · simp only [smsLoop_index]
        have hne : priY + (0 + ((fold - 1).toNat : Int)) * incpriY ≠ a :=
          fun e => h _ (by omega) (by omega) e.symm
        rw [Mem.write_other _ _ _ _ hne, Mem.write_comm _ _ _ _ _ hne.symm]
      · intro k hk1 hk2
        exact h k (by omega) (by omega)


theorem offLane_imag_of_real (priY incpriY j lo hi : Int) :
    OffLane (priY + j * (2 * incpriY)) (priY + 1) (2 * incpriY) lo hi := by
  intro k _ _ e
  have e1 : j * (2 * incpriY) = 2 * (j * incpriY) := by ring
  have e2 : k * (2 * incpriY) = 2 * (k * incpriY) := by ring
  rw [e1, e2] at e
  omega

theorem offLane_real_of_imag (priY incpriY j lo hi : Int) :
    OffLane (priY + 1 + j * (2 * incpriY)) priY (2 * incpriY) lo hi := by
  intro k _ _ e
  have e1 : j * (2 * incpriY) = 2 * (j * incpriY) := by ring
  have e2 : k * (2 * incpriY) = 2 * (k * incpriY) := by ring
  rw [e1, e2] at e
  omega

theorem cmcLoop_lanes (E : SEnv) (priY incpriY : Int) :
    ∀ (n : Nat) (i : Int) (xR xI : Nat) (m : Mem),
      cmcLoop E priY incpriY n i xR xI m =
        (i + n,
         (smsLoop E priY (2 * incpriY) n i xR m).2.1,
         (smsLoop E (priY + 1) (2 * incpriY) n i xI
            (smsLoop E priY (2 * incpriY) n i xR m).2.2).2.1,
         (smsLoop E (priY + 1) (2 * incpriY) n i xI
            (smsLoop E priY (2 * incpriY) n i xR m).2.2).2.2) := by
  intro n
  induction n with
  | zero => intro i xR xI m; simp [cmcLoop, smsLoop]
  | succ n ih =>
    intro i xR xI m
    have eR : priY + i * 2 * incpriY = priY + i * (2 * incpriY) := by ring
    have eI : priY + (i * 2 * incpriY + 1) = priY + 1 + i * (2 * incpriY) := by ring
    have hoff : OffLane (priY + 1 + i * (2 * incpriY)) priY (2 * incpriY) (i + 1)
        (i + 1 + n - 1) := offLane_real_of_imag priY incpriY i _ _
    have hne : priY + 1 + i * (2 * incpriY) ≠ priY + i * (2 * incpriY) := by omega
    simp only [cmcLoop, smsLoop]
    rw [ih, eR, eI]
    rw [smsLoop_frame E priY (2 * incpriY) _ n (i + 1) _ _ hoff,
      Mem.write_other _ _ _ _ hne,
      smsLoop_write E priY (2 * incpriY) _ _ n (i + 1) _ _ hoff]
    push_cast
    rw [show i + 1 + (n : Int) = i + ((n : Int) + 1) by omega]

theorem idxd_smsdeposit_tainted (E : SEnv) (fold : Int) (X : Nat) (m : Mem)
    (priY incpriY : Int) (h : (ISNANINFF X || ISNANINFF (m priY)) = true) :
    idxd_smsdeposit E fold X m priY incpriY = m.write priY (E.fadd (m priY) X) := by
  simp only [idxd_smsdeposit, h, if_true]

theorem idxd_smsdeposit_general (E : SEnv) (fold : Int) (X : Nat) (m : Mem)
    (priY incpriY : Int) (h : (ISNANINFF X || ISNANINFF (m priY)) = false)
    (h0 : E.smindex0 (m priY) = false) :
    idxd_smsdeposit E fold X m priY incpriY =
      (smsLoop E priY incpriY (fold - 1).toNat 0 X m).2.2.write
        (priY + (0 + ((fold - 1).toNat : Int)) * incpriY)
        (E.fadd ((smsLoop E priY incpriY (fold - 1).toNat 0 X m).2.2
            (priY + (0 + ((fold - 1).toNat : Int)) * incpriY))
          ((smsLoop E priY incpriY (fold - 1).toNat 0 X m).2.1 ||| 1)) := by
  simp only [idxd_smsdeposit, h, h0, Bool.false_eq_true, if_false, smsLoop_index]

/-- The complex deposit is the real deposit on the even lane followed by the real deposit on
the odd lane (shared by the statements on `idxd_cmcdeposit` and `cicdeposit`). -/
theorem idxd_cmcdeposit_lanes (E : SEnv) (fold : Int) (X : Nat × Nat) (m : Mem)
    (priY incpriY : Int) :
    idxd_cmcdeposit E fold X m priY incpriY =
      idxd_smsdeposit E fold X.2 (idxd_smsdeposit E fold X.1 m priY (2 * incpriY))
        (priY + 1) (2 * incpriY) := by
  have hoffI : ∀ hi : Int, OffLane (priY + 1) priY (2 * incpriY) 0 hi := by
    intro hi
    have := offLane_real_of_imag priY incpriY 0 0 hi
    simpa using this
  have hoffR : ∀ j hi : Int, OffLane (priY + j * (2 * incpriY)) (priY + 1) (2 * incpriY) 0 hi :=
    fun j hi => offLane_imag_of_real priY incpriY j 0 hi
  have hfr : idxd_smsdeposit E fold X.1 m priY (2 * incpriY) (priY + 1) = m (priY + 1) :=
    idxd_smsdeposit_frame E fold X.1 m priY (2 * incpriY) (priY + 1) (max 1 (fold - 1))
      (le_max_left _ _) (le_max_right _ _) (hoffI _)
  unfold idxd_cmcdeposit
  split
  · rename_i c1
    rw [idxd_smsdeposit_tainted E fold X.1 m priY (2 * incpriY) c1]
  · rename_i c1
    split
    · rename_i c2
      rw [idxd_smsdeposit_write E fold X.1 m priY (2 * incpriY) (priY + 1) (max 1 (fold - 1)) _
        (le_max_left _ _) (le_max_right _ _) (hoffI _)]
      rw [idxd_smsdeposit_tainted E fold X.2 _ (priY + 1) (2 * incpriY) (by rw [hfr]; exact c2),
        hfr]
    · rename_i c2
      split
      · rfl
      · rename_i c3
        simp only [Bool.or_eq_true, not_or, Bool.not_eq_true] at c1 c2 c3
        have c1' : (ISNANINFF X.1 || ISNANINFF (m priY)) = false := by simp [c1.1, c1.2]
        have c2' : (ISNANINFF X.2 || ISNANINFF (m (priY + 1))) = false := by
          simp [c2.1, c2.2]
        rw [idxd_smsdeposit_general E fold X.2 _ (priY + 1) (2 * incpriY)
          (by rw [hfr]; exact c2') (by rw [hfr]; exact c3.2)]
        rw [idxd_smsdeposit_general E fold X.1 m priY (2 * incpriY) c1' c3.1]
        simp only [cmcLoop_lanes, smsLoop_index]
        have eR : ∀ t : Int, priY + t * 2 * incpriY = priY + t * (2 * incpriY) := by
          intro t; ring
        have eI : ∀ t : Int, priY + (t * 2 * incpriY + 1) = priY + 1 + t * (2 * incpriY) := by
          intro t; ring
        have hne : ∀ t : Int, priY + 1 + t * (2 * incpriY) ≠ priY + t * (2 * incpriY) := by
          intro t; omega
        rw [eR, eI]
        rw [smsLoop_write E (priY + 1) (2 * incpriY) _ _ _ 0 _ _ (hoffR _ _)]
        dsimp only
        rw [Mem.write_other _ _ _ _ (hne _), Mem.write_other _ _ _ _ (hne _)]
        rw [smsLoop_frame E (priY + 1) (2 * incpriY) _ _ 0 _ _ (hoffR _ _)]


/-! ## Deposit: complex deposit versus real deposits, and the carry frame -/

/-- C9. Complex deposit is two independent real deposits on interleaved lanes: for every fold,
stride incpriY, complex input (xR, xI) and memory, idxd_cmcdeposit(fold, X, priY, incpriY)
leaves the memory in exactly the state produced by idxd_smsdeposit(fold, xR, priY, 2*incpriY)
followed by idxd_smsdeposit(fold, xI, priY + 1, 2*incpriY), whichever of the four branches of
idxd_cmcdeposit is taken. -/
theorem idxd_cmcdeposit_eq_two_smsdeposit (E : SEnv) (fold : Int) (xR xI : Nat) (m : Mem)
    (priY incpriY : Int) :
    idxd_cmcdeposit E fold (xR, xI) m priY incpriY =
      idxd_smsdeposit E fold xI (idxd_smsdeposit E fold xR m priY (2 * incpriY))
        (priY + 1) (2 * incpriY) :=
  idxd_cmcdeposit_lanes E fold (xR, xI) m priY incpriY

/-- C10. Deposit does not touch carry: for fold >= 2, cicdeposit(fold, X, Y) on a packed complex
accumulator Y of 4*fold floats changes no cell outside the first 2*fold floats of Y; in
particular each of the 2*fold carry cells Y[2*fold + k] is unchanged. -/
theorem cicdeposit_carry_untouched (E : SEnv) (fold : Int) (X : Nat × Nat) (m : Mem) (Y : Int)
    (hfold : 2 ≤ fold) :
    (∀ a : Int, (a < Y ∨ Y + 2 * fold ≤ a) → cicdeposit E fold X m Y a = m a) ∧
    (∀ k : Int, 0 ≤ k → k < 2 * fold →
      cicdeposit E fold X m Y (Y + 2 * fold + k) = m (Y + 2 * fold + k)) := by
  have main : ∀ a : Int, (a < Y ∨ Y + 2 * fold ≤ a) → cicdeposit E fold X m Y a = m a := by
    intro a ha
    unfold cicdeposit cmcdeposit
    rw [idxd_cmcdeposit_lanes]
    rw [idxd_smsdeposit_frame E fold X.2 _ (Y + 1) (2 * 1) a (fold - 1) (by omega) (le_refl _)
          (fun k hk1 hk2 => by omega),
        idxd_smsdeposit_frame E fold X.1 m Y (2 * 1) a (fold - 1) (by omega) (le_refl _)
          (fun k hk1 hk2 => by omega)]
  exact ⟨main, fun k hk1 hk2 => main _ (Or.inr (by omega))⟩

/-- Witness for C10: fold 2, a packed accumulator of 8 floats at address 0, carry cell Y[4]. -/
theorem cicdeposit_carry_untouched_witness :
    (2 : Int) ≤ 2 ∧
    cicdeposit sampleSEnv 2 (3, 5) (memOfList [10, 20, 30, 40, 50, 60, 70, 80]) 0 (0 + 2 * 2 + 0)
      = memOfList [10, 20, 30, 40, 50, 60, 70, 80] (0 + 2 * 2 + 0) :=
  ⟨by decide,
    (cicdeposit_carry_untouched sampleSEnv 2 (3, 5) (memOfList [10, 20, 30, 40, 50, 60, 70, 80]) 0
      (by decide)).2 0 (by decide) (by decide)⟩



/-! ## IEEE arithmetic: NaN and infinities -/

theorem Fmt.isNanInf_cases (F : Fmt) (x : Nat) (h : F.isNanInf x = true) :
    F.isNaN x = true ∨ F.isInf x = true := by
  simp only [Fmt.isNanInf, decide_eq_true_eq] at h
  by_cases hf : F.frac x = 0
  · right; simp [Fmt.isInf, h, hf]
  · left; simp [Fmt.isNaN, h, hf]

theorem Fmt.add_nanInf (F : Fmt) (hq : F.isNanInf F.qNaN = true)
    (hi : ∀ s : Bool, F.isNanInf (F.inf s) = true) (a b : Nat)
    (h : F.isNanInf a = true ∨ F.isNanInf b = true) :
    F.isNanInf (F.add a b) = true := by
  unfold Fmt.add
  by_cases hn : (F.isNaN a || F.isNaN b) = true
  · simp only [hn, if_true, hq]
  · simp only [hn, Bool.false_eq_true, if_false]
    simp only [Bool.or_eq_true, not_or, Bool.not_eq_true] at hn
    by_cases ha : F.isInf a = true
    · simp only [ha, if_true]
      split
      · exact hq
      · exact hi _
    · simp only [ha, Bool.false_eq_true, if_false]
      by_cases hb : F.isInf b = true
      · simp only [hb, if_true, hi]
      · exfalso
        rcases h with h | h
        · rcases F.isNanInf_cases a h with h' | h'
          · simp [hn.1] at h'
          · exact ha h'
        · rcases F.isNanInf_cases b h with h' | h'
          · simp [hn.2] at h'
          · exact hb h'

theorem ISNANINFF_eq (x : Nat) : ISNANINFF x = binary32.isNanInf x := rfl

theorem ISNANINF_eq (x : Nat) : ISNANINF x = binary64.isNanInf x := rfl

theorem binary32_inf_nanInf (s : Bool) : binary32.isNanInf (binary32.inf s) = true := by
  cases s <;> decide

theorem binary64_inf_nanInf (s : Bool) : binary64.isNanInf (binary64.inf s) = true := by
  cases s <;> decide

theorem ieeeSEnv_addKeepsNanInf : ieeeSEnv.AddKeepsNanInf := by
  intro a b h
  rw [ISNANINFF_eq] at *
  exact binary32.add_nanInf (by decide) binary32_inf_nanInf a b (by simpa [ISNANINFF_eq] using h)

theorem ieeeDArith_addKeepsNanInf : ieeeDArith.AddKeepsNanInf := by
  intro a b h
  rw [ISNANINF_eq] at *
  exact binary64.add_nanInf (by decide) binary64_inf_nanInf a b (by simpa [ISNANINF_eq] using h)

/-! ## Double precision deposit: frame lemmas -/

theorem dmdLoop_index (A : DArith) (priY incpriY : Int) :
    ∀ (n : Nat) (i : Int) (x : Nat) (m : Mem),
      (dmdLoop A priY incpriY n i x m).1 = i + n := by
  intro n
  induction n with
  | zero => intro i x m; simp [dmdLoop]
  | succ n ih =>
    intro i x m
    simp only [dmdLoop]
    rw [ih]
    push_cast
    omega

theorem dmdLoop_frame (A : DArith) (priY incpriY a : Int) :
    ∀ (n : Nat) (i : Int) (x : Nat) (m : Mem), OffLane a priY incpriY i (i + n - 1) →
      (dmdLoop A priY incpriY n i x m).2.2 a = m a := by
  intro n
  induction n with
  | zero => intro i x m _; rfl
  | succ n ih =>
    intro i x m h
    simp only [dmdLoop]
    rw [ih]
    · exact Mem.write_other _ _ _ _ (h i (le_refl _) (by push_cast; omega))
    · intro k hk1 hk2
      exact h k (by omega) (by push_cast; omega)

theorem dmddeposit_frame (A : DArith) (fold : Int) (X : Nat) (m : Mem)
    (priY incpriY a hi : Int) (h1 : 1 ≤ hi) (h2 : fold - 1 ≤ hi)
    (h : OffLane a priY incpriY 0 hi) :
    dmddeposit A fold X m priY incpriY a = m a := by
  have h0 : a ≠ priY := by
    have := h 0 (le_refl _) (by omega)
    simpa using this
  unfold dmddeposit
  split
  · exact Mem.write_other _ _ _ _ h0
  · split
    · simp only [dmdLoop_index]
      rw [Mem.write_other, dmdLoop_frame, Mem.write_other _ _ _ _ h0]
      · intro k hk1 hk2
        exact h k (by omega) (by omega)
      · exact h _ (by omega) (by omega)
    · simp only [dmdLoop_index]
      rw [Mem.write_other, dmdLoop_frame]
      · intro k hk1 hk2
        exact h k (by omega) (by omega)
      · exact h _ (by omega) (by omega)

theorem dmddeposit_tainted (A : DArith) (fold : Int) (X : Nat) (m : Mem)
    (priY incpriY : Int) (h : (ISNANINF X || ISNANINF (m priY)) = true) :
    dmddeposit A fold X m priY incpriY = m.write priY (A.fadd (m priY) X) := by
  simp only [dmddeposit, h, if_true]

theorem offLane_lane_top (priY incpriY hi : Int) :
    OffLane priY (priY + 1) (2 * incpriY) 0 hi := by
  have := offLane_imag_of_real priY incpriY 0 0 hi
  simpa using this

theorem offLane_lane_top_imag (priY incpriY hi : Int) :
    OffLane (priY + 1) priY (2 * incpriY) 0 hi := by
  have := offLane_real_of_imag priY incpriY 0 0 hi
  simpa using this

/-! ## Deposit: the tainted path -/

/-- C11. Deposit, tainted fast path: for every fold and stride, if X is NaN or an infinity or
priY[0] is NaN or an infinity, idxd_smsdeposit sets priY[0] to priY[0] + X and leaves every
other memory cell, hence every other element of priY, unchanged. -/
theorem idxd_smsdeposit_tainted_path (E : SEnv) (fold : Int) (X : Nat) (m : Mem)
    (priY incpriY : Int) (h : ISNANINFF X = true ∨ ISNANINFF (m priY) = true) :
    idxd_smsdeposit E fold X m priY incpriY priY = E.fadd (m priY) X ∧
    ∀ a : Int, a ≠ priY → idxd_smsdeposit E fold X m priY incpriY a = m a := by
  have hc : (ISNANINFF X || ISNANINFF (m priY)) = true := by
    rcases h with h | h <;> simp [h]
  rw [idxd_smsdeposit_tainted E fold X m priY incpriY hc]
  exact ⟨Mem.write_same _ _ _, fun a ha => Mem.write_other _ _ _ _ ha⟩

/-- Witness for C11: a quiet NaN deposited into an accumulator whose top primary is 1.0. -/
theorem idxd_smsdeposit_tainted_path_witness :
    (ISNANINFF 0x7FC00000 = true ∨
      ISNANINFF (memOfList [0x3F800000, 0x3A800000, 7, 8] 0) = true) ∧
    idxd_smsdeposit ieeeSEnv 2 0x7FC00000 (memOfList [0x3F800000, 0x3A800000, 7, 8]) 0 1 0
      = ieeeSEnv.fadd (memOfList [0x3F800000, 0x3A800000, 7, 8] 0) 0x7FC00000 ∧
    idxd_smsdeposit ieeeSEnv 2 0x7FC00000 (memOfList [0x3F800000, 0x3A800000, 7, 8]) 0 1 1
      = memOfList [0x3F800000, 0x3A800000, 7, 8] 1 :=
  ⟨Or.inl (by decide),
    (idxd_smsdeposit_tainted_path ieeeSEnv 2 0x7FC00000
      (memOfList [0x3F800000, 0x3A800000, 7, 8]) 0 1 (Or.inl (by decide))).1,
    (idxd_smsdeposit_tainted_path ieeeSEnv 2 0x7FC00000
      (memOfList [0x3F800000, 0x3A800000, 7, 8]) 0 1 (Or.inl (by decide))).2 1 (by decide)⟩

theorem idxd_smsdeposit_top_tainted (E : SEnv) (hE : E.AddKeepsNanInf) (fold : Int) (X : Nat)
    (m : Mem) (priY incpriY : Int) (h : ISNANINFF (m priY) = true ∨ ISNANINFF X = true) :
    ISNANINFF (idxd_smsdeposit E fold X m priY incpriY priY) = true := by
  have hc : (ISNANINFF X || ISNANINFF (m priY)) = true := by
    rcases h with h | h <;> simp [h]
  rw [idxd_smsdeposit_tainted E fold X m priY incpriY hc, Mem.write_same]
  exact hE _ _ h

theorem dmddeposit_top_tainted (A : DArith) (hA : A.AddKeepsNanInf) (fold : Int) (X : Nat)
    (m : Mem) (priY incpriY : Int) (h : ISNANINF (m priY) = true ∨ ISNANINF X = true) :
    ISNANINF (dmddeposit A fold X m priY incpriY priY) = true := by
  have hc : (ISNANINF X || ISNANINF (m priY)) = true := by
    rcases h with h | h <;> simp [h]
  rw [dmddeposit_tainted A fold X m priY incpriY hc, Mem.write_same]
  exact hA _ _ h

/-- C12. Taint is sticky through deposit. With an addition that keeps NaN and infinities
(IEEE-754): if the top primary of a lane is NaN or an infinity before the call, or the value
deposited into that lane is NaN or an infinity, then the top primary of that lane is NaN or
an infinity after the call. This holds for idxd_smsdeposit (lane priY[0]), for both lanes of
idxd_cmcdeposit (priY[0] and priY[1]) and for both lanes of zmzdeposit, whatever is deposited
into the other lane; so no deposit returns a tainted lane to a finite value. -/
theorem deposit_taint_sticky (E : SEnv) (A : DArith) (hE : E.AddKeepsNanInf)
    (hA : A.AddKeepsNanInf) (fold : Int) (m : Mem) (priY incpriY : Int) :
    (∀ X : Nat, ISNANINFF (m priY) = true ∨ ISNANINFF X = true →
      ISNANINFF (idxd_smsdeposit E fold X m priY incpriY priY) = true) ∧
    (∀ xR xI : Nat, ISNANINFF (m priY) = true ∨ ISNANINFF xR = true →
      ISNANINFF (idxd_cmcdeposit E fold (xR, xI) m priY incpriY priY) = true) ∧
    (∀ xR xI : Nat, ISNANINFF (m (priY + 1)) = true ∨ ISNANINFF xI = true →
      ISNANINFF (idxd_cmcdeposit E fold (xR, xI) m priY incpriY (priY + 1)) = true) ∧
    (∀ xR xI : Nat, ISNANINF (m priY) = true ∨ ISNANINF xR = true →
      ISNANINF (zmzdeposit A fold (xR, xI) m priY incpriY priY) = true) ∧
    (∀ xR xI : Nat, ISNANINF (m (priY + 1)) = true ∨ ISNANINF xI = true →
      ISNANINF (zmzdeposit A fold (xR, xI) m priY incpriY (priY + 1)) = true) := by
  have hmax1 : (1 : Int) ≤ max 1 (fold - 1) := le_max_left _ _
  have hmax2 : fold - 1 ≤ max 1 (fold - 1) := le_max_right _ _
  refine ⟨?_, ?_, ?_, ?_, ?_⟩
  · intro X h
    exact idxd_smsdeposit_top_tainted E hE fold X m priY incpriY h
  · intro xR xI h
    rw [idxd_cmcdeposit_lanes,
      idxd_smsdeposit_frame E fold xI _ (priY + 1) (2 * incpriY) priY _ hmax1 hmax2
        (offLane_lane_top priY incpriY _)]
    exact idxd_smsdeposit_top_tainted E hE fold xR m priY (2 * incpriY) h
  · intro xR xI h
    rw [idxd_cmcdeposit_lanes]
    apply idxd_smsdeposit_top_tainted E hE
    rw [idxd_smsdeposit_frame E fold xR m priY (2 * incpriY) (priY + 1) _ hmax1 hmax2
        (offLane_lane_top_imag priY incpriY _)]
    exact h
  · intro xR xI h
    have hc : (ISNANINF xR || ISNANINF (m priY)) = true := by
      rcases h with h | h <;> simp [h]
    simp only [zmzdeposit, hc, if_true]
    rw [dmddeposit_frame A fold xI _ (priY + 1) (2 * incpriY) priY _ hmax1 hmax2
        (offLane_lane_top priY incpriY _), Mem.write_same]
    exact hA _ _ h
  · intro xR xI h
    have hne : priY + 1 ≠ priY := by omega
    by_cases hc : (ISNANINF xR || ISNANINF (m priY)) = true
    · simp only [zmzdeposit, hc, if_true]
      apply dmddeposit_top_tainted A hA
      rw [Mem.write_other _ _ _ _ hne]
      exact h
    · have hc2 : (ISNANINF xI || ISNANINF (m (priY + 1))) = true := by
        rcases h with h | h <;> simp [h]
      simp only [zmzdeposit, hc, hc2, if_true, if_false, Bool.false_eq_true]
      rw [dmddeposit_frame A fold xR _ priY (2 * incpriY) (priY + 1) _ hmax1 hmax2
          (offLane_lane_top_imag priY incpriY _), Mem.write_same]
      exact hA _ _ h

/-- Witness for C12: IEEE arithmetic; a real lane whose top primary is +Inf receives 1.0 and
an imaginary lane with a finite top primary receives a quiet NaN. -/
theorem deposit_taint_sticky_witness :
    ieeeSEnv.AddKeepsNanInf ∧ ieeeDArith.AddKeepsNanInf ∧
    (ISNANINFF (memOfList [0x7F800000, 0x3F800000, 7, 8] 0) = true ∨
      ISNANINFF 0x3F800000 = true) ∧
    ISNANINFF (idxd_cmcdeposit ieeeSEnv 2 (0x3F800000, 0x7FC00000)
      (memOfList [0x7F800000, 0x3F800000, 7, 8]) 0 1 0) = true :=
  ⟨ieeeSEnv_addKeepsNanInf, ieeeDArith_addKeepsNanInf, Or.inl (by decide),
    (deposit_taint_sticky ieeeSEnv ieeeDArith ieeeSEnv_addKeepsNanInf ieeeDArith_addKeepsNanInf
      2 (memOfList [0x7F800000, 0x3F800000, 7, 8]) 0 1).2.1 0x3F800000 0x7FC00000
      (Or.inl (by decide))⟩

/-! ## Setzero -/

theorem memsetZero_inside (m : Mem) (p a : Int) (n size : Nat) (h1 : p ≤ a)
    (h2 : a < p + ((n / size : Nat) : Int)) : memsetZero m p n size a = 0 := by
  unfold memsetZero
  rw [if_pos ⟨h1, h2⟩]

/-- C13. Setzero on a packed complex accumulator: after idxd_cisetzero(fold, X), and likewise
after idxd_zisetzero(fold, X), each of the 4*fold scalars X[k] of the accumulator (primary
and carry, real and imaginary lane) holds the pattern of +0.0; in particular the top
primaries X[0] and X[1] of both lanes are +0.0. -/
theorem setzero_packed_complex (fold : Int) (m : Mem) (X k : Int) (h0 : 0 ≤ k)
    (hk : k < 4 * fold) :
    idxd_cisetzero fold m X (X + k) = 0 ∧ idxd_zisetzero fold m X (X + k) = 0 := by
  have hn : (((4 * fold).toNat : Nat) : Int) = 4 * fold := Int.toNat_of_nonneg (by omega)
  constructor
  · apply memsetZero_inside _ _ _ _ _ (by omega)
    rw [idxd_cisize, Nat.mul_div_cancel _ (by decide : 0 < 4)]
    omega
  · apply memsetZero_inside _ _ _ _ _ (by omega)
    rw [idxd_zisize, Nat.mul_div_cancel _ (by decide : 0 < 8)]
    omega

/-- Witness for C13: fold 2, the top primary of the imaginary lane X[1]. -/
theorem setzero_packed_complex_witness :
    (0 : Int) ≤ 1 ∧ (1 : Int) < 4 * 2 ∧
    idxd_cisetzero 2 (memOfList [1, 2, 3, 4, 5, 6, 7, 8, 9]) 0 (0 + 1) = 0 ∧
    idxd_zisetzero 2 (memOfList [1, 2, 3, 4, 5, 6, 7, 8, 9]) 0 (0 + 1) = 0 :=
  ⟨by decide, by decide,
    setzero_packed_complex 2 (memOfList [1, 2, 3, 4, 5, 6, 7, 8, 9]) 0 1 (by decide)
      (by decide)⟩

/-! ## Complex conversion -/

/-- C14, the code at a failing input. Fold 2, primary at 0 with stride 1, carry at 4 with
stride inccarX = 2: the real carries are cells 4 and 8 and the imaginary carries cells 5
and 9, but idxd_zzmconv_sub passes the carry stride inccarX + 1 = 3 and reads cells 4 and 7
for the real lane and cells 5 and 8 for the imaginary lane, so both parts differ from the
lane-wise conversion with the doubled stride 2*inccarX. -/
theorem idxd_zzmconv_sub_carry_stride_failing :
    idxd_zzmconv_sub sampleConv 2
        (memOfList [0x3FF0000000000000, 0x4000000000000000, 0x3FF0000000000000,
          0x4000000000000000, 0x4008000000000000, 0x4010000000000000, 0, 0,
          0x4014000000000000, 0x4018000000000000]) 0 1 4 2 20 20 = 0x4014000000000000 ∧
    zzmconv_lanewise sampleConv 2
        (memOfList [0x3FF0000000000000, 0x4000000000000000, 0x3FF0000000000000,
          0x4000000000000000, 0x4008000000000000, 0x4010000000000000, 0, 0,
          0x4014000000000000, 0x4018000000000000]) 0 1 4 2 20 20 = 0x4024000000000000 ∧
    idxd_zzmconv_sub sampleConv 2
        (memOfList [0x3FF0000000000000, 0x4000000000000000, 0x3FF0000000000000,
          0x4000000000000000, 0x4008000000000000, 0x4010000000000000, 0, 0,
          0x4014000000000000, 0x4018000000000000]) 0 1 4 2 20 21 = 0x402A000000000000 ∧
    zzmconv_lanewise sampleConv 2
        (memOfList [0x3FF0000000000000, 0x4000000000000000, 0x3FF0000000000000,
          0x4000000000000000, 0x4008000000000000, 0x4010000000000000, 0, 0,
          0x4014000000000000, 0x4018000000000000]) 0 1 4 2 20 21 = 0x402C000000000000 := by
  decide

/-! ## Rescale -/

/-- C15. Rescale no-op: if the new scale X compares equal to the current scale scaleY, or
X == 0, or scaleY == 0, then smsrescale, zmdrescale and idxd_zmdrescale return with the
whole memory, hence every primary and carry element, unchanged. -/
theorem rescale_noop (E F G : RescaleEnv) (fold : Int) (Xs scaleYs Xd scaleYd : Nat) (m : Mem)
    (priY incpriY carY inccarY : Int)
    (hs : binary32.eq Xs scaleYs = true ∨ binary32.isZero Xs = true ∨
      binary32.isZero scaleYs = true)
    (hd : binary64.eq Xd scaleYd = true ∨ binary64.isZero Xd = true ∨
      binary64.isZero scaleYd = true) :
    smsrescale E fold Xs scaleYs m priY incpriY carY inccarY = m ∧
    zmdrescale F fold Xd scaleYd m priY incpriY carY inccarY = m ∧
    idxd_zmdrescale G fold Xd scaleYd m priY incpriY carY inccarY = m := by
  have cs : (binary32.eq Xs scaleYs || binary32.isZero Xs || binary32.isZero scaleYs) = true := by
    rcases hs with h | h | h <;> simp [h]
  have cd : (binary64.eq Xd scaleYd || binary64.isZero Xd || binary64.isZero scaleYd) = true := by
    rcases hd with h | h | h <;> simp [h]
  refine ⟨?_, ?_, ?_⟩
  · simp only [smsrescale, smsrescaleRun, cs, if_true]
  · simp only [zmdrescale, zmdrescaleRun, cd, if_true]
  · simp only [idxd_zmdrescale, idxd_zmdrescaleRun, cd, if_true]

/-- Witness for C15: equal scales 1.0 in single precision, new scale 0.0 in double. -/
theorem rescale_noop_witness :
    (binary32.eq 0x3F800000 0x3F800000 = true ∨ binary32.isZero 0x3F800000 = true ∨
      binary32.isZero 0x3F800000 = true) ∧
    (binary64.eq 0 0x3FF0000000000000 = true ∨ binary64.isZero 0 = true ∨
      binary64.isZero 0x3FF0000000000000 = true) ∧
    smsrescale ieeeRescaleEnv32 2 0x3F800000 0x3F800000 (memOfList [1, 2, 3, 4, 5, 6, 7, 8])
      0 1 4 1 = memOfList [1, 2, 3, 4, 5, 6, 7, 8] ∧
    zmdrescale ieeeRescaleEnv64 2 0 0x3FF0000000000000 (memOfList [1, 2, 3, 4, 5, 6, 7, 8])
      0 1 4 1 = memOfList [1, 2, 3, 4, 5, 6, 7, 8] ∧
    idxd_zmdrescale ieeeRescaleEnv64 2 0 0x3FF0000000000000
      (memOfList [1, 2, 3, 4, 5, 6, 7, 8]) 0 1 4 1 = memOfList [1, 2, 3, 4, 5, 6, 7, 8] :=
  ⟨Or.inl (by decide), Or.inr (Or.inl (by decide)),
    rescale_noop ieeeRescaleEnv32 ieeeRescaleEnv64 ieeeRescaleEnv64 2 0x3F800000 0x3F800000 0
      0x3FF0000000000000 (memOfList [1, 2, 3, 4, 5, 6, 7, 8]) 0 1 4 1 (Or.inl (by decide))
      (Or.inr (Or.inl (by decide)))⟩

/-- C20, the code at a failing input. Fold 2, incpriY = 1, primary cells 0..3 holding
1.5*2^-1000 (real and imaginary part of bin 0) and 1.5*2^-1040 (real and imaginary part of
bin 1), new scale 2^20 and current scale 1.0, so every primary is divided by 2^40. At step 1
the divided real primary of bin 1, priY[1*2*incpriY], has become 0, but both routines test
priY[1*incpriY], the imaginary primary of bin 0, which is not 0: the update is never
called. -/
theorem zmdrescale_reseed_failing :
    (idxd_zmdrescaleRun ieeeRescaleEnv64 2 (1043 * 2 ^ 52) (1023 * 2 ^ 52)
      (memOfList [23 * 2 ^ 52 + 2 ^ 51, 23 * 2 ^ 52 + 2 ^ 51, 3 * 2 ^ 33, 3 * 2 ^ 33])
      0 1 4 1).1 = none ∧
    (zmdrescaleRun ieeeRescaleEnv64 2 (1043 * 2 ^ 52) (1023 * 2 ^ 52)
      (memOfList [23 * 2 ^ 52 + 2 ^ 51, 23 * 2 ^ 52 + 2 ^ 51, 3 * 2 ^ 33, 3 * 2 ^ 33])
      0 1 4 1).1 = none ∧
    binary64.isZero ((idxd_zmdrescale ieeeRescaleEnv64 2 (1043 * 2 ^ 52) (1023 * 2 ^ 52)
      (memOfList [23 * 2 ^ 52 + 2 ^ 51, 23 * 2 ^ 52 + 2 ^ 51, 3 * 2 ^ 33, 3 * 2 ^ 33])
      0 1 4 1) (0 + 1 * 2 * 1)) = true ∧
    binary64.isZero ((idxd_zmdrescale ieeeRescaleEnv64 2 (1043 * 2 ^ 52) (1023 * 2 ^ 52)
      (memOfList [23 * 2 ^ 52 + 2 ^ 51, 23 * 2 ^ 52 + 2 ^ 51, 3 * 2 ^ 33, 3 * 2 ^ 33])
      0 1 4 1) (0 + 1 * 1)) = false := by
  decide

/-! ## Entry points and facades -/

/-- C17. The fold-implicit entry point equals the fold-explicit one at the default fold:
reproBLAS_dsum(N, X, incX) returns exactly reproBLAS_rdsum(DIDEFAULTFOLD, N, X, incX); and the
test wrapper wrap_rzgemm agrees with reproBLAS_rzgemm at every fold exactly when
reproBLAS_zgemm is reproBLAS_rzgemm at the fold DIDEFAULTFOLD. -/
theorem reproBLAS_dsum_default_fold (E : BlasEnv) (N : Int) (m : Mem) (X incX : Int) :
    reproBLAS_dsum E N m X incX = E.reproBLAS_rdsum E.DIDEFAULTFOLD N m X incX ∧
    ((∀ (fold : Int) (a : GemmArgs) (c : Mem),
        wrap_rzgemm E fold a c = E.reproBLAS_rzgemm fold a c) ↔
      (∀ (a : GemmArgs) (c : Mem),
        E.reproBLAS_zgemm a c = E.reproBLAS_rzgemm E.DIDEFAULTFOLD a c)) := by
  refine ⟨rfl, ?_, ?_⟩
  · intro h a c
    have := h E.DIDEFAULTFOLD a c
    simpa [wrap_rzgemm] using this
  · intro h fold a c
    unfold wrap_rzgemm
    split
    · rename_i hf
      rw [hf]
      exact h a c
    · rfl

/-- C16. Euclidean norm facade: reproBLAS_rsnrm2(fold, N, X, incX) returns
scl * sqrt(convert(ssq)): the IEEE-754 double precision product of scl and of the double
precision square root of convert(ssq), both promoted from float, rounded to float. Here ssq
is the accumulator returned by idxd_sialloc(fold), zeroed by idxd_sisetzero (each of its
2*fold scalars is +0.0 when the kernel starts, and the kernel gets this zeroed memory), scl
is the scale returned by the kernel idxdBLAS_sisssq run on X with that accumulator and the
initial scale 0.0, and the conversion reads the accumulator as the kernel left it. -/
theorem reproBLAS_rsnrm2_value (E : SNrm2Env) (fold N : Int) (m : Mem) (X incX k : Int)
    (h0 : 0 ≤ k) (hk : k < 2 * fold) :
    (reproBLAS_rsnrm2 E fold N m X incX).result =
      Fmt.convert binary64 binary32
        (binary64.mul
          (Fmt.convert binary32 binary64
            (E.idxdBLAS_sisssq fold N X incX 0
              (idxd_sisetzero fold m (idxd_sialloc E.malloc fold))
              (idxd_sialloc E.malloc fold)).1)
          (binary64.sqrt
            (Fmt.convert binary32 binary64
              (E.idxd_ssiconv fold
                (E.idxdBLAS_sisssq fold N X incX 0
                  (idxd_sisetzero fold m (idxd_sialloc E.malloc fold))
                  (idxd_sialloc E.malloc fold)).2
                (idxd_sialloc E.malloc fold))))) ∧
    idxd_sisetzero fold m (idxd_sialloc E.malloc fold) (idxd_sialloc E.malloc fold + k) = 0 := by
  refine ⟨rfl, ?_⟩
  have hn : (((2 * fold).toNat : Nat) : Int) = 2 * fold := Int.toNat_of_nonneg (by omega)
  apply memsetZero_inside _ _ _ _ _ (by omega)
  rw [idxd_sisize, Nat.mul_div_cancel _ (by decide : 0 < 4)]
  omega

set_option maxRecDepth 100000 in
/-- Witness for C16: fold 2, the vector (6.0, 8.0) at address 10 and an accumulator
allocated at address 100 whose cells hold 100.0 before the call. The sample kernel returns
the scale 2.0 and leaves 3.0^2 + 4.0^2 = 25.0 in the zeroed primary[0], so the facade returns
2.0 * sqrt(25.0) = 10.0; cell 3 of the accumulator is +0.0 when the kernel starts. -/
theorem reproBLAS_rsnrm2_value_witness :
    (0 : Int) ≤ 3 ∧ (3 : Int) < 2 * 2 ∧
    (reproBLAS_rsnrm2 (squaresSNrm2Env 100) 2 2 vec68Mem 10 1).result = 0x41200000 ∧
    idxd_sisetzero 2 vec68Mem (idxd_sialloc (squaresSNrm2Env 100).malloc 2)
      (idxd_sialloc (squaresSNrm2Env 100).malloc 2 + 3) = 0 :=
  ⟨by decide, by decide,
    (reproBLAS_rsnrm2_value (squaresSNrm2Env 100) 2 2 vec68Mem 10 1 3 (by decide)
      (by decide)).1.trans (by decide),
    (reproBLAS_rsnrm2_value (squaresSNrm2Env 100) 2 2 vec68Mem 10 1 3 (by decide)
      (by decide)).2⟩

/-- C19, counterexample. The allocator fails (it returns the null pointer 0); reproBLAS_rsnrm2
nevertheless calls idxd_sisetzero on the null accumulator, which writes through it: cell 0
held the pattern 5 before the call and holds 0 after it. -/
theorem reproBLAS_rsnrm2_null_counterexample :
    idxd_sialloc (sampleSNrm2Env 0).malloc 2 = 0 ∧
    AccCall.setzero 0 ∈
      (reproBLAS_rsnrm2 (sampleSNrm2Env 0) 2 1 (memOfList [5, 6, 7, 8, 9]) 10 1).calls ∧
    (reproBLAS_rsnrm2 (sampleSNrm2Env 0) 2 1 (memOfList [5, 6, 7, 8, 9]) 10 1).mem 0
      ≠ memOfList [5, 6, 7, 8, 9] 0 := by
  decide

/-- C19, amended. Allocation failure is not handled by the facade: idxd_cialloc returns the
result of the allocator unchanged (the null pointer when the allocation fails), and
reproBLAS_rsnrm2 passes the pointer it gets from idxd_sialloc, whatever it is, to
idxd_sisetzero, to the kernel idxdBLAS_sisssq, to idxd_ssiconv and to free, in this order. -/
theorem reproBLAS_rsnrm2_alloc_unchecked (E : SNrm2Env) (malloc : Nat → Int) (fold N : Int)
    (m : Mem) (X incX : Int) :
    idxd_cialloc malloc fold = malloc (idxd_cisize fold) ∧
    (reproBLAS_rsnrm2 E fold N m X incX).calls =
      [AccCall.setzero (idxd_sialloc E.malloc fold), AccCall.kernel (idxd_sialloc E.malloc fold),
       AccCall.convert (idxd_sialloc E.malloc fold), AccCall.free (idxd_sialloc E.malloc fold)] ∧
    (reproBLAS_rsnrm2 E fold N m X incX).mem =
      (E.idxdBLAS_sisssq fold N X incX 0 (idxd_sisetzero fold m (idxd_sialloc E.malloc fold))
        (idxd_sialloc E.malloc fold)).2 :=
  ⟨rfl, rfl, rfl⟩

theorem dmdupdate_frame (E : DEnv) (fold : Int) (X : Nat) (m : Mem)
    (priY incpriY carY inccarY a : Int)
    (h : ∀ k : Int, 0 ≤ k → k < fold → a ≠ priY + k * incpriY ∧ a ≠ carY + k * inccarY) :
    dmdupdate E fold X m priY incpriY carY inccarY a = m a := by
  unfold dmdupdate
  split
  · rfl
  · dsimp only
    split
    · apply seedLoop_frame
      intro k hk1 hk2
      have hk3 : (fold.toNat : Int) ≤ max fold 0 := by rw [Int.toNat_eq_max]
      exact h k hk1 (by omega)
    · split
      · rename_i hs
        generalize E.dmindex m priY - E.dindex X = s at hs ⊢
        have hr1 : (shiftLoop s priY incpriY carY inccarY (fold - s).toNat (fold - 1) m []).1
            ≤ fold - 1 := by
          by_cases hsf : s ≤ fold
          · rw [shiftLoop_index s priY incpriY carY inccarY (fold - s).toNat (fold - 1) m []
              (by rw [Int.toNat_of_nonneg (by omega)]; omega)]
            omega
          · have hn0 : (fold - s).toNat = 0 := Int.toNat_eq_zero.mpr (by omega)
            rw [hn0]
            simp only [shiftLoop]
            exact le_refl _
        rw [seedLoop_frame, shiftLoop_frame]
        · intro k hk1 hk2
          exact h k (by omega) (by omega)
        · intro k hk1 hk2
          have hk3 : (((shiftLoop s priY incpriY carY inccarY (fold - s).toNat (fold - 1) m
              []).1 + 1).toNat : Int) ≤ max ((shiftLoop s priY incpriY carY inccarY
              (fold - s).toNat (fold - 1) m []).1 + 1) 0 := by
            rw [Int.toNat_eq_max]
          exact h k hk1 (by omega)
      · rfl

theorem dmdupdate_top (E : DEnv) (fold : Int) (X : Nat) (m : Mem)
    (priY incpriY carY inccarY : Int)
    (hd : SlotsDistinct fold priY incpriY carY inccarY) (hfold : 1 ≤ fold)
    (hfin : ISNANINF (m priY) = false)
    (hpath : dEqZero (m priY) = true ∨ 0 < E.dmindex m priY - E.dindex X) :
    dmdupdate E fold X m priY incpriY carY inccarY priY = E.dmbins (E.dindex X) 0 := by
  have h0 : priY = priY + 0 * incpriY := by ring
  by_cases hz : dEqZero (m priY) = true
  · simp only [dmdupdate, hfin, hz, if_true, Bool.false_eq_true, if_false]
    have hcount : ((fold.toNat : Nat) : Int) = fold := Int.toNat_of_nonneg (by omega)
    have := (seedLoop_slots (E.dmbins (E.dindex X)) fold priY incpriY carY inccarY hd
      fold.toNat 0 m (le_refl _) (by omega) 0 (le_refl _) (by omega)).1
    rw [← h0] at this
    exact this
  · have hs : E.dmindex m priY - E.dindex X > 0 := by
      rcases hpath with h | h
      · exact absurd h hz
      · exact h
    simp only [dmdupdate, hfin, hz, hs, if_true, Bool.false_eq_true, if_false]
    generalize E.dmindex m priY - E.dindex X = s at hs ⊢
    by_cases hsf : s ≤ fold
    · rw [shiftLoop_index s priY incpriY carY inccarY (fold - s).toNat (fold - 1) m []
        (by rw [Int.toNat_of_nonneg (by omega)]; omega)]
      have hcount : (((s - 1 + 1).toNat : Nat) : Int) = s := by
        rw [Int.toNat_of_nonneg (by omega)]; omega
      have := (seedLoop_slots (E.dmbins (E.dindex X)) fold priY incpriY carY inccarY hd
        (s - 1 + 1).toNat 0 (shiftLoop s priY incpriY carY inccarY (fold - s).toNat (fold - 1)
          m []).2.1 (le_refl _) (by omega) 0 (le_refl _) (by omega)).1
      rw [← h0] at this
      exact this
    · have hn0 : (fold - s).toNat = 0 := Int.toNat_eq_zero.mpr (by omega)
      rw [hn0]
      simp only [shiftLoop]
      have hcount : (((fold - 1 + 1).toNat : Nat) : Int) = fold := by
        rw [Int.toNat_of_nonneg (by omega)]; omega
      have := (seedLoop_slots (E.dmbins (E.dindex X)) fold priY incpriY carY inccarY hd
        (fold - 1 + 1).toNat 0 m (le_refl _) (by omega) 0 (le_refl _) (by omega)).1
      rw [← h0] at this
      exact this

theorem dmdupdate_small_fold (E : DEnv) (fold : Int) (X : Nat) (m : Mem)
    (priY incpriY carY inccarY : Int) (hfold : fold ≤ 0) :
    dmdupdate E fold X m priY incpriY carY inccarY = m := by
  funext a
  apply dmdupdate_frame
  intro k hk1 hk2
  omega

/-- C25. Update with a shift at least as large as the fold: when priY[0] is finite and nonzero
and s = dmindex(priY) - dindex(X) >= fold, then (on an accumulator whose 2*fold cells are
pairwise distinct) every bin i < fold ends with primary dmbins(dindex(X))[i] and carry +0.0,
the downward loop performs no read and no write at all (its access log is empty, so no index
i - s is ever formed), and every cell that is not one of the fold primary or fold carry cells
keeps its value. -/
theorem dmdupdate_large_shift (E : DEnv) (fold : Int) (X : Nat) (m : Mem)
    (priY incpriY carY inccarY : Int)
    (hfin : ISNANINF (m priY) = false) (hnz : dEqZero (m priY) = false)
    (hs : fold ≤ E.dmindex m priY - E.dindex X) :
    (SlotsDistinct fold priY incpriY carY inccarY →
      ∀ i : Int, 0 ≤ i → i < fold →
        dmdupdate E fold X m priY incpriY carY inccarY (priY + i * incpriY)
            = E.dmbins (E.dindex X) i ∧
        dmdupdate E fold X m priY incpriY carY inccarY (carY + i * inccarY) = 0) ∧
    dmdupdateShiftLog E fold X m priY incpriY carY inccarY = [] ∧
    (∀ a : Int,
      (∀ k : Int, 0 ≤ k → k < fold → a ≠ priY + k * incpriY ∧ a ≠ carY + k * inccarY) →
      dmdupdate E fold X m priY incpriY carY inccarY a = m a) := by
  have hn0 : (fold - (E.dmindex m priY - E.dindex X)).toNat = 0 :=
    Int.toNat_eq_zero.mpr (by omega)
  refine ⟨?_, ?_, fun a h => dmdupdate_frame E fold X m priY incpriY carY inccarY a h⟩
  · intro hd i hi0 hi
    have hs2 : E.dmindex m priY - E.dindex X > 0 := by omega
    simp only [dmdupdate, hfin, hnz, hs2, if_true, Bool.false_eq_true, if_false, hn0, shiftLoop]
    have hcount : (((fold - 1 + 1).toNat : Nat) : Int) = fold := by
      rw [Int.toNat_of_nonneg (by omega)]; omega
    exact seedLoop_slots _ fold priY incpriY carY inccarY hd (fold - 1 + 1).toNat 0 m
      (le_refl _) (by omega) i hi0 (by omega)
  · simp only [dmdupdateShiftLog, hn0, shiftLoop]

/-- Witness for C25: fold 3, top index 27, X of index 22, so the shift is 5. -/
theorem dmdupdate_large_shift_witness :
    ISNANINF (packed3 (1100 * 2 ^ 52 + 5) 7 8 1 2 3 0) = false ∧
    dEqZero (packed3 (1100 * 2 ^ 52 + 5) 7 8 1 2 3 0) = false ∧
    (3 : Int) ≤ specDEnv.dmindex (packed3 (1100 * 2 ^ 52 + 5) 7 8 1 2 3) 0
          - specDEnv.dindex (900 * 2 ^ 52) ∧
    SlotsDistinct 3 0 1 3 1 ∧
    dmdupdate specDEnv 3 (900 * 2 ^ 52) (packed3 (1100 * 2 ^ 52 + 5) 7 8 1 2 3) 0 1 3 1
        (0 + 2 * 1) = specDEnv.dmbins (specDEnv.dindex (900 * 2 ^ 52)) 2 ∧
    dmdupdateShiftLog specDEnv 3 (900 * 2 ^ 52) (packed3 (1100 * 2 ^ 52 + 5) 7 8 1 2 3)
        0 1 3 1 = [] :=
  ⟨by decide, by decide, by decide, slotsDistinct_packed3,
    ((dmdupdate_large_shift specDEnv 3 (900 * 2 ^ 52) (packed3 (1100 * 2 ^ 52 + 5) 7 8 1 2 3)
      0 1 3 1 (by decide) (by decide) (by decide)).1 slotsDistinct_packed3 2
        (by decide) (by decide)).1,
    (dmdupdate_large_shift specDEnv 3 (900 * 2 ^ 52) (packed3 (1100 * 2 ^ 52 + 5) 7 8 1 2 3)
      0 1 3 1 (by decide) (by decide) (by decide)).2.1⟩

/-- C26. Update is idempotent: on an accumulator whose 2*fold cells are pairwise distinct, if
the top entry dmbins(dindex(X))[0] of the bin-table row of X is finite and nonzero and dmindex
of a primary vector whose first entry is that value equals dindex(X), then calling dmdupdate
twice with the same X leaves the memory in the same state as calling it once, for every
initial accumulator (zero, initialized or tainted). -/
theorem dmdupdate_idempotent (E : DEnv) (fold : Int) (X : Nat) (m : Mem)
    (priY incpriY carY inccarY : Int)
    (hd : SlotsDistinct fold priY incpriY carY inccarY)
    (hb1 : ISNANINF (E.dmbins (E.dindex X) 0) = false)
    (hb2 : dEqZero (E.dmbins (E.dindex X) 0) = false)
    (hidx : ∀ m' : Mem, m' priY = E.dmbins (E.dindex X) 0 → E.dmindex m' priY = E.dindex X) :
    dmdupdate E fold X (dmdupdate E fold X m priY incpriY carY inccarY)
        priY incpriY carY inccarY
      = dmdupdate E fold X m priY incpriY carY inccarY := by
  by_cases hfold : fold ≤ 0
  · rw [dmdupdate_small_fold E fold X _ priY incpriY carY inccarY hfold]
  have second : dmdupdate E fold X m priY incpriY carY inccarY priY = E.dmbins (E.dindex X) 0 →
      dmdupdate E fold X (dmdupdate E fold X m priY incpriY carY inccarY)
        priY incpriY carY inccarY = dmdupdate E fold X m priY incpriY carY inccarY := by
    intro htop
    generalize dmdupdate E fold X m priY incpriY carY inccarY = m1 at htop ⊢
    have hi := hidx m1 htop
    have hns : ¬ (E.dmindex m1 priY - E.dindex X > 0) := by omega
    simp only [dmdupdate, htop, hb1, hb2, hns, Bool.false_eq_true, if_false]
  have same : dmdupdate E fold X m priY incpriY carY inccarY = m →
      dmdupdate E fold X (dmdupdate E fold X m priY incpriY carY inccarY)
        priY incpriY carY inccarY = dmdupdate E fold X m priY incpriY carY inccarY := by
    intro h
    rw [h, h]
  by_cases hfin : ISNANINF (m priY) = true
  · apply same
    simp only [dmdupdate, hfin, if_true]
  · have hfin2 : ISNANINF (m priY) = false := by simpa using hfin
    by_cases hz : dEqZero (m priY) = true
    · exact second (dmdupdate_top E fold X m priY incpriY carY inccarY hd (by omega) hfin2
        (Or.inl hz))
    · have hz2 : dEqZero (m priY) = false := by simpa using hz
      by_cases hs : 0 < E.dmindex m priY - E.dindex X
      · exact second (dmdupdate_top E fold X m priY incpriY carY inccarY hd (by omega) hfin2
          (Or.inr hs))
      · apply same
        have hs2 : ¬ (E.dmindex m priY - E.dindex X > 0) := hs
        simp only [dmdupdate, hfin2, hz2, hs2, Bool.false_eq_true, if_false]

/-- Witness for C26: X = 1.0 has index 25, the accumulator has top index 27; the first call
shifts by two bins and the second call changes nothing. -/
theorem dmdupdate_idempotent_witness :
    SlotsDistinct 3 0 1 3 1 ∧
    ISNANINF (specDEnv.dmbins (specDEnv.dindex 0x3FF0000000000000) 0) = false ∧
    dEqZero (specDEnv.dmbins (specDEnv.dindex 0x3FF0000000000000) 0) = false ∧
    dmdupdate specDEnv 3 0x3FF0000000000000
        (dmdupdate specDEnv 3 0x3FF0000000000000 (packed3 (1100 * 2 ^ 52 + 5) 7 8 1 2 3)
          0 1 3 1) 0 1 3 1
      = dmdupdate specDEnv 3 0x3FF0000000000000 (packed3 (1100 * 2 ^ 52 + 5) 7 8 1 2 3)
          0 1 3 1 :=
  ⟨slotsDistinct_packed3, by decide, by decide,
    dmdupdate_idempotent specDEnv 3 0x3FF0000000000000 (packed3 (1100 * 2 ^ 52 + 5) 7 8 1 2 3)
      0 1 3 1 slotsDistinct_packed3 (by decide) (by decide)
      (fun m' h => by
        show ((dExpField (m' 0) : Nat) : Int) / 40 = _
        rw [h]
        decide)⟩

/-! ## Complex conversion: the packed layout -/

/-- C28. The carry stride that idxd_zzmconv_sub passes to the real conversion is inccarX + 1
(the routine is the two-lane conversion with strides 2*incpriX and inccarX + 1), the
lane-wise conversion uses the interleaved carry stride 2*inccarX, the two strides coincide if
and only if inccarX = 1, and with inccarX = 1 idxd_zzmconv_sub equals the lane-wise
conversion of the real and of the imaginary lane. -/
theorem idxd_zzmconv_sub_packed (ddmconv : ConvFn) (fold : Int) (m : Mem)
    (priX incpriX carX inccarX conv : Int) :
    idxd_zzmconv_sub ddmconv fold m priX incpriX carX inccarX conv
      = zzmconv_strided ddmconv fold m priX (2 * incpriX) carX (inccarX + 1) conv ∧
    zzmconv_lanewise ddmconv fold m priX incpriX carX inccarX conv
      = zzmconv_strided ddmconv fold m priX (2 * incpriX) carX (2 * inccarX) conv ∧
    (inccarX + 1 = 2 * inccarX ↔ inccarX = 1) ∧
    (inccarX = 1 →
      idxd_zzmconv_sub ddmconv fold m priX incpriX carX inccarX conv
        = zzmconv_lanewise ddmconv fold m priX incpriX carX inccarX conv) := by
  refine ⟨?_, rfl, by omega, ?_⟩
  · simp only [idxd_zzmconv_sub, zzmconv_strided, mul_comm incpriX 2]
  · intro h
    subst h
    simp only [idxd_zzmconv_sub, zzmconv_lanewise, mul_comm incpriX 2]
    rfl

/-- Witness for C28: a packed complex accumulator of fold 2 at address 0 (primary at 0 with
stride 1, carry at 4 with stride 1), converted to addresses 8 and 9. -/
theorem idxd_zzmconv_sub_packed_witness :
    (1 : Int) = 1 ∧
    idxd_zzmconv_sub sampleConv 2 (memOfList [1, 2, 3, 4, 5, 6, 7, 8]) 0 1 4 1 8
      = zzmconv_lanewise sampleConv 2 (memOfList [1, 2, 3, 4, 5, 6, 7, 8]) 0 1 4 1 8 :=
  ⟨rfl, (idxd_zzmconv_sub_packed sampleConv 2 (memOfList [1, 2, 3, 4, 5, 6, 7, 8])
    0 1 4 1 8).2.2.2 rfl⟩

/-! ## The parallel matrix-vector product -/

theorem list_sum_map_const (n : Nat) (c : Int) (f : Nat → Int) (h : ∀ r, f r = c) :
    ((List.range n).map f).sum = n * c := by
  induction n with
  | zero => simp
  | succ n ih =>
    rw [List.range_succ, List.map_append, List.sum_append, ih]
    simp only [List.map_cons, List.map_nil, List.sum_cons, List.sum_nil, h]
    push_cast
    ring

/-- C30. Column coverage of prbdgemv: for N >= 0 and nprocs > 0, the local product of every
rank has exactly floor(N / nprocs) columns (and that leading dimension), the ranks together
cover nprocs * floor(N / nprocs) columns, this total is at most N, and it equals N if and
only if nprocs divides N. -/
theorem prbdgemv_column_coverage (nprocs M N myA myX incX myY incY : Int)
    (hN : 0 ≤ N) (hp : 0 < nprocs) :
    (∀ rank : Int, 0 ≤ rank → rank < nprocs →
      (prbdgemv_localCall rank nprocs M N myA myX incX myY incY).N = N / nprocs ∧
      (prbdgemv_localCall rank nprocs M N myA myX incX myY incY).lda = N / nprocs) ∧
    prbdgemv_totalColumns nprocs M N myA myX incX myY incY = nprocs * (N / nprocs) ∧
    prbdgemv_totalColumns nprocs M N myA myX incX myY incY ≤ N ∧
    (prbdgemv_totalColumns nprocs M N myA myX incX myY incY = N ↔ nprocs ∣ N) := by
  have htd : Int.tdiv N nprocs = N / nprocs := Int.tdiv_eq_ediv hN (le_of_lt hp)
  have htot : prbdgemv_totalColumns nprocs M N myA myX incX myY incY
      = nprocs * (N / nprocs) := by
    unfold prbdgemv_totalColumns
    rw [list_sum_map_const nprocs.toNat (N / nprocs)
      (fun r : Nat => (prbdgemv_localCall (Int.ofNat r) nprocs M N myA myX incX myY incY).N)
      (fun r => htd)]
    rw [Int.toNat_of_nonneg (le_of_lt hp)]
  refine ⟨fun rank _ _ => ⟨htd, htd⟩, htot, ?_, ?_⟩
  · rw [htot]
    exact Int.mul_ediv_self_le (ne_of_gt hp)
  · rw [htot]
    constructor
    · intro h
      exact ⟨N / nprocs, h.symm⟩
    · intro h
      exact Int.mul_ediv_cancel' h

/-- Witness for C30: 4 ranks and N = 10 columns; every rank takes 2 columns, 8 <= 10 are
covered, and 4 does not divide 10. -/
theorem prbdgemv_column_coverage_witness :
    (0 : Int) ≤ 10 ∧ (0 : Int) < 4 ∧
    prbdgemv_totalColumns 4 3 10 0 100 1 200 1 = 4 * (10 / 4) ∧
    prbdgemv_totalColumns 4 3 10 0 100 1 200 1 ≤ 10 :=
  ⟨by decide, by decide,
    (prbdgemv_column_coverage 4 3 10 0 100 1 200 1 (by decide) (by decide)).2.1,
    (prbdgemv_column_coverage 4 3 10 0 100 1 200 1 (by decide) (by decide)).2.2.1⟩

/-! ## Rescale: the bins of `smsrescale` -/

theorem shiftSeed_frame (bins : Int → Nat) (s fold : Int) (m : Mem)
    (priY incpriY carY inccarY a : Int) (hs : 0 < s)
    (h : ∀ k : Int, 0 ≤ k → k < fold → a ≠ priY + k * incpriY ∧ a ≠ carY + k * inccarY) :
    seedLoop bins priY incpriY carY inccarY
      ((shiftLoop s priY incpriY carY inccarY (fold - s).toNat (fold - 1) m []).1 + 1).toNat 0
      (shiftLoop s priY incpriY carY inccarY (fold - s).toNat (fold - 1) m []).2.1 a = m a := by
  have hr1 : (shiftLoop s priY incpriY carY inccarY (fold - s).toNat (fold - 1) m []).1
      ≤ fold - 1 := by
    by_cases hsf : s ≤ fold
    · rw [shiftLoop_index s priY incpriY carY inccarY (fold - s).toNat (fold - 1) m []
        (by rw [Int.toNat_of_nonneg (by omega)]; omega)]
      omega
    · have hn0 : (fold - s).toNat = 0 := Int.toNat_eq_zero.mpr (by omega)
      rw [hn0]
      simp only [shiftLoop]
      exact le_refl _
  rw [seedLoop_frame, shiftLoop_frame]
  · intro k hk1 hk2
    exact h k (by omega) (by omega)
  · intro k hk1 hk2
    have hk3 : (((shiftLoop s priY incpriY carY inccarY (fold - s).toNat (fold - 1) m
        []).1 + 1).toNat : Int) ≤ max ((shiftLoop s priY incpriY carY inccarY
        (fold - s).toNat (fold - 1) m []).1 + 1) 0 := by
      rw [Int.toNat_eq_max]
    exact h k hk1 (by omega)

theorem smsupdate_frame (E : DEnv) : UpdateFrame (smsupdate E) := by
  intro fold X m priY incpriY carY inccarY a h
  unfold smsupdate
  split
  · rfl
  · dsimp only
    split
    · apply seedLoop_frame
      intro k hk1 hk2
      have hk3 : (fold.toNat : Int) ≤ max fold 0 := by rw [Int.toNat_eq_max]
      exact h k hk1 (by omega)
    · split
      · rename_i hs
        exact shiftSeed_frame _ _ fold m priY incpriY carY inccarY a hs h
      · rfl

theorem smsrescaleLoop_none (E : RescaleEnv) (fold : Int) (r : Nat)
    (priY incpriY carY inccarY : Int)
    (hp : ∀ a b : Int, 0 ≤ a → a < fold → 0 ≤ b → b < fold → a ≠ b →
      priY + a * incpriY ≠ priY + b * incpriY) :
    ∀ (n : Nat) (i : Int) (m : Mem), 0 ≤ i → i + n ≤ fold →
      (∀ j : Int, i ≤ j → j < i + n →
        binary32.isZero (E.fdiv (m (priY + j * incpriY)) r) = false) →
      (smsrescaleLoop E fold r priY incpriY carY inccarY n i m).1 = none ∧
      (∀ j : Int, i ≤ j → j < i + n →
        (smsrescaleLoop E fold r priY incpriY carY inccarY n i m).2 (priY + j * incpriY)
          = E.fdiv (m (priY + j * incpriY)) r) ∧
      (∀ a : Int, (∀ j : Int, i ≤ j → j < i + n → a ≠ priY + j * incpriY) →
        (smsrescaleLoop E fold r priY incpriY carY inccarY n i m).2 a = m a) := by
  intro n
  induction n with
  | zero =>
    intro i m _ _ _
    refine ⟨rfl, ?_, fun a _ => rfl⟩
    intro j h1 h2
    exfalso
    simp at h2
    omega
  | succ n ih =>
    intro i m hi hN hnz
    push_cast at hN hnz ⊢
    have hz := hnz i (le_refl _) (by omega)
    simp only [smsrescaleLoop, Mem.write_same, hz, Bool.false_eq_true, if_false]
    have hm1 : ∀ j : Int, i + 1 ≤ j → j < i + 1 + n →
        (m.write (priY + i * incpriY) (E.fdiv (m (priY + i * incpriY)) r))
          (priY + j * incpriY) = m (priY + j * incpriY) := by
      intro j h1 h2
      exact Mem.write_other _ _ _ _ (hp j i (by omega) (by omega) hi (by omega) (by omega))
    obtain ⟨h1, h2, h3⟩ := ih (i + 1)
      (m.write (priY + i * incpriY) (E.fdiv (m (priY + i * incpriY)) r)) (by omega) (by omega)
      (fun j hj1 hj2 => by rw [hm1 j hj1 hj2]; exact hnz j (by omega) (by omega))
    refine ⟨h1, ?_, ?_⟩
    · intro j hj1 hj2
      by_cases hji : j = i
      · subst hji
        rw [h3, Mem.write_same]
        intro k hk1 hk2
        exact hp j k hi (by omega) (by omega) (by omega) (by omega)
      · rw [h2 j (by omega) (by omega), hm1 j (by omega) (by omega)]
    · intro a ha
      rw [h3 a (fun j hj1 hj2 => ha j (by omega) (by omega))]
      exact Mem.write_other _ _ _ _ (ha i (le_refl _) (by omega))

theorem smsrescaleLoop_some (E : RescaleEnv) (fold : Int) (r : Nat)
    (priY incpriY carY inccarY : Int)
    (hp : ∀ a b : Int, 0 ≤ a → a < fold → 0 ≤ b → b < fold → a ≠ b →
      priY + a * incpriY ≠ priY + b * incpriY) (k : Int) :
    ∀ (n : Nat) (i : Int) (m : Mem), 0 ≤ i → i ≤ k → k < i + n → i + n ≤ fold →
      (∀ j : Int, i ≤ j → j < k →
        binary32.isZero (E.fdiv (m (priY + j * incpriY)) r) = false) →
      binary32.isZero (E.fdiv (m (priY + k * incpriY)) r) = true →
      ∃ m' : Mem,
        smsrescaleLoop E fold r priY incpriY carY inccarY n i m
          = (some k, E.update (fold - k) 0 m' (priY + k * incpriY) incpriY
              (carY + k * inccarY) inccarY) ∧
        (∀ j : Int, i ≤ j → j ≤ k → m' (priY + j * incpriY)
          = E.fdiv (m (priY + j * incpriY)) r) ∧
        (∀ a : Int, (∀ j : Int, i ≤ j → j ≤ k → a ≠ priY + j * incpriY) → m' a = m a) := by
  intro n
  induction n with
  | zero =>
    intro i m _ h1 h2 _ _ _
    exfalso
    simp at h2
    omega
  | succ n ih =>
    intro i m hi hik hkn hN hnz hzk
    push_cast at hN hkn
    by_cases hki : k = i
    · subst hki
      refine ⟨m.write (priY + k * incpriY) (E.fdiv (m (priY + k * incpriY)) r), ?_, ?_, ?_⟩
      · simp only [smsrescaleLoop, Mem.write_same, hzk, if_true]
      · intro j hj1 hj2
        have : j = k := by omega
        subst this
        exact Mem.write_same _ _ _
      · intro a ha
        exact Mem.write_other _ _ _ _ (ha k (le_refl _) (le_refl _))
    · have hz := hnz i (le_refl _) (by omega)
      have hm1 : ∀ j : Int, i + 1 ≤ j → j ≤ k →
          (m.write (priY + i * incpriY) (E.fdiv (m (priY + i * incpriY)) r))
            (priY + j * incpriY) = m (priY + j * incpriY) := by
        intro j h1 h2
        exact Mem.write_other _ _ _ _ (hp j i (by omega) (by omega) hi (by omega) (by omega))
      obtain ⟨m', h1, h2, h3⟩ := ih (i + 1)
        (m.write (priY + i * incpriY) (E.fdiv (m (priY + i * incpriY)) r)) (by omega)
        (by omega) (by omega) (by omega)
        (fun j hj1 hj2 => by rw [hm1 j hj1 (by omega)]; exact hnz j (by omega) hj2)
        (by rw [hm1 k (by omega) (le_refl _)]; exact hzk)
      refine ⟨m', ?_, ?_, ?_⟩
      · simp only [smsrescaleLoop, Mem.write_same, hz, Bool.false_eq_true, if_false]
        exact h1
      · intro j hj1 hj2
        by_cases hji : j = i
        · subst hji
          rw [h3, Mem.write_same]
          intro l hl1 hl2
          exact hp j l hi (by omega) (by omega) (by omega) (by omega)
        · rw [h2 j (by omega) hj2, hm1 j (by omega) hj2]
      · intro a ha
        rw [h3 a (fun j hj1 hj2 => ha j (by omega) hj2)]
        exact Mem.write_other _ _ _ _ (ha i (le_refl _) hik)

/-- C21. Real rescale: for smsrescale with X != scaleY and both nonzero, on an accumulator
whose 2*fold cells are pairwise distinct, let r = (X/scaleY)*(X/scaleY).
If no divided primary priY[i]/r is zero, the update is never called and every bin i < fold
ends as the old priY[i] divided by r with its carry unchanged.
If k is the least bin whose divided primary is zero, the routine stops at k: it returns the
result of the update called with fold - k, 0.0 and the pointers of bin k on a memory in which
priY[k] == 0, the bins below k hold the old primary divided by r, the primaries of the bins
after k are the old ones (never divided) and every carry is the old one; and when the update
writes only to the accumulator it is given, every bin i < k ends as the old priY[i] divided by
r with its carry unchanged. -/
theorem smsrescale_bins (E : RescaleEnv) (fold : Int) (X scaleY : Nat) (m : Mem)
    (priY incpriY carY inccarY : Int)
    (hne : (binary32.eq X scaleY || binary32.isZero X || binary32.isZero scaleY) = false)
    (hd : SlotsDistinct fold priY incpriY carY inccarY) :
    ((∀ i : Int, 0 ≤ i → i < fold →
        binary32.isZero (E.fdiv (m (priY + i * incpriY))
          (E.fmul (E.fdiv X scaleY) (E.fdiv X scaleY))) = false) →
      (smsrescaleRun E fold X scaleY m priY incpriY carY inccarY).1 = none ∧
      ∀ i : Int, 0 ≤ i → i < fold →
        smsrescale E fold X scaleY m priY incpriY carY inccarY (priY + i * incpriY)
          = E.fdiv (m (priY + i * incpriY)) (E.fmul (E.fdiv X scaleY) (E.fdiv X scaleY)) ∧
        smsrescale E fold X scaleY m priY incpriY carY inccarY (carY + i * inccarY)
          = m (carY + i * inccarY)) ∧
    (∀ k : Int, 0 ≤ k → k < fold →
      binary32.isZero (E.fdiv (m (priY + k * incpriY))
        (E.fmul (E.fdiv X scaleY) (E.fdiv X scaleY))) = true →
      (∀ i : Int, 0 ≤ i → i < k →
        binary32.isZero (E.fdiv (m (priY + i * incpriY))
          (E.fmul (E.fdiv X scaleY) (E.fdiv X scaleY))) = false) →
      (smsrescaleRun E fold X scaleY m priY incpriY carY inccarY).1 = some k ∧
      (∃ m' : Mem,
        smsrescale E fold X scaleY m priY incpriY carY inccarY
          = E.update (fold - k) 0 m' (priY + k * incpriY) incpriY (carY + k * inccarY)
              inccarY ∧
        binary32.isZero (m' (priY + k * incpriY)) = true ∧
        (∀ i : Int, 0 ≤ i → i < k → m' (priY + i * incpriY)
          = E.fdiv (m (priY + i * incpriY)) (E.fmul (E.fdiv X scaleY) (E.fdiv X scaleY))) ∧
        (∀ i : Int, k < i → i < fold → m' (priY + i * incpriY) = m (priY + i * incpriY)) ∧
        (∀ i : Int, 0 ≤ i → i < fold → m' (carY + i * inccarY) = m (carY + i * inccarY))) ∧
      (UpdateFrame E.update → ∀ i : Int, 0 ≤ i → i < k →
        smsrescale E fold X scaleY m priY incpriY carY inccarY (priY + i * incpriY)
          = E.fdiv (m (priY + i * incpriY)) (E.fmul (E.fdiv X scaleY) (E.fdiv X scaleY)) ∧
        smsrescale E fold X scaleY m priY incpriY carY inccarY (carY + i * inccarY)
          = m (carY + i * inccarY))) := by
  obtain ⟨hp, hc, hpc⟩ := hd
  generalize hr : E.fmul (E.fdiv X scaleY) (E.fdiv X scaleY) = r
  have hrun : smsrescaleRun E fold X scaleY m priY incpriY carY inccarY
      = smsrescaleLoop E fold r priY incpriY carY inccarY fold.toNat 0 m := by
    simp only [smsrescaleRun, hne, Bool.false_eq_true, if_false, hr]
  have hmem : smsrescale E fold X scaleY m priY incpriY carY inccarY
      = (smsrescaleLoop E fold r priY incpriY carY inccarY fold.toNat 0 m).2 := by
    simp only [smsrescale, hrun]
  constructor
  · intro hnz
    by_cases hfold : 0 ≤ fold
    · have hcount : ((fold.toNat : Nat) : Int) = fold := Int.toNat_of_nonneg hfold
      obtain ⟨h1, h2, h3⟩ := smsrescaleLoop_none E fold r priY incpriY carY inccarY hp
        fold.toNat 0 m (le_refl _) (by omega) (fun j hj1 hj2 => hnz j hj1 (by omega))
      rw [hrun, hmem]
      refine ⟨h1, fun i hi0 hi => ⟨h2 i hi0 (by omega), ?_⟩⟩
      apply h3
      intro j hj1 hj2
      exact fun e => hpc j i hj1 (by omega) hi0 hi e.symm
    · rw [hrun, hmem]
      have hn0 : fold.toNat = 0 := Int.toNat_eq_zero.mpr (by omega)
      rw [hn0]
      refine ⟨rfl, fun i hi0 hi => ?_⟩
      exfalso
      omega
  · intro k hk0 hk hzk hnz
    have hcount : ((fold.toNat : Nat) : Int) = fold := Int.toNat_of_nonneg (by omega)
    obtain ⟨m', h1, h2, h3⟩ := smsrescaleLoop_some E fold r priY incpriY carY inccarY hp k
      fold.toNat 0 m (le_refl _) hk0 (by omega) (by omega) (fun j hj1 hj2 => hnz j hj1 hj2) hzk
    have hcar : ∀ i : Int, 0 ≤ i → i < fold → m' (carY + i * inccarY)
        = m (carY + i * inccarY) := by
      intro i hi0 hi
      apply h3
      intro j hj1 hj2
      exact fun e => hpc j i hj1 (by omega) hi0 hi e.symm
    rw [hrun, hmem, h1]
    refine ⟨rfl, ⟨m', rfl, ?_, fun i hi0 hi => h2 i hi0 (by omega), ?_, hcar⟩, ?_⟩
    · rw [h2 k hk0 (le_refl _)]
      exact hzk
    · intro i hi1 hi2
      apply h3
      intro j hj1 hj2
      exact hp i j (by omega) hi2 hj1 (by omega) (by omega)
    · intro hupd i hi0 hi
      have hoff : ∀ a : Int, (∀ j : Int, k ≤ j → j < fold →
            a ≠ priY + j * incpriY ∧ a ≠ carY + j * inccarY) →
          E.update (fold - k) 0 m' (priY + k * incpriY) incpriY (carY + k * inccarY) inccarY a
            = m' a := by
        intro a ha
        apply hupd
        intro l hl0 hl
        have e1 : priY + k * incpriY + l * incpriY = priY + (k + l) * incpriY := by ring
        have e2 : carY + k * inccarY + l * inccarY = carY + (k + l) * inccarY := by ring
        rw [e1, e2]
        exact ha (k + l) (by omega) (by omega)
      constructor
      · show E.update (fold - k) 0 m' (priY + k * incpriY) incpriY (carY + k * inccarY) inccarY
          (priY + i * incpriY) = _
        rw [hoff, h2 i hi0 (by omega)]
        intro j hj1 hj2
        exact ⟨hp i j hi0 (by omega) (by omega) hj2 (by omega),
               hpc i j hi0 (by omega) (by omega) hj2⟩
      · show E.update (fold - k) 0 m' (priY + k * incpriY) incpriY (carY + k * inccarY) inccarY
          (carY + i * inccarY) = _
        rw [hoff, hcar i hi0 (by omega)]
        intro j hj1 hj2
        exact ⟨fun e => hpc j i (by omega) hj2 hi0 (by omega) e.symm,
               hc i j hi0 (by omega) (by omega) hj2 (by omega)⟩

theorem slotsDistinct_packed2 : SlotsDistinct 2 0 1 2 1 := by
  refine ⟨?_, ?_, ?_⟩ <;> intros <;> omega

/-- Witness for C21: fold 2, primaries 1.0 and 2^-149, new scale 2.0 and current scale 1.0, so
r = 4.0; bin 0 becomes 0.25 and the divided primary of bin 1 underflows to 0, where the
update is called. -/
theorem smsrescale_bins_witness :
    (binary32.eq 0x40000000 0x3F800000 || binary32.isZero 0x40000000
      || binary32.isZero 0x3F800000) = false ∧
    SlotsDistinct 2 0 1 2 1 ∧
    UpdateFrame specRescaleEnv32.update ∧
    (smsrescaleRun specRescaleEnv32 2 0x40000000 0x3F800000 (memOfList [0x3F800000, 1, 5, 6])
      0 1 2 1).1 = some 1 ∧
    smsrescale specRescaleEnv32 2 0x40000000 0x3F800000 (memOfList [0x3F800000, 1, 5, 6])
      0 1 2 1 (0 + 0 * 1)
        = specRescaleEnv32.fdiv (memOfList [0x3F800000, 1, 5, 6] (0 + 0 * 1))
            (specRescaleEnv32.fmul (specRescaleEnv32.fdiv 0x40000000 0x3F800000)
              (specRescaleEnv32.fdiv 0x40000000 0x3F800000)) ∧
    smsrescale specRescaleEnv32 2 0x40000000 0x3F800000 (memOfList [0x3F800000, 1, 5, 6])
      0 1 2 1 (2 + 0 * 1) = memOfList [0x3F800000, 1, 5, 6] (2 + 0 * 1) :=
  ⟨by decide, slotsDistinct_packed2, smsupdate_frame specSIndexEnv,
    ((smsrescale_bins specRescaleEnv32 2 0x40000000 0x3F800000
      (memOfList [0x3F800000, 1, 5, 6]) 0 1 2 1 (by decide) slotsDistinct_packed2).2 1
      (by decide) (by decide) (by decide)
      (fun i h0 h1 => by
        have h : i = 0 := by omega
        subst h
        decide)).1,
    ((smsrescale_bins specRescaleEnv32 2 0x40000000 0x3F800000
      (memOfList [0x3F800000, 1, 5, 6]) 0 1 2 1 (by decide) slotsDistinct_packed2).2 1
      (by decide) (by decide) (by decide)
      (fun i h0 h1 => by
        have h : i = 0 := by omega
        subst h
        decide)).2.2 (smsupdate_frame specSIndexEnv) 0 (by decide) (by decide)⟩


/-! ## Deposit: the forced low bit -/

theorem lor_one_odd (v : Nat) : (v ||| 1) % 2 = 1 := by
  rw [Nat.or_mod_two_eq_one]
  right
  rfl

theorem lor_one_idem (v : Nat) : (v ||| 1) ||| 1 = v ||| 1 := by
  rw [Nat.or_assoc, Nat.or_self]

theorem replayAddends_append (E : SEnv) (priY incpriY : Int) (l1 l2 : List Addend) :
    ∀ m : Mem, replayAddends E priY incpriY (l1 ++ l2) m
      = replayAddends E priY incpriY l2 (replayAddends E priY incpriY l1 m) := by
  induction l1 with
  | nil => intro m; rfl
  | cons e es ih =>
    intro m
    simp only [List.cons_append, replayAddends]
    exact ih _

theorem smsLoop_replay (E : SEnv) (priY incpriY : Int) :
    ∀ (n : Nat) (i : Int) (x : Nat) (m : Mem),
      (smsLoop E priY incpriY n i x m).2.2
        = replayAddends E priY incpriY (smsLoopLog E priY incpriY n i x m) m := by
  intro n
  induction n with
  | zero => intro i x m; rfl
  | succ n ih =>
    intro i x m
    simp only [smsLoop, smsLoopLog, replayAddends, if_true]
    exact ih _ _ _

theorem smsLoopLog_forced (E : SEnv) (priY incpriY : Int) :
    ∀ (n : Nat) (i : Int) (x : Nat) (m : Mem) (e : Addend),
      e ∈ smsLoopLog E priY incpriY n i x m → e.q = e.v ||| 1 := by
  intro n
  induction n with
  | zero => intro i x m e h; simp [smsLoopLog] at h
  | succ n ih =>
    intro i x m e h
    simp only [smsLoopLog, List.mem_cons] at h
    rcases h with h | h
    · subst h; rfl
    · exact ih _ _ _ e h

/-- C22. Forced low bit: when neither X nor priY[0] is NaN or an infinity, the memory after
idxd_smsdeposit is the memory after performing the logged additions in order; every logged
addition adds the pattern q = v | 1, where v is the running x, and on the index-0 path the
first addition goes to bin 0 with v = X * idxd_SMCOMPRESSION; hence the pattern of every
addend is odd, and forcing the bit again changes nothing. -/
theorem idxd_smsdeposit_forced_bit (E : SEnv) (fold : Int) (X : Nat) (m : Mem)
    (priY incpriY : Int)
    (hx : ISNANINFF X = false) (hm : ISNANINFF (m priY) = false) :
    idxd_smsdeposit E fold X m priY incpriY
      = replayAddends E priY incpriY (idxd_smsdepositLog E fold X m priY incpriY) m ∧
    (∀ e : Addend, e ∈ idxd_smsdepositLog E fold X m priY incpriY →
      e.q = e.v ||| 1 ∧ e.q % 2 = 1 ∧ e.q ||| 1 = e.q) ∧
    (E.smindex0 (m priY) = true →
      (idxd_smsdepositLog E fold X m priY incpriY).head?
        = some ⟨0, E.mulCompression X, E.mulCompression X ||| 1, true⟩) ∧
    (E.smindex0 (m priY) = false →
      ((idxd_smsdepositLog E fold X m priY incpriY).head?).map (fun e => (e.bin, e.v))
        = some (0, X)) := by
  have ht : (ISNANINFF X || ISNANINFF (m priY)) = false := by simp [hx, hm]
  have hforced : ∀ e : Addend, e ∈ idxd_smsdepositLog E fold X m priY incpriY →
      e.q = e.v ||| 1 := by
    intro e he
    unfold idxd_smsdepositLog at he
    rw [if_neg (by simp [ht])] at he
    split at he
    · simp only [List.mem_cons, List.mem_append, List.not_mem_nil, or_false] at he
      rcases he with h | h | h
      · subst h; rfl
      · exact smsLoopLog_forced E priY incpriY _ _ _ _ e h
      · subst h; rfl
    · simp only [List.mem_cons, List.mem_append, List.not_mem_nil, or_false] at he
      rcases he with h | h
      · exact smsLoopLog_forced E priY incpriY _ _ _ _ e h
      · subst h; rfl
  refine ⟨?_, ?_, ?_, ?_⟩
  · by_cases h0 : E.smindex0 (m priY) = true
    · have e0 : priY + 0 * incpriY = priY := by ring
      simp only [idxd_smsdeposit, idxd_smsdepositLog, ht, h0, Bool.false_eq_true, if_false,
        if_true, replayAddends, replayAddends_append, e0, smsLoop_replay]
    · have h0f : E.smindex0 (m priY) = false := by simpa using h0
      simp only [idxd_smsdeposit, idxd_smsdepositLog, ht, h0f, Bool.false_eq_true, if_false,
        replayAddends, replayAddends_append, smsLoop_replay]
  · intro e he
    have hq := hforced e he
    refine ⟨hq, ?_, ?_⟩
    · rw [hq]; exact lor_one_odd _
    · rw [hq]; exact lor_one_idem _
  · intro h0
    simp only [idxd_smsdepositLog, ht, h0, Bool.false_eq_true, if_false, if_true,
      List.head?_cons]
  · intro h0
    simp only [idxd_smsdepositLog, ht, h0, Bool.false_eq_true, if_false]
    cases hn : (fold - 1).toNat with
    | zero => simp [smsLoopLog, smsLoop]
    | succ n => simp [smsLoopLog]

/-- Witness for C22: fold 3 in IEEE single precision arithmetic, X = 1.5, primaries 2^10,
2^-3 and 2^-16 at addresses 0, 1, 2. -/
theorem idxd_smsdeposit_forced_bit_witness :
    ISNANINFF 0x3FC00000 = false ∧
    ISNANINFF (memOfList [0x44800000, 0x3E000000, 0x37800000] 0) = false ∧
    idxd_smsdeposit ieeeSEnv 3 0x3FC00000 (memOfList [0x44800000, 0x3E000000, 0x37800000]) 0 1
      = replayAddends ieeeSEnv 0 1
          (idxd_smsdepositLog ieeeSEnv 3 0x3FC00000
            (memOfList [0x44800000, 0x3E000000, 0x37800000]) 0 1)
          (memOfList [0x44800000, 0x3E000000, 0x37800000]) :=
  ⟨by decide, by decide,
    (idxd_smsdeposit_forced_bit ieeeSEnv 3 0x3FC00000
      (memOfList [0x44800000, 0x3E000000, 0x37800000]) 0 1 (by decide) (by decide)).1⟩

/-! ## Ordered comparison on binary64 -/

theorem binary64_ord_of_eq (a b : Nat) (h : binary64.eq a b = true) :
    binary64.ord a = binary64.ord b := by
  simp only [Fmt.eq, Fmt.isZero, Fmt.expField, Fmt.frac, binary64, Bool.and_eq_true,
    Bool.or_eq_true, decide_eq_true_eq] at h
  simp only [Fmt.ord, Fmt.sign, binary64, decide_eq_true_eq]
  norm_num at h ⊢
  obtain ⟨_, h⟩ := h
  split_ifs <;> omega

theorem binary64_eq_of_ord (a b : Nat) (ha : binary64.isNaN a = false)
    (hb : binary64.isNaN b = false) (h : binary64.ord a = binary64.ord b) :
    binary64.eq a b = true ∧
      (a % 2 ^ 64 = b % 2 ^ 64 ∨ (binary64.isZero a = true ∧ binary64.isZero b = true)) := by
  unfold Fmt.eq
  rw [ha, hb]
  simp only [Fmt.isZero, Fmt.expField, Fmt.frac, binary64, Bool.and_eq_true,
    Bool.or_eq_true, decide_eq_true_eq, Bool.not_false, true_and]
  simp only [Fmt.ord, Fmt.sign, binary64, decide_eq_true_eq] at h
  norm_num at h ⊢
  split_ifs at h <;> omega

theorem binary64_gt_iff (a b : Nat) :
    binary64.gt a b = true ↔
      binary64.isNaN a = false ∧ binary64.isNaN b = false ∧ binary64.ord b < binary64.ord a := by
  simp [Fmt.gt, and_assoc]


/-! ## Copying a real accumulator into a complex one -/

theorem cellLoop_frame (f g : Int → Mem → Nat) (priY incpriY carY inccarY : Int) :
    ∀ (n : Nat) (i : Int) (m : Mem) (a : Int),
      (∀ k : Int, i ≤ k → k < i + n → a ≠ priY + k * incpriY ∧ a ≠ carY + k * inccarY) →
      cellLoop f g priY incpriY carY inccarY n i m a = m a := by
  intro n
  induction n with
  | zero => intro i m a _; rfl
  | succ n ih =>
    intro i m a h
    simp only [cellLoop]
    rw [ih]
    · have h0 := h i (le_refl _) (by push_cast; omega)
      rw [Mem.write_other _ _ _ _ h0.2, Mem.write_other _ _ _ _ h0.1]
    · intro k hk1 hk2
      exact h k (by omega) (by push_cast; omega)

theorem cellLoop_copy_slots (N priX incpriX carX inccarX priY incpriY carY inccarY : Int)
    (hd : SlotsDistinct N priY incpriY carY inccarY)
    (hx : AccDisjoint N priX incpriX carX inccarX priY incpriY carY inccarY) :
    ∀ (n : Nat) (i : Int) (m : Mem), 0 ≤ i → i + n ≤ N →
      ∀ k : Int, i ≤ k → k < i + n →
        cellLoop (fun i m => m (priX + i * incpriX)) (fun i m => m (carX + i * inccarX))
          priY incpriY carY inccarY n i m (priY + k * incpriY) = m (priX + k * incpriX) ∧
        cellLoop (fun i m => m (priX + i * incpriX)) (fun i m => m (carX + i * inccarX))
          priY incpriY carY inccarY n i m (carY + k * inccarY) = m (carX + k * inccarX) := by
  obtain ⟨hp, hc, hpc⟩ := hd
  intro n
  induction n with
  | zero => intro i m _ _ k h1 h2; exfalso; simp at h2; omega
  | succ n ih =>
    intro i m hi hN k hk1 hk2
    push_cast at hN hk2
    simp only [cellLoop]
    by_cases hki : k = i
    · subst hki
      constructor
      · rw [cellLoop_frame]
        · rw [Mem.write_other _ _ _ _ (hpc k k hi (by omega) hi (by omega)), Mem.write_same]
        · intro j hj1 hj2
          exact ⟨hp k j hi (by omega) (by omega) (by omega) (by omega),
                 hpc k j hi (by omega) (by omega) (by omega)⟩
      · rw [cellLoop_frame]
        · rw [Mem.write_same,
            Mem.write_other _ _ _ _ (hx k k hi (by omega) hi (by omega)).2.2.1]
        · intro j hj1 hj2
          exact ⟨fun h => hpc j k (by omega) (by omega) hi (by omega) h.symm,
                 hc k j hi (by omega) (by omega) (by omega) (by omega)⟩
    · have hxk := hx k i (by omega) (by omega) hi (by omega)
      have := ih (i + 1)
        ((m.write (priY + i * incpriY) (m (priX + i * incpriX))).write (carY + i * inccarY)
          ((m.write (priY + i * incpriY) (m (priX + i * incpriX))) (carX + i * inccarX)))
        (by omega) (by omega) k (by omega) (by omega)
      rw [Mem.write_other _ _ _ _ hxk.2.1, Mem.write_other _ _ _ _ hxk.1,
        Mem.write_other _ _ _ _ hxk.2.2.2, Mem.write_other _ _ _ _ hxk.2.2.1] at this
      exact this

/-- C24. Setting a complex accumulator from a real one: when the cells of the real lane of Y
are pairwise distinct, no cell of the imaginary lane of Y is a cell of its real lane and no
cell of X is a cell of the real lane of Y, then after idxd_zmdmset, for every i < fold, the
real lane of Y (priY[i*2*incpriY], carY[i*2*inccarY]) holds X's priX[i*incpriX] and
carX[i*inccarX], and the imaginary lane (priY[i*2*incpriY + 1], carY[i*2*inccarY + 1]) holds
+0.0. -/
theorem idxd_zmdmset_lanes (fold : Int) (m : Mem)
    (priX incpriX carX inccarX priY incpriY carY inccarY : Int)
    (hre : SlotsDistinct fold priY (2 * incpriY) carY (2 * inccarY))
    (him : AccDisjoint fold (priY + 1) (2 * incpriY) (carY + 1) (2 * inccarY)
      priY (2 * incpriY) carY (2 * inccarY))
    (hx : AccDisjoint fold priX incpriX carX inccarX priY (2 * incpriY) carY (2 * inccarY))
    (i : Int) (hi0 : 0 ≤ i) (hi : i < fold) :
    idxd_zmdmset fold m priX incpriX carX inccarX priY incpriY carY inccarY
        (priY + i * 2 * incpriY) = m (priX + i * incpriX) ∧
    idxd_zmdmset fold m priX incpriX carX inccarX priY incpriY carY inccarY
        (carY + i * 2 * inccarY) = m (carX + i * inccarX) ∧
    idxd_zmdmset fold m priX incpriX carX inccarX priY incpriY carY inccarY
        (priY + (i * 2 * incpriY + 1)) = 0 ∧
    idxd_zmdmset fold m priX incpriX carX inccarX priY incpriY carY inccarY
        (carY + (i * 2 * inccarY + 1)) = 0 := by
  have hcount : ((fold.toNat : Nat) : Int) = fold := Int.toNat_of_nonneg (by omega)
  have hle : (0 : Int) + (fold.toNat : Nat) ≤ fold := by omega
  have hlt : i < 0 + ((fold.toNat : Nat) : Int) := by omega
  have hkb : ∀ k : Int, k < 0 + ((fold.toNat : Nat) : Int) → k < fold := by
    intro k h
    omega
  have e1 : priY + i * 2 * incpriY = priY + i * (2 * incpriY) := by ring
  have e2 : carY + i * 2 * inccarY = carY + i * (2 * inccarY) := by ring
  have e3 : priY + (i * 2 * incpriY + 1) = priY + 1 + i * (2 * incpriY) := by ring
  have e4 : carY + (i * 2 * inccarY + 1) = carY + 1 + i * (2 * inccarY) := by ring
  have him2 : SlotsDistinct fold (priY + 1) (2 * incpriY) (carY + 1) (2 * inccarY) := by
    obtain ⟨hp, hc, hpc⟩ := hre
    refine ⟨?_, ?_, ?_⟩
    · intro a b ha1 ha2 hb1 hb2 hab e
      exact hp a b ha1 ha2 hb1 hb2 hab (by omega)
    · intro a b ha1 ha2 hb1 hb2 hab e
      exact hc a b ha1 ha2 hb1 hb2 hab (by omega)
    · intro a b ha1 ha2 hb1 hb2 e
      exact hpc a b ha1 ha2 hb1 hb2 (by omega)
  have hcopy := cellLoop_copy_slots fold priX incpriX carX inccarX priY (2 * incpriY) carY
    (2 * inccarY) hre hx fold.toNat 0 m (le_refl _) hle i hi0 hlt
  have hzero := seedLoop_slots (fun _ => 0) fold (priY + 1) (2 * incpriY) (carY + 1)
    (2 * inccarY) him2 fold.toNat 0
    (idxd_dmdmset fold m priX incpriX carX inccarX priY (2 * incpriY) carY (2 * inccarY))
    (le_refl _) hle i hi0 hlt
  rw [e1, e2, e3, e4]
  unfold idxd_zmdmset idxd_dmsetzero
  refine ⟨?_, ?_, hzero.1, hzero.2⟩
  · rw [seedLoop_frame]
    · exact hcopy.1
    · intro k hk1 hk2
      have h := him k i hk1 (hkb k hk2) hi0 hi
      exact ⟨fun e => h.1 e.symm, fun e => h.2.2.1 e.symm⟩
  · rw [seedLoop_frame]
    · exact hcopy.2
    · intro k hk1 hk2
      have h := him k i hk1 (hkb k hk2) hi0 hi
      exact ⟨fun e => h.2.1 e.symm, fun e => h.2.2.2 e.symm⟩

/-- Witness for C24: fold 2, the real accumulator X packed at address 0 (primary 0..1, carry
2..3) and the complex accumulator Y packed at address 10 (primary 10..13, carry 14..17). -/
theorem idxd_zmdmset_lanes_witness :
    SlotsDistinct 2 10 (2 * 1) 14 (2 * 1) ∧
    AccDisjoint 2 (10 + 1) (2 * 1) (14 + 1) (2 * 1) 10 (2 * 1) 14 (2 * 1) ∧
    AccDisjoint 2 0 1 2 1 10 (2 * 1) 14 (2 * 1) ∧
    idxd_zmdmset 2 (memOfList [11, 12, 13, 14, 5, 5, 5, 5, 5, 5, 7, 7, 7, 7, 7, 7, 7, 7])
        0 1 2 1 10 1 14 1 (10 + 1 * 2 * 1)
      = memOfList [11, 12, 13, 14, 5, 5, 5, 5, 5, 5, 7, 7, 7, 7, 7, 7, 7, 7] (0 + 1 * 1) ∧
    idxd_zmdmset 2 (memOfList [11, 12, 13, 14, 5, 5, 5, 5, 5, 5, 7, 7, 7, 7, 7, 7, 7, 7])
        0 1 2 1 10 1 14 1 (14 + 1 * 2 * 1)
      = memOfList [11, 12, 13, 14, 5, 5, 5, 5, 5, 5, 7, 7, 7, 7, 7, 7, 7, 7] (2 + 1 * 1) ∧
    idxd_zmdmset 2 (memOfList [11, 12, 13, 14, 5, 5, 5, 5, 5, 5, 7, 7, 7, 7, 7, 7, 7, 7])
        0 1 2 1 10 1 14 1 (10 + (1 * 2 * 1 + 1)) = 0 ∧
    idxd_zmdmset 2 (memOfList [11, 12, 13, 14, 5, 5, 5, 5, 5, 5, 7, 7, 7, 7, 7, 7, 7, 7])
        0 1 2 1 10 1 14 1 (14 + (1 * 2 * 1 + 1)) = 0 :=
  ⟨by refine ⟨?_, ?_, ?_⟩ <;> intros <;> omega,
    by intro a b _ _ _ _; refine ⟨?_, ?_, ?_, ?_⟩ <;> omega,
    by intro a b _ _ _ _; refine ⟨?_, ?_, ?_, ?_⟩ <;> omega,
    idxd_zmdmset_lanes 2 (memOfList [11, 12, 13, 14, 5, 5, 5, 5, 5, 5, 7, 7, 7, 7, 7, 7, 7, 7])
      0 1 2 1 10 1 14 1
      (by refine ⟨?_, ?_, ?_⟩ <;> intros <;> omega)
      (by intro a b _ _ _ _; refine ⟨?_, ?_, ?_, ?_⟩ <;> omega)
      (by intro a b _ _ _ _; refine ⟨?_, ?_, ?_, ?_⟩ <;> omega)
      1 (by decide) (by decide)⟩

theorem binary64_gt_false (a b : Nat) (ha : binary64.isNaN a = false)
    (hb : binary64.isNaN b = false) :
    binary64.gt a b = false ↔ binary64.ord a ≤ binary64.ord b := by
  simp [Fmt.gt, ha, hb]

theorem binary64_eq_refl (a : Nat) (ha : binary64.isNaN a = false) : binary64.eq a a = true :=
  (binary64_eq_of_ord a a ha ha rfl).1

/-! ## Scaled sums of squares -/

theorem dmdmaddsq_fst (E : SsqEnv) (fold : Int) (m : Mem) (scaleX : Nat)
    (priX incpriX carX inccarX : Int) (scaleY : Nat) (priY incpriY carY inccarY : Int) :
    (dmdmaddsq E fold m scaleX priX incpriX carX inccarX scaleY priY incpriY carY inccarY).1
      = if binary64.gt scaleX scaleY then scaleX
        else if binary64.eq scaleX scaleY then scaleX else scaleY := by
  unfold dmdmaddsq
  split
  · rfl
  · split <;> rfl

/-- C23. Scaled sum-of-squares addition returns the larger scale: for scales that are not NaN,
the scale returned by dmdmaddsq is scaleX or scaleY and neither scaleX nor scaleY is greater
than it, so it is max(scaleX, scaleY); and the scale returned with the operands exchanged
compares equal to it, and is the same bit pattern unless both scales are zeros. -/
theorem dmdmaddsq_scale (E : SsqEnv) (fold : Int) (m : Mem) (scaleX scaleY : Nat)
    (priX incpriX carX inccarX priY incpriY carY inccarY : Int)
    (hX : binary64.isNaN scaleX = false) (hY : binary64.isNaN scaleY = false)
    (hXr : scaleX < 2 ^ 64) (hYr : scaleY < 2 ^ 64) :
    ((dmdmaddsq E fold m scaleX priX incpriX carX inccarX scaleY priY incpriY carY inccarY).1
        = scaleX ∨
      (dmdmaddsq E fold m scaleX priX incpriX carX inccarX scaleY priY incpriY carY inccarY).1
        = scaleY) ∧
    binary64.gt scaleX
      (dmdmaddsq E fold m scaleX priX incpriX carX inccarX scaleY priY incpriY carY inccarY).1
        = false ∧
    binary64.gt scaleY
      (dmdmaddsq E fold m scaleX priX incpriX carX inccarX scaleY priY incpriY carY inccarY).1
        = false ∧
    binary64.eq
      (dmdmaddsq E fold m scaleY priY incpriY carY inccarY scaleX priX incpriX carX inccarX).1
      (dmdmaddsq E fold m scaleX priX incpriX carX inccarX scaleY priY incpriY carY inccarY).1
        = true ∧
    ((dmdmaddsq E fold m scaleY priY incpriY carY inccarY scaleX priX incpriX carX inccarX).1
        = (dmdmaddsq E fold m scaleX priX incpriX carX inccarX scaleY priY incpriY carY
            inccarY).1 ∨
      (binary64.isZero scaleX = true ∧ binary64.isZero scaleY = true)) := by
  rw [dmdmaddsq_fst, dmdmaddsq_fst]
  have hXX : binary64.gt scaleX scaleX = false :=
    (binary64_gt_false scaleX scaleX hX hX).mpr (le_refl _)
  have hYY : binary64.gt scaleY scaleY = false :=
    (binary64_gt_false scaleY scaleY hY hY).mpr (le_refl _)
  by_cases hgt : binary64.gt scaleX scaleY = true
  · have hord := ((binary64_gt_iff scaleX scaleY).mp hgt).2.2
    have hYX : binary64.gt scaleY scaleX = false :=
      (binary64_gt_false scaleY scaleX hY hX).mpr (le_of_lt hord)
    have hne : binary64.eq scaleY scaleX = false := by
      by_contra h
      have h2 := binary64_ord_of_eq scaleY scaleX (by simpa using h)
      omega
    have e1 : (if binary64.gt scaleX scaleY = true then scaleX
        else if binary64.eq scaleX scaleY = true then scaleX else scaleY) = scaleX := by
      simp only [hgt, if_true]
    have e2 : (if binary64.gt scaleY scaleX = true then scaleY
        else if binary64.eq scaleY scaleX = true then scaleY else scaleX) = scaleX := by
      simp only [hYX, hne, Bool.false_eq_true, if_false]
    rw [e1, e2]
    exact ⟨Or.inl rfl, hXX, hYX, binary64_eq_refl scaleX hX, Or.inl rfl⟩
  · have hgt2 : binary64.gt scaleX scaleY = false := by simpa using hgt
    have hle := (binary64_gt_false scaleX scaleY hX hY).mp hgt2
    by_cases heq : binary64.eq scaleX scaleY = true
    · have hord := binary64_ord_of_eq scaleX scaleY heq
      have hYX : binary64.gt scaleY scaleX = false :=
        (binary64_gt_false scaleY scaleX hY hX).mpr (le_of_eq hord.symm)
      obtain ⟨heq2, hbits⟩ := binary64_eq_of_ord scaleY scaleX hY hX hord.symm
      have e1 : (if binary64.gt scaleX scaleY = true then scaleX
          else if binary64.eq scaleX scaleY = true then scaleX else scaleY) = scaleX := by
        simp only [hgt2, heq, if_true, Bool.false_eq_true, if_false]
      have e2 : (if binary64.gt scaleY scaleX = true then scaleY
          else if binary64.eq scaleY scaleX = true then scaleY else scaleX) = scaleY := by
        simp only [hYX, heq2, if_true, Bool.false_eq_true, if_false]
      rw [e1, e2]
      refine ⟨Or.inl rfl, hXX, hYX, heq2, ?_⟩
      rcases hbits with h | h
      · left
        rw [Nat.mod_eq_of_lt hYr, Nat.mod_eq_of_lt hXr] at h
        exact h
      · exact Or.inr ⟨h.2, h.1⟩
    · have heq2 : binary64.eq scaleX scaleY = false := by simpa using heq
      have hlt : binary64.ord scaleX < binary64.ord scaleY := by
        rcases lt_or_eq_of_le hle with h | h
        · exact h
        · exact absurd (binary64_eq_of_ord scaleX scaleY hX hY h).1 heq
      have hYX : binary64.gt scaleY scaleX = true :=
        (binary64_gt_iff scaleY scaleX).mpr ⟨hY, hX, hlt⟩
      have e1 : (if binary64.gt scaleX scaleY = true then scaleX
          else if binary64.eq scaleX scaleY = true then scaleX else scaleY) = scaleY := by
        simp only [hgt2, heq2, Bool.false_eq_true, if_false]
      have e2 : (if binary64.gt scaleY scaleX = true then scaleY
          else if binary64.eq scaleY scaleX = true then scaleY else scaleX) = scaleY := by
        simp only [hYX, if_true]
      rw [e1, e2]
      exact ⟨Or.inr rfl, hgt2, hYY, binary64_eq_refl scaleY hY, Or.inl rfl⟩

theorem cellLoop_offAcc (f g : Int → Mem → Nat) (fold : Int) (m : Mem)
    (priY incpriY carY inccarY a : Int) (h : OffAcc a fold priY incpriY carY inccarY) :
    cellLoop f g priY incpriY carY inccarY fold.toNat 0 m a = m a := by
  apply cellLoop_frame
  intro k hk1 hk2
  have hk3 : (fold.toNat : Int) ≤ max fold 0 := by rw [Int.toNat_eq_max]
  exact h k hk1 (by omega)

theorem dmdrescaleLoop_frame (E : RescaleEnv) (hupd : UpdateFrame E.update) (fold : Int)
    (r : Nat) (priY incpriY carY inccarY a : Int)
    (h : OffAcc a fold priY incpriY carY inccarY) :
    ∀ (n : Nat) (i : Int) (m : Mem), 0 ≤ i → i + n ≤ fold →
      dmdrescaleLoop E fold r priY incpriY carY inccarY n i m a = m a := by
  intro n
  induction n with
  | zero => intro i m _ _; rfl
  | succ n ih =>
    intro i m hi hN
    push_cast at hN
    have ha := (h i hi (by omega)).1
    simp only [dmdrescaleLoop]
    split
    · rw [hupd, Mem.write_other _ _ _ _ ha]
      intro l hl0 hl
      have e1 : priY + i * incpriY + l * incpriY = priY + (i + l) * incpriY := by ring
      have e2 : carY + i * inccarY + l * inccarY = carY + (i + l) * inccarY := by ring
      rw [e1, e2]
      exact h (i + l) (by omega) (by omega)
    · rw [ih (i + 1) _ (by omega) (by omega), Mem.write_other _ _ _ _ ha]

theorem dmdrescale_frame (E : RescaleEnv) (hupd : UpdateFrame E.update) (fold : Int)
    (X scaleY : Nat) (m : Mem) (priY incpriY carY inccarY a : Int)
    (h : OffAcc a fold priY incpriY carY inccarY) :
    dmdrescale E fold X scaleY m priY incpriY carY inccarY a = m a := by
  unfold dmdrescale
  split
  · rfl
  · by_cases hfold : 0 ≤ fold
    · exact dmdrescaleLoop_frame E hupd fold _ priY incpriY carY inccarY a h fold.toNat 0 m
        (le_refl _) (by rw [Int.toNat_of_nonneg hfold]; omega)
    · have hn0 : fold.toNat = 0 := Int.toNat_eq_zero.mpr (by omega)
      simp only [hn0, dmdrescaleLoop]

theorem sampleSsqEnv_writesOnlyTarget : sampleSsqEnv.WritesOnlyTarget := by
  refine ⟨?_, ?_, ?_⟩
  · intro fold X scaleY m priY incpriY carY inccarY a h
    exact dmdrescale_frame specRescaleEnv64
      (fun fold X m priY incpriY carY inccarY a h =>
        dmdupdate_frame specDEnv fold X m priY incpriY carY inccarY a h)
      fold X scaleY m priY incpriY carY inccarY a h
  · intro fold m priX incpriX carX inccarX priY incpriY carY inccarY a h
    exact cellLoop_offAcc _ _ fold m priY incpriY carY inccarY a h
  · intro fold m priX incpriX carX inccarX priY incpriY carY inccarY a h
    exact cellLoop_offAcc _ _ fold m priY incpriY carY inccarY a h

/-- Witness for C23: scaleX = 4.0 and scaleY = 1.0 on two packed accumulators of fold 2; the
returned scale is 4.0 whichever operand comes first. -/
theorem dmdmaddsq_scale_witness :
    binary64.isNaN 0x4010000000000000 = false ∧ binary64.isNaN 0x3FF0000000000000 = false ∧
    (0x4010000000000000 : Nat) < 2 ^ 64 ∧ (0x3FF0000000000000 : Nat) < 2 ^ 64 ∧
    ((dmdmaddsq sampleSsqEnv 2 (memOfList [1, 2, 3, 4, 5, 6, 7, 8]) 0x3FF0000000000000 4 1 6 1
        0x4010000000000000 0 1 2 1).1
      = (dmdmaddsq sampleSsqEnv 2 (memOfList [1, 2, 3, 4, 5, 6, 7, 8]) 0x4010000000000000
          0 1 2 1 0x3FF0000000000000 4 1 6 1).1 ∨
    (binary64.isZero 0x4010000000000000 = true ∧ binary64.isZero 0x3FF0000000000000 = true)) :=
  ⟨by decide, by decide, by norm_num, by norm_num,
    (dmdmaddsq_scale sampleSsqEnv 2 (memOfList [1, 2, 3, 4, 5, 6, 7, 8]) 0x4010000000000000
      0x3FF0000000000000 0 1 2 1 4 1 6 1 (by decide) (by decide) (by norm_num)
      (by norm_num)).2.2.2.2⟩

/-- C27. Scaled addition brings both operands to the larger scale without touching X. When
scaleX > scaleY, Y is first rescaled from scaleY to scaleX and X is then added as it is; when
the scales compare equal, X is added with no rescaling at all; when scaleX < scaleY, X is
copied to the temporary returned by dialloc, the temporary is rescaled from scaleX to scaleY
and added to Y. When each called routine writes only to the accumulator it modifies: in the
first two cases every cell outside Y keeps its value, in all cases every cell outside Y and
outside the temporary keeps its value (so X's primary and carry vectors are unchanged), and
when scaleX < scaleY the memory handed to the final addition agrees with the initial one
outside the temporary (Y itself is not rescaled). -/
theorem dmdmaddsq_branches (E : SsqEnv) (fold : Int) (m : Mem) (scaleX scaleY : Nat)
    (priX incpriX carX inccarX priY incpriY carY inccarY : Int) :
    (binary64.gt scaleX scaleY = true →
      dmdmaddsq E fold m scaleX priX incpriX carX inccarX scaleY priY incpriY carY inccarY
        = (scaleX, E.dmdmadd fold
            (E.dmdrescale fold scaleX scaleY m priY incpriY carY inccarY)
            priX incpriX carX inccarX priY incpriY carY inccarY)) ∧
    (binary64.eq scaleX scaleY = true →
      dmdmaddsq E fold m scaleX priX incpriX carX inccarX scaleY priY incpriY carY inccarY
        = (scaleX, E.dmdmadd fold m priX incpriX carX inccarX priY incpriY carY inccarY)) ∧
    (binary64.gt scaleY scaleX = true →
      dmdmaddsq E fold m scaleX priX incpriX carX inccarX scaleY priY incpriY carY inccarY
        = (scaleY, E.dmdmadd fold
            (E.dmdrescale fold scaleY scaleX
              (E.dmdmset fold m priX incpriX carX inccarX (E.dialloc fold) 1
                (E.dialloc fold + fold) 1)
              (E.dialloc fold) 1 (E.dialloc fold + fold) 1)
            (E.dialloc fold) 1 (E.dialloc fold + fold) 1 priY incpriY carY inccarY)) ∧
    (E.WritesOnlyTarget →
      (binary64.gt scaleX scaleY = true ∨ binary64.eq scaleX scaleY = true →
        ∀ a : Int, OffAcc a fold priY incpriY carY inccarY →
          (dmdmaddsq E fold m scaleX priX incpriX carX inccarX scaleY priY incpriY carY
            inccarY).2 a = m a) ∧
      (∀ a : Int, OffAcc a fold priY incpriY carY inccarY →
        OffAcc a fold (E.dialloc fold) 1 (E.dialloc fold + fold) 1 →
          (dmdmaddsq E fold m scaleX priX incpriX carX inccarX scaleY priY incpriY carY
            inccarY).2 a = m a) ∧
      (∀ a : Int, OffAcc a fold (E.dialloc fold) 1 (E.dialloc fold + fold) 1 →
        E.dmdrescale fold scaleY scaleX
          (E.dmdmset fold m priX incpriX carX inccarX (E.dialloc fold) 1
            (E.dialloc fold + fold) 1)
          (E.dialloc fold) 1 (E.dialloc fold + fold) 1 a = m a)) := by
  have heqgt : binary64.eq scaleX scaleY = true → binary64.gt scaleX scaleY = false := by
    intro h
    have hn : binary64.isNaN scaleX = false ∧ binary64.isNaN scaleY = false := by
      simp only [Fmt.eq, Bool.and_eq_true, Bool.not_eq_true'] at h
      exact ⟨h.1.1, h.1.2⟩
    exact (binary64_gt_false scaleX scaleY hn.1 hn.2).mpr
      (le_of_eq (binary64_ord_of_eq scaleX scaleY h))
  have hgtYX : binary64.gt scaleY scaleX = true →
      binary64.gt scaleX scaleY = false ∧ binary64.eq scaleX scaleY = false := by
    intro h
    obtain ⟨hY, hX, hlt⟩ := (binary64_gt_iff scaleY scaleX).mp h
    refine ⟨(binary64_gt_false scaleX scaleY hX hY).mpr (le_of_lt hlt), ?_⟩
    by_contra hc
    have h2 := binary64_ord_of_eq scaleX scaleY (by simpa using hc)
    omega
  refine ⟨?_, ?_, ?_, ?_⟩
  · intro h
    simp only [dmdmaddsq, h, if_true]
  · intro h
    simp only [dmdmaddsq, heqgt h, h, if_true, Bool.false_eq_true, if_false]
  · intro h
    simp only [dmdmaddsq, (hgtYX h).1, (hgtYX h).2, Bool.false_eq_true, if_false]
  · intro hw
    obtain ⟨hres, hadd, hset⟩ := hw
    have htmp : ∀ a : Int, OffAcc a fold (E.dialloc fold) 1 (E.dialloc fold + fold) 1 →
        E.dmdrescale fold scaleY scaleX
          (E.dmdmset fold m priX incpriX carX inccarX (E.dialloc fold) 1
            (E.dialloc fold + fold) 1)
          (E.dialloc fold) 1 (E.dialloc fold + fold) 1 a = m a := by
      intro a ha
      rw [hres _ _ _ _ _ _ _ _ a ha, hset _ _ _ _ _ _ _ _ _ _ a ha]
    have hfirst : binary64.gt scaleX scaleY = true ∨ binary64.eq scaleX scaleY = true →
        ∀ a : Int, OffAcc a fold priY incpriY carY inccarY →
          (dmdmaddsq E fold m scaleX priX incpriX carX inccarX scaleY priY incpriY carY
            inccarY).2 a = m a := by
      intro h a ha
      rcases h with h | h
      · simp only [dmdmaddsq, h, if_true]
        rw [hadd _ _ _ _ _ _ _ _ _ _ a ha, hres _ _ _ _ _ _ _ _ a ha]
      · simp only [dmdmaddsq, heqgt h, h, if_true, Bool.false_eq_true, if_false]
        rw [hadd _ _ _ _ _ _ _ _ _ _ a ha]
    refine ⟨hfirst, ?_, htmp⟩
    intro a haY haT
    by_cases h1 : binary64.gt scaleX scaleY = true
    · exact hfirst (Or.inl h1) a haY
    · by_cases h2 : binary64.eq scaleX scaleY = true
      · exact hfirst (Or.inr h2) a haY
      · have h1f : binary64.gt scaleX scaleY = false := by simpa using h1
        have h2f : binary64.eq scaleX scaleY = false := by simpa using h2
        simp only [dmdmaddsq, h1f, h2f, Bool.false_eq_true, if_false]
        rw [hadd _ _ _ _ _ _ _ _ _ _ a haY]
        exact htmp a haT

/-- Witness for C27: scaleX = 1.0 < scaleY = 4.0, Y packed at address 0 and X packed at
address 4 with fold 2, the temporary at address 1000; the cell 4, X's first primary, keeps
its value. -/
theorem dmdmaddsq_branches_witness :
    sampleSsqEnv.WritesOnlyTarget ∧
    OffAcc 4 2 0 1 2 1 ∧
    OffAcc 4 2 (sampleSsqEnv.dialloc 2) 1 (sampleSsqEnv.dialloc 2 + 2) 1 ∧
    (dmdmaddsq sampleSsqEnv 2 (memOfList [1, 2, 3, 4, 5, 6, 7, 8]) 0x3FF0000000000000 4 1 6 1
        0x4010000000000000 0 1 2 1).2 4 = memOfList [1, 2, 3, 4, 5, 6, 7, 8] 4 :=
  ⟨sampleSsqEnv_writesOnlyTarget,
    fun k _ _ => ⟨by omega, by omega⟩,
    fun k _ _ => ⟨by show (4 : Int) ≠ 1000 + k * 1; omega,
                  by show (4 : Int) ≠ 1000 + 2 + k * 1; omega⟩,
    ((dmdmaddsq_branches sampleSsqEnv 2 (memOfList [1, 2, 3, 4, 5, 6, 7, 8])
      0x3FF0000000000000 0x4010000000000000 4 1 6 1 0 1 2 1).2.2.2
      sampleSsqEnv_writesOnlyTarget).2.1 4
      (fun k _ _ => ⟨by omega, by omega⟩)
      (fun k _ _ => ⟨by show (4 : Int) ≠ 1000 + k * 1; omega,
                     by show (4 : Int) ≠ 1000 + 2 + k * 1; omega⟩)⟩

/-! ## The reference gemm with beta == 0 -/

theorem refGemmCell_beta_zero (E : RefGemmEnv) (fold : Int) (Order : Nat) (M N K : Int)
    (alpha beta : Cplx) (opA opB : CArr) (ldc i j : Int) (hb : cEqReal beta 0 = true)
    (ci : Mem) (C1 C2 : CArr) :
    ∃ (ci' : Mem) (v : Cplx),
      refGemmCell E fold Order M N K alpha beta opA opB ldc i j (ci, C1)
        = (ci', C1.set (refGemmIndex Order ldc i j) v) ∧
      refGemmCell E fold Order M N K alpha beta opA opB ldc i j (ci, C2)
        = (ci', C2.set (refGemmIndex Order ldc i j) v) := by
  unfold refGemmCell refGemmIndex
  by_cases ho : orderIsRow Order = true
  · simp only [ho, hb, if_true]
    exact ⟨_, _, rfl, rfl⟩
  · simp only [ho, hb, if_true, Bool.false_eq_true, if_false]
    exact ⟨_, _, rfl, rfl⟩

theorem CArr.set_same (C : CArr) (e : Int) (v : Cplx) : (C.set e v) e = v := by
  simp [CArr.set]

theorem CArr.set_other (C : CArr) (e b : Int) (v : Cplx) (h : b ≠ e) : (C.set e v) b = C b := by
  simp [CArr.set, h]

theorem CArr.set_agree (C1 C2 : CArr) (e b : Int) (v : Cplx) (h : C1 b = C2 b) :
    (C1.set e v) b = (C2.set e v) b := by
  by_cases hb : b = e
  · subst hb; rw [CArr.set_same, CArr.set_same]
  · rw [CArr.set_other _ _ _ _ hb, CArr.set_other _ _ _ _ hb]; exact h

theorem refGemmJ_beta_zero (E : RefGemmEnv) (fold : Int) (Order : Nat) (M N K : Int)
    (alpha beta : Cplx) (opA opB : CArr) (ldc i : Int) (hb : cEqReal beta 0 = true) :
    ∀ (n : Nat) (j : Int) (ci : Mem) (C1 C2 : CArr),
      (refGemmJ E fold Order M N K alpha beta opA opB ldc i n j (ci, C1)).1
        = (refGemmJ E fold Order M N K alpha beta opA opB ldc i n j (ci, C2)).1 ∧
      (∀ e : Int, C1 e = C2 e →
        (refGemmJ E fold Order M N K alpha beta opA opB ldc i n j (ci, C1)).2 e
          = (refGemmJ E fold Order M N K alpha beta opA opB ldc i n j (ci, C2)).2 e) ∧
      (∀ j' : Int, j ≤ j' → j' < j + n →
        (refGemmJ E fold Order M N K alpha beta opA opB ldc i n j (ci, C1)).2
            (refGemmIndex Order ldc i j')
          = (refGemmJ E fold Order M N K alpha beta opA opB ldc i n j (ci, C2)).2
              (refGemmIndex Order ldc i j')) := by
  intro n
  induction n with
  | zero =>
    intro j ci C1 C2
    refine ⟨rfl, fun e h => h, ?_⟩
    intro j' h1 h2
    exfalso
    simp at h2
    omega
  | succ n ih =>
    intro j ci C1 C2
    obtain ⟨ci', v, h1, h2⟩ :=
      refGemmCell_beta_zero E fold Order M N K alpha beta opA opB ldc i j hb ci C1 C2
    simp only [refGemmJ, h1, h2]
    obtain ⟨g1, g2, g3⟩ := ih (j + 1) ci' (C1.set (refGemmIndex Order ldc i j) v)
      (C2.set (refGemmIndex Order ldc i j) v)
    refine ⟨g1, ?_, ?_⟩
    · intro e he
      exact g2 e (CArr.set_agree C1 C2 _ e v he)
    · intro j' hj1 hj2
      push_cast at hj2
      by_cases hj : j' = j
      · subst hj
        apply g2
        rw [CArr.set_same, CArr.set_same]
      · exact g3 j' (by omega) (by omega)

theorem refGemmI_beta_zero (E : RefGemmEnv) (fold : Int) (Order : Nat) (M N K : Int)
    (alpha beta : Cplx) (opA opB : CArr) (ldc : Int) (hb : cEqReal beta 0 = true) :
    ∀ (n : Nat) (i : Int) (ci : Mem) (C1 C2 : CArr),
      (refGemmI E fold Order M N K alpha beta opA opB ldc n i (ci, C1)).1
        = (refGemmI E fold Order M N K alpha beta opA opB ldc n i (ci, C2)).1 ∧
      (∀ e : Int, C1 e = C2 e →
        (refGemmI E fold Order M N K alpha beta opA opB ldc n i (ci, C1)).2 e
          = (refGemmI E fold Order M N K alpha beta opA opB ldc n i (ci, C2)).2 e) ∧
      (∀ i' j' : Int, i ≤ i' → i' < i + n → 0 ≤ j' → j' < N →
        (refGemmI E fold Order M N K alpha beta opA opB ldc n i (ci, C1)).2
            (refGemmIndex Order ldc i' j')
          = (refGemmI E fold Order M N K alpha beta opA opB ldc n i (ci, C2)).2
              (refGemmIndex Order ldc i' j')) := by
  intro n
  induction n with
  | zero =>
    intro i ci C1 C2
    refine ⟨rfl, fun e h => h, ?_⟩
    intro i' j' h1 h2
    exfalso
    simp at h2
    omega
  | succ n ih =>
    intro i ci C1 C2
    obtain ⟨r1, r2, r3⟩ :=
      refGemmJ_beta_zero E fold Order M N K alpha beta opA opB ldc i hb N.toNat 0 ci C1 C2
    simp only [refGemmI]
    generalize hs1 : refGemmJ E fold Order M N K alpha beta opA opB ldc i N.toNat 0 (ci, C1)
      = s1 at r1 r2 r3
    generalize hs2 : refGemmJ E fold Order M N K alpha beta opA opB ldc i N.toNat 0 (ci, C2)
      = s2 at r1 r2 r3
    obtain ⟨ci1, D1⟩ := s1
    obtain ⟨ci2, D2⟩ := s2
    simp only at r1 r2 r3
    subst r1
    obtain ⟨g1, g2, g3⟩ := ih (i + 1) ci1 D1 D2
    refine ⟨g1, ?_, ?_⟩
    · intro e he
      exact g2 e (r2 e he)
    · intro i' j' hi1 hi2 hj1 hj2
      push_cast at hi2
      by_cases hi : i' = i
      · subst hi
        apply g2
        apply r3 j' hj1
        rw [Int.toNat_of_nonneg (by omega)]
        omega
      · exact g3 i' j' (by omega) (by omega) hj1 hj2

/-- C29. In the reference gemm wrap_ref_rzgemm, when beta == 0 the output C does not depend on
the initial contents of C: two runs that differ only in the initial array C (whatever its
entries, NaN and Inf included) produce the same value at every entry (i, j) with i < M and
j < N, that is at element i*ldc + j under the row label of the switch and j*ldc + i under the
default label; and every element on which the initial arrays agree ends with the same value
in both runs. -/
theorem wrap_ref_rzgemm_beta_zero (E : RefGemmEnv) (fold : Int) (Order TransA TransB : Nat)
    (M N K : Int) (alpha : Cplx) (A : CArr) (lda : Int) (B : CArr) (ldb : Int) (beta : Cplx)
    (C1 C2 : CArr) (ldc : Int) (hb : cEqReal beta 0 = true) :
    (∀ i j : Int, 0 ≤ i → i < M → 0 ≤ j → j < N →
      wrap_ref_rzgemm E fold Order TransA TransB M N K alpha A lda B ldb beta C1 ldc
          (refGemmIndex Order ldc i j)
        = wrap_ref_rzgemm E fold Order TransA TransB M N K alpha A lda B ldb beta C2 ldc
            (refGemmIndex Order ldc i j)) ∧
    (∀ e : Int, C1 e = C2 e →
      wrap_ref_rzgemm E fold Order TransA TransB M N K alpha A lda B ldb beta C1 ldc e
        = wrap_ref_rzgemm E fold Order TransA TransB M N K alpha A lda B ldb beta C2 ldc e) := by
  unfold wrap_ref_rzgemm
  constructor
  · intro i j hi0 hi hj0 hj
    exact (refGemmI_beta_zero E fold Order M N K alpha beta _ _ ldc hb M.toNat 0 _ C1 C2).2.2
      i j hi0 (by rw [Int.toNat_of_nonneg (by omega)]; omega) hj0 hj
  · intro e he
    exact (refGemmI_beta_zero E fold Order M N K alpha beta _ _ ldc hb M.toNat 0 _ C1 C2).2.1
      e he

/-- Witness for C29: a 2 x 2 product in row-major order with beta = 0, started once from an
array C of NaN and infinities and once from an array of ones. -/
theorem wrap_ref_rzgemm_beta_zero_witness :
    cEqReal (0, 0) 0 = true ∧
    wrap_ref_rzgemm sampleRefGemmEnv 2 114 110 110 2 2 2 (0x3FF0000000000000, 0)
        (carrOfList [(0x3FF0000000000000, 0), (0x4000000000000000, 0),
          (0x4008000000000000, 0), (0x4010000000000000, 0)]) 2
        (carrOfList [(0x3FF0000000000000, 0), (0, 0), (0, 0), (0x3FF0000000000000, 0)]) 2
        (0, 0)
        (carrOfList [(0x7FF8000000000000, 0), (0x7FF0000000000000, 0),
          (0, 0xFFF0000000000000), (0x7FF8000000000000, 0x7FF8000000000000)]) 2
        (refGemmIndex 114 2 1 0)
      = wrap_ref_rzgemm sampleRefGemmEnv 2 114 110 110 2 2 2 (0x3FF0000000000000, 0)
        (carrOfList [(0x3FF0000000000000, 0), (0x4000000000000000, 0),
          (0x4008000000000000, 0), (0x4010000000000000, 0)]) 2
        (carrOfList [(0x3FF0000000000000, 0), (0, 0), (0, 0), (0x3FF0000000000000, 0)]) 2
        (0, 0)
        (carrOfList [(0x3FF0000000000000, 0), (0x3FF0000000000000, 0),
          (0x3FF0000000000000, 0), (0x3FF0000000000000, 0)]) 2
        (refGemmIndex 114 2 1 0) :=
  ⟨by decide,
    (wrap_ref_rzgemm_beta_zero sampleRefGemmEnv 2 114 110 110 2 2 2 (0x3FF0000000000000, 0)
      (carrOfList [(0x3FF0000000000000, 0), (0x4000000000000000, 0),
        (0x4008000000000000, 0), (0x4010000000000000, 0)]) 2
      (carrOfList [(0x3FF0000000000000, 0), (0, 0), (0, 0), (0x3FF0000000000000, 0)]) 2
      (0, 0)
      (carrOfList [(0x7FF8000000000000, 0), (0x7FF0000000000000, 0),
        (0, 0xFFF0000000000000), (0x7FF8000000000000, 0x7FF8000000000000)])
      (carrOfList [(0x3FF0000000000000, 0), (0x3FF0000000000000, 0),
        (0x3FF0000000000000, 0), (0x3FF0000000000000, 0)]) 2 (by decide)).1 1 0
      (by decide) (by decide) (by decide) (by decide)⟩

end ReproBLAS
